import Mathlib

/-!
# Elemental: regularized LDL^H factorization and packed reflector application

A shallow embedding of

* `src/lapack_like/factor/dense/LDL/RegularizedVar3.hpp`
  (`ldl::RegularizedVar3Unb`, serial and distributed `ldl::RegularizedVar3`),
* `include/elemental/lapack-like/ApplyPackedReflectors/LLHF.hpp` (serial `LLHF`),

over an exact scalar field.  The C++ templates are generic in the scalar type `F`
with real base type `Base<F>`; here `F` is any field with a conjugation and `R`
any linearly ordered field, tied together by the class `Scalar`, with the rationals
(real scalars) and the Gaussian rationals (complex scalars) as executable instances.
Floating point rounding is not modelled: all arithmetic is exact.

A `Matrix` is a height, a width and an entry function; the entry `ABuffer[i+j*ldim]`
of the column-major buffer is the entry `Get i j`.  Loops are `forLoop`s over an
explicit state, views are extracted with `View` and written back with `SetView`.
-/

namespace El

/-! ## Scalars -/

/-- Modelled from the spec: the scalar type `F` of the templates with its real base type
`R = Base<F>`, a generic numeric type with the capabilities "real part" (`RealPart`) and
"conjugate" (`Conj`), and the implicit conversion `ofReal` from `Base<F>` to `F`.  For
real scalars `Conj` and `RealPart` are the identity. -/
class Scalar (F : Type) (R : outParam Type) [Field F] [LinearOrderedField R] where
  /-- Real part, `RealPart(alpha)`. -/
  RealPart : F → R
  /-- Complex conjugation, `Conj(alpha)`. -/
  Conj : F →+* F
  /-- Conversion of a real number to a scalar. -/
  ofReal : R →+* F
  Conj_Conj : ∀ z, Conj (Conj z) = z
  Conj_ofReal : ∀ r, Conj (ofReal r) = ofReal r
  RealPart_ofReal : ∀ r, RealPart (ofReal r) = r
  ofReal_RealPart : ∀ z, Conj z = z → ofReal (RealPart z) = z

/-- Real scalars: `F = Base<F> = ℚ`, conjugation and real part are the identity. -/
instance instScalarRat : Scalar ℚ ℚ where
  RealPart := fun z => z
  Conj := RingHom.id ℚ
  ofReal := RingHom.id ℚ
  Conj_Conj := fun _ => rfl
  Conj_ofReal := fun _ => rfl
  RealPart_ofReal := fun _ => rfl
  ofReal_RealPart := fun _ _ => rfl

/-! ## Complex scalars in exact arithmetic -/

/-- Gaussian rationals `re + im i`: the complex scalars of the templates in exact
arithmetic. -/
structure GaussRat where
  re : ℚ
  im : ℚ
  deriving DecidableEq

instance : Zero GaussRat := ⟨⟨0, 0⟩⟩

instance : One GaussRat := ⟨⟨1, 0⟩⟩

instance : Add GaussRat := ⟨fun z w => ⟨z.re + w.re, z.im + w.im⟩⟩

instance : Neg GaussRat := ⟨fun z => ⟨-z.re, -z.im⟩⟩

instance : Mul GaussRat :=
  ⟨fun z w => ⟨z.re * w.re - z.im * w.im, z.re * w.im + z.im * w.re⟩⟩

instance : Inv GaussRat :=
  ⟨fun z => ⟨z.re / (z.re * z.re + z.im * z.im), -z.im / (z.re * z.re + z.im * z.im)⟩⟩

instance : CommRing GaussRat where
  add_assoc := fun ⟨a, b⟩ ⟨c, d⟩ ⟨e, f⟩ => by
    show GaussRat.mk (a + c + e) (b + d + f) = GaussRat.mk (a + (c + e)) (b + (d + f))
    congr 1 <;> ring
  zero_add := fun ⟨a, b⟩ => by
    show GaussRat.mk (0 + a) (0 + b) = GaussRat.mk a b
    congr 1 <;> ring
  add_zero := fun ⟨a, b⟩ => by
    show GaussRat.mk (a + 0) (b + 0) = GaussRat.mk a b
    congr 1 <;> ring
  add_comm := fun ⟨a, b⟩ ⟨c, d⟩ => by
    show GaussRat.mk (a + c) (b + d) = GaussRat.mk (c + a) (d + b)
    congr 1 <;> ring
  mul_assoc := fun ⟨a, b⟩ ⟨c, d⟩ ⟨e, f⟩ => by
    show GaussRat.mk ((a * c - b * d) * e - (a * d + b * c) * f)
        ((a * c - b * d) * f + (a * d + b * c) * e) =
      GaussRat.mk (a * (c * e - d * f) - b * (c * f + d * e))
        (a * (c * f + d * e) + b * (c * e - d * f))
    congr 1 <;> ring
  one_mul := fun ⟨a, b⟩ => by
    show GaussRat.mk (1 * a - 0 * b) (1 * b + 0 * a) = GaussRat.mk a b
    congr 1 <;> ring
  mul_one := fun ⟨a, b⟩ => by
    show GaussRat.mk (a * 1 - b * 0) (a * 0 + b * 1) = GaussRat.mk a b
    congr 1 <;> ring
  left_distrib := fun ⟨a, b⟩ ⟨c, d⟩ ⟨e, f⟩ => by
    show GaussRat.mk (a * (c + e) - b * (d + f)) (a * (d + f) + b * (c + e)) =
      GaussRat.mk (a * c - b * d + (a * e - b * f)) (a * d + b * c + (a * f + b * e))
    congr 1 <;> ring
  right_distrib := fun ⟨a, b⟩ ⟨c, d⟩ ⟨e, f⟩ => by
    show GaussRat.mk ((a + c) * e - (b + d) * f) ((a + c) * f + (b + d) * e) =
      GaussRat.mk (a * e - b * f + (c * e - d * f)) (a * f + b * e + (c * f + d * e))
    congr 1 <;> ring
  mul_comm := fun ⟨a, b⟩ ⟨c, d⟩ => by
    show GaussRat.mk (a * c - b * d) (a * d + b * c) = GaussRat.mk (c * a - d * b) (c * b + d * a)
    congr 1 <;> ring
  zero_mul := fun ⟨a, b⟩ => by
    show GaussRat.mk (0 * a - 0 * b) (0 * b + 0 * a) = GaussRat.mk 0 0
    congr 1 <;> ring
  mul_zero := fun ⟨a, b⟩ => by
    show GaussRat.mk (a * 0 - b * 0) (a * 0 + b * 0) = GaussRat.mk 0 0
    congr 1 <;> ring
  neg_add_cancel := fun ⟨a, b⟩ => by
    show GaussRat.mk (-a + a) (-b + b) = GaussRat.mk 0 0
    congr 1 <;> ring
  nsmul := nsmulRec
  zsmul := zsmulRec

instance : Field GaussRat where
  exists_pair_ne := ⟨0, 1, fun h => zero_ne_one (congrArg GaussRat.re h)⟩
  mul_inv_cancel := fun ⟨a, b⟩ hz => by
    have h : a * a + b * b ≠ 0 := by
      intro h0
      apply hz
      have h1 : a * a = 0 ∧ b * b = 0 :=
        (add_eq_zero_iff_of_nonneg (mul_self_nonneg _) (mul_self_nonneg _)).mp h0
      rw [mul_self_eq_zero.mp h1.1, mul_self_eq_zero.mp h1.2]
      rfl
    show GaussRat.mk (a * (a / (a * a + b * b)) - b * (-b / (a * a + b * b)))
        (a * (-b / (a * a + b * b)) + b * (a / (a * a + b * b))) = GaussRat.mk 1 0
    congr 1
    · field_simp
    · field_simp
      ring
  inv_zero := by
    show GaussRat.mk ((0 : ℚ) / (0 * 0 + 0 * 0)) (-(0 : ℚ) / (0 * 0 + 0 * 0)) = GaussRat.mk 0 0
    congr 1 <;> norm_num
  nnqsmul := _
  qsmul := _

/-- Complex scalars over the rationals: `F = GaussRat`, `Base<F> = ℚ`, `RealPart` is the
real part and `Conj` the complex conjugation. -/
instance instScalarGaussRat : Scalar GaussRat ℚ where
  RealPart := GaussRat.re
  Conj :=
    { toFun := fun z => ⟨z.re, -z.im⟩
      map_one' := by
        show GaussRat.mk 1 (-0) = GaussRat.mk 1 0
        congr 1
      map_mul' := fun ⟨a, b⟩ ⟨c, d⟩ => by
        show GaussRat.mk (a * c - b * d) (-(a * d + b * c)) =
          GaussRat.mk (a * c - -b * -d) (a * -d + -b * c)
        congr 1 <;> ring
      map_zero' := by
        show GaussRat.mk 0 (-0) = GaussRat.mk 0 0
        congr 1
      map_add' := fun ⟨a, b⟩ ⟨c, d⟩ => by
        show GaussRat.mk (a + c) (-(b + d)) = GaussRat.mk (a + c) (-b + -d)
        congr 1
        ring }
  ofReal :=
    { toFun := fun r => ⟨r, 0⟩
      map_one' := rfl
      map_mul' := fun a b => by
        show GaussRat.mk (a * b) 0 = GaussRat.mk (a * b - 0 * 0) (a * 0 + 0 * b)
        congr 1 <;> ring
      map_zero' := rfl
      map_add' := fun a b => by
        show GaussRat.mk (a + b) 0 = GaussRat.mk (a + b) (0 + 0)
        congr 1
        ring }
  Conj_Conj := fun ⟨a, b⟩ => by
    show GaussRat.mk a (- -b) = GaussRat.mk a b
    congr 1
    ring
  Conj_ofReal := fun r => by
    show GaussRat.mk r (-0) = GaussRat.mk r 0
    congr 1
  RealPart_ofReal := fun _ => rfl
  ofReal_RealPart := fun ⟨a, b⟩ h => by
    have hb : -b = b := congrArg GaussRat.im h
    have hb0 : b = 0 := by linarith
    show GaussRat.mk a 0 = GaussRat.mk a b
    rw [hb0]

/-! ## Matrices, views, loops -/

/-- Modelled from the spec: the local dense matrix `Matrix<T>` of the library, with its
`Height()`, its `Width()` and its entries `Get(i,j)`. -/
structure Matrix (α : Type) where
  Height : Nat
  Width : Nat
  Get : Nat → Nat → α

/-- Modelled from the spec: the write of a single entry, `A.Set(i,j,v)` or
`ABuffer[i+j*ldim] = v`. -/
def Matrix.Set {α : Type} (A : Matrix α) (i j : Nat) (v : α) : Matrix α :=
  { A with Get := fun r c => if r = i ∧ c = j then v else A.Get r c }

/-- Modelled from the spec: the failures of a call. `LogicError` is the library's report
of a precondition violation and carries its message; `outOfFuel` is not a library error:
it marks a driver loop of the model that was not given enough iterations to finish. -/
inductive Error where
  | LogicError (msg : String)
  | outOfFuel
  deriving DecidableEq, Repr

/-- Counted loop `for( Int i=lo; i<lo+count; ++i ) body`: the body is run for
`i = lo, lo+1, ..., lo+count-1` in this order. -/
def forLoop {σ : Type} (lo : Nat) (body : Nat → σ → σ) : Nat → σ → σ
  | 0, s => s
  | c + 1, s => body (lo + c) (forLoop lo body c s)

/-- Modelled from the spec: the result of `Zeros( A, m, n )`, the `m x n` zero matrix. -/
def Zeros {α : Type} [Zero α] (m n : Nat) : Matrix α :=
  { Height := m, Width := n, Get := fun _ _ => 0 }

/-- Modelled from the spec: the sub-block view `A( Range(i0,i1), Range(j0,j1) )`
(also `ViewRange( A, i0, j0, i1, j1 )`) of the library's `Matrix` class.
The view has `i1-i0` rows and `j1-j0` columns and its entry `(i,j)` is the entry
`(i0+i, j0+j)` of `A`; a range that does not lie inside `A` is an error. -/
def Matrix.View {α : Type} (A : Matrix α) (i0 i1 j0 j1 : Nat) : Except Error (Matrix α) :=
  if i0 ≤ i1 ∧ i1 ≤ A.Height ∧ j0 ≤ j1 ∧ j1 ≤ A.Width then
    .ok { Height := i1 - i0, Width := j1 - j0, Get := fun i j => A.Get (i0 + i) (j0 + j) }
  else
    .error (.LogicError "view out of bounds")

/-- Modelled from the spec: a view shares the storage of its parent, so what an
operation leaves in the view `B` taken at `(i0, j0)` is what the parent holds there
afterwards.  `SetView` writes the entries of `B` back into `A`. -/
def Matrix.SetView {α : Type} (A : Matrix α) (i0 j0 : Nat) (B : Matrix α) : Matrix α :=
  { A with Get := fun r c =>
      if i0 ≤ r ∧ r < i0 + B.Height ∧ j0 ≤ c ∧ c < j0 + B.Width then B.Get (r - i0) (c - j0)
      else A.Get r c }

/-- The blocked driver loop shared by `ldl::RegularizedVar3` and `LLHF`:
`for( Int k=0; k<n; k+=bsize ) { const Int nb = Min(bsize,n-k); body }`.
`fuel` bounds the number of evaluations of the loop condition; when it is used up
before the loop has ended the result is `outOfFuel`. -/
def blockedLoop {σ : Type} (bsize n : Nat) (body : Nat → Nat → σ → Except Error σ) :
    Nat → Nat → σ → Except Error σ
  | 0, _, _ => .error .outOfFuel
  | fuel + 1, k, s =>
    if k < n then
      (body k (min bsize (n - k)) s).bind (fun s => blockedLoop bsize n body fuel (k + bsize) s)
    else
      .ok s

/-- The panels `(k, nb)` visited by the blocked driver loop, in the order of the visits. -/
def panelsVisited (bsize n fuel : Nat) : Except Error (List (Nat × Nat)) :=
  blockedLoop bsize n (fun k nb visited => .ok (visited ++ [(k, nb)])) fuel 0 []

/-- The panels `[k, k+nb)` of a dimension `n` cut with block size `bsize`:
`k = t*bsize` and `nb = min(bsize, n-k)` for `t = 0, 1, ..., ceil(n/bsize)-1`. -/
def panelList (bsize n : Nat) : List (Nat × Nat) :=
  (List.range ((n + bsize - 1) / bsize)).map (fun t => (t * bsize, min bsize (n - t * bsize)))

/-- Modelled from the spec: `A.GetDiagonal( d )`, the diagonal of a square matrix as
a column vector. -/
def Matrix.GetDiagonal {α : Type} (A : Matrix α) : Matrix α :=
  { Height := A.Height, Width := 1, Get := fun i _ => A.Get i i }

namespace ldl

variable {F R : Type} [Field F] [LinearOrderedField R] [Scalar F R]

/-- Innermost loop of `RegularizedVar3Unb` (lines 56-57):
`for( Int i=k; i<a21Height; ++i ) A22Col[i] -= a21[i]*beta;`
with `a21[i] = A(j+1+i, j)` and `A22Col[i] = A(j+1+i, j+1+k)`. -/
def UnbA22Col (j k a21Height : Nat) (beta : F) (A : Matrix F) : Matrix F :=
  forLoop k
    (fun i A => A.Set (j+1+i) (j+1+k) (A.Get (j+1+i) (j+1+k) - A.Get (j+1+i) j * beta))
    (a21Height - k) A

/-- Loop of lines 52-58, `A22 := A22 - a21 (a21 / alpha11)^H` on the lower triangle. -/
def UnbA22 (j a21Height : Nat) (alpha11 : R) (A : Matrix F) : Matrix F :=
  forLoop 0
    (fun k A =>
      let beta : F := Scalar.Conj (A.Get (j+1+k) j / Scalar.ofReal alpha11)
      UnbA22Col j k a21Height beta A)
    a21Height A

/-- Loop of lines 61-62, `a21 := a21 / alpha11`. -/
def Unba21 (j a21Height : Nat) (alpha11 : R) (A : Matrix F) : Matrix F :=
  forLoop 0
    (fun i A => A.Set (j+1+i) j (A.Get (j+1+i) j / Scalar.ofReal alpha11))
    a21Height A

/-- The pivot chosen at column `j` (lines 40-46): the real part of the diagonal entry,
or `sign*regMag` when `sign*alpha11 <= pivTol`. -/
def UnbPivot (pivTol regMag : R) (pivSign : Matrix Int) (j : Nat) (A : Matrix F) : R :=
  let alpha11 : R := Scalar.RealPart (A.Get j j)
  let sign : R := ((pivSign.Get j 0 : Int) : R)
  if sign * alpha11 ≤ pivTol then sign * regMag else alpha11

/-- Body of the column loop of `RegularizedVar3Unb` (lines 38-62) for column `j`,
acting on the pair `(A, reg)`. -/
def UnbColumn (pivTol regMag : R) (pivSign : Matrix Int) (n j : Nat)
    (s : Matrix F × Matrix R) : Matrix F × Matrix R :=
  let A := s.1
  let reg := s.2
  let a21Height := n - (j+1)
  let alpha11 : R := Scalar.RealPart (A.Get j j)
  let sign : R := ((pivSign.Get j 0 : Int) : R)
  let reg := if sign * alpha11 ≤ pivTol then reg.Set j 0 (sign * regMag - alpha11) else reg
  let alpha11 := if sign * alpha11 ≤ pivTol then sign * regMag else alpha11
  let A := A.Set j j (Scalar.ofReal alpha11)
  let A := UnbA22 j a21Height alpha11 A
  let A := Unba21 j a21Height alpha11 A
  (A, reg)

/-- State `(A, reg)` of `RegularizedVar3Unb` after the first `j` columns have been
processed, starting from `A` and `Zeros( reg, n, 1 )`. -/
def UnbState (A : Matrix F) (pivTol regMag : R) (pivSign : Matrix Int) (j : Nat) :
    Matrix F × Matrix R :=
  forLoop 0 (UnbColumn pivTol regMag pivSign A.Height) j (A, Zeros A.Height 1)

/-- The matrix left by the column steps `k, k+1, ..., k+t-1` of `RegularizedVar3Unb`
(for a matrix of order `n`) when they are run on `M`. -/
def UnbCols (pivTol regMag : R) (pivSign : Matrix Int) (n k : Nat) (M : Matrix F) (t : Nat) :
    Matrix F :=
  (forLoop k (UnbColumn pivTol regMag pivSign n) t (M, Zeros n 1)).1

/-- The pivot of column `k+m` in the run of `UnbCols`. -/
def UnbColsPivot (pivTol regMag : R) (pivSign : Matrix Int) (n k : Nat) (M : Matrix F)
    (m : Nat) : R :=
  UnbPivot pivTol regMag pivSign (k + m) (UnbCols pivTol regMag pivSign n k M m)

/-- The value written to `reg[j]` by column `j` when the matrix stands at `A`; `0` is
the value left by `Zeros` when the pivot is safe. -/
def UnbRegEntry (pivTol regMag : R) (pivSign : Matrix Int) (j : Nat) (A : Matrix F) : R :=
  let alpha11 : R := Scalar.RealPart (A.Get j j)
  let sign : R := ((pivSign.Get j 0 : Int) : R)
  if sign * alpha11 ≤ pivTol then sign * regMag - alpha11 else 0

/-- `ldl::RegularizedVar3Unb`: unblocked serial LDL without pivoting.  `debug` says
whether the `DEBUG_ONLY` checks are compiled in.  The incoming `reg` is discarded by
`Zeros( reg, n, 1 )`. -/
def RegularizedVar3Unb (debug : Bool) (A : Matrix F) (pivTol regMag : R)
    (pivSign : Matrix Int) (_reg : Matrix R) : Except Error (Matrix F × Matrix R) :=
  if debug ∧ A.Height ≠ A.Width then
    .error (.LogicError "A must be square")
  else if debug ∧ (pivSign.Height ≠ A.Height ∨ pivSign.Width ≠ 1) then
    .error (.LogicError "pivSign must be a conforming column vector")
  else
    let n := A.Height
    .ok (forLoop 0 (UnbColumn pivTol regMag pivSign n) n (A, Zeros n 1))

/-- Modelled from the spec: column `j` of the triangular solve `X := X L1^{-H}`; it becomes
`X(:,j) - sum_{m<j} X(:,m) Conj(L(j,m))`, the columns `m < j` holding the solution
already. -/
def TrsmRightLowerAdjointUnitColumn (L : Matrix F) (j : Nat) (X : Matrix F) : Matrix F :=
  { X with Get := fun i c =>
      if c = j ∧ i < X.Height then
        X.Get i j - ∑ m ∈ Finset.range j, X.Get i m * Scalar.Conj (L.Get j m)
      else X.Get i c }

/-- Modelled from the spec: `Trsm( RIGHT, LOWER, ADJOINT, UNIT, F(1), L, X )`, the
triangular solve `X := X L1^{-H}`, where `L1` is the unit lower triangular matrix whose
strictly lower part is that of `L`.  The columns of the solution are computed by forward
substitution, for `j = 0, 1, ...` in turn. -/
def TrsmRightLowerAdjointUnit (L X : Matrix F) : Matrix F :=
  forLoop 0 (TrsmRightLowerAdjointUnitColumn L) X.Width X

/-- Modelled from the spec: `DiagonalSolve( RIGHT, NORMAL, d, X )`, the rescaling
`X := X inv(diag(d))`: column `j` of `X` is divided by `d(j)`. -/
def DiagonalSolveRightNormal (d X : Matrix F) : Matrix F :=
  { X with Get := fun i j =>
      if i < X.Height ∧ j < X.Width then X.Get i j / d.Get j 0 else X.Get i j }

/-- Modelled from the spec: `Trrk( LOWER, NORMAL, ADJOINT, alpha, A, B, beta, C )`, the
update `C := alpha A B^H + beta C` of the lower triangle (diagonal included) of the
square matrix `C`; the strictly upper triangle of `C` is not touched. -/
def TrrkLowerNormalAdjoint (alpha : F) (A B : Matrix F) (beta : F) (C : Matrix F) :
    Matrix F :=
  { C with Get := fun i j =>
      if j ≤ i ∧ i < C.Height then
        alpha * (∑ m ∈ Finset.range A.Width, A.Get i m * Scalar.Conj (B.Get j m))
          + beta * C.Get i j
      else C.Get i j }

/-- The matrices `V`, `A21`, `A22` and `pivSign1` hold what the views `A11`, `A21`, `A22`
and `pivSign1` of the panel `[k, k+nb)` show of `M` and `pivSign` (order `n`). -/
structure PanelViews (pivSign pivSign1 : Matrix Int) (n k nb : Nat)
    (M V A21 A22 : Matrix F) : Prop where
  le : k + nb ≤ n
  VHeight : V.Height = nb
  VWidth : V.Width = nb
  VGet : ∀ i j, V.Get i j = M.Get (k + i) (k + j)
  A21Height : A21.Height = n - (k + nb)
  A21Width : A21.Width = nb
  A21Get : ∀ i j, A21.Get i j = M.Get (k + nb + i) (k + j)
  A22Height : A22.Height = n - (k + nb)
  A22Width : A22.Width = n - (k + nb)
  A22Get : ∀ i j, A22.Get i j = M.Get (k + nb + i) (k + nb + j)
  signGet : ∀ j, pivSign1.Get j 0 = pivSign.Get (k + j) 0

/-- Body of the panel loop of the serial blocked `ldl::RegularizedVar3` (lines 84-101)
for the panel `[k, k+nb)`, acting on the pair `(A, reg)`. -/
def RegularizedVar3Panel (debug : Bool) (pivTol regMag : R) (pivSign : Matrix Int)
    (n k nb : Nat) (s : Matrix F × Matrix R) : Except Error (Matrix F × Matrix R) := do
  let A := s.1
  let reg := s.2
  let A11 ← A.View k (k+nb) k (k+nb)
  let A21 ← A.View (k+nb) n k (k+nb)
  let A22 ← A.View (k+nb) n (k+nb) n
  let pivSign1 ← pivSign.View k (k+nb) 0 1
  let reg1 ← reg.View k (k+nb) 0 1
  let (A11, reg1) ← RegularizedVar3Unb debug A11 pivTol regMag pivSign1 reg1
  let d1 := A11.GetDiagonal
  let A21 := TrsmRightLowerAdjointUnit A11 A21
  let S21 := A21
  let A21 := DiagonalSolveRightNormal d1 A21
  let A22 := TrrkLowerNormalAdjoint (-1) S21 A21 1 A22
  let A := ((A.SetView k k A11).SetView (k+nb) k A21).SetView (k+nb) (k+nb) A22
  let reg := reg.SetView k 0 reg1
  pure (A, reg)

/-- Serial blocked `ldl::RegularizedVar3`.  `bsize` is `Blocksize()`, `fuel` bounds the
number of evaluations of the loop condition. -/
def RegularizedVar3 (debug : Bool) (fuel bsize : Nat) (A : Matrix F) (pivTol regMag : R)
    (pivSign : Matrix Int) (reg : Matrix R) : Except Error (Matrix F × Matrix R) :=
  if debug ∧ A.Height ≠ A.Width then
    .error (.LogicError "A must be square")
  else
    let n := A.Height
    blockedLoop bsize n (RegularizedVar3Panel debug pivTol regMag pivSign n) fuel 0 (A, reg)

/-- One column of the plain unpivoted, unregularized LDL^H recurrence: the column loop
body of `RegularizedVar3Unb` (lines 38-62) without the regularization branch of
lines 42-46. -/
def PlainColumn (n j : Nat) (A : Matrix F) : Matrix F :=
  let a21Height := n - (j+1)
  let alpha11 : R := Scalar.RealPart (A.Get j j)
  let A := A.Set j j (Scalar.ofReal alpha11)
  let A := UnbA22 j a21Height alpha11 A
  Unba21 j a21Height alpha11 A

/-- The plain unpivoted, unregularized LDL^H factorization of `A`, in place. -/
def PlainLDL (A : Matrix F) : Matrix F :=
  forLoop 0 (PlainColumn A.Height) A.Height A

/-- The unit lower triangular factor `L` read from the strictly lower part of the
output `A` of the factorization. -/
def UnitLower (A : Matrix F) (i j : Nat) : F :=
  if j < i then A.Get i j else if i = j then 1 else 0

/-- Entry `(i, j)` of the product `L D L^H` reconstructed from the output `A`, `L` being
`UnitLower A` and `D` the diagonal of `A`. -/
def ReconstructLDLH (A : Matrix F) (i j : Nat) : F :=
  ∑ m ∈ Finset.range A.Height, UnitLower A i m * A.Get m m * Scalar.Conj (UnitLower A j m)

/-- Entry `(i, j)` of the Hermitian matrix that is given by the lower triangle
(diagonal included) of `A`. -/
def HermitianOfLower (A : Matrix F) (i j : Nat) : F :=
  if j ≤ i then A.Get i j else Scalar.Conj (A.Get j i)

/-- Entry `(i, j)` of `diag(reg)`. -/
def DiagOfReg (reg : Matrix R) (i j : Nat) : F :=
  if i = j then Scalar.ofReal (reg.Get i 0) else 0

/-! ### The distributed overload -/

/-- Modelled from the spec: the process grid, an arrangement of `Height` rows and
`Width` columns of workers. -/
structure Grid where
  Height : Nat
  Width : Nat

/-- Modelled from the spec: `LocalLength( n, shift, stride )`, the number of indices
below `n` that are congruent to `shift` modulo `stride` (`shift < stride`). -/
def LocalLength (n shift stride : Nat) : Nat :=
  if shift < n then (n - shift - 1) / stride + 1 else 0

/-- Modelled from the spec: `Shift( rank, alignment, stride )`, the first index owned
by the worker of the given rank. -/
def Shift (rank alignment stride : Nat) : Nat :=
  (rank + stride - alignment) % stride

/-- Modelled from the spec: the local matrix, on a worker of grid row `p`, of a
`[MC,STAR]`-distributed matrix with logical value `X` and column alignment `colAlign`
over a grid with `r` rows: the worker owns the rows `shift, shift+r, shift+2r, ...`
of `X` and all its columns. -/
def LocalMatrixMCSTAR {α : Type} (r colAlign p : Nat) (X : Matrix α) : Matrix α :=
  let shift := Shift p colAlign r
  { Height := LocalLength X.Height shift r, Width := X.Width,
    Get := fun iLoc j => X.Get (shift + iLoc * r) j }

/-- The local panel factorization of lines 157-162 as run by a worker of grid row `p`:
`A11_STAR_STAR` is replicated, so its local matrix is the whole panel `A11`;
`pivSign1_STAR_STAR` and `reg1_STAR_STAR` are declared `[MC,STAR]` (lines 139-140), so
their local matrices hold the rows of the panel owned by grid row `p`.  All alignments
of the parent matrices are the default `0`, so the views starting at global row `k`
are aligned at `k % r`. -/
def DistLocalPanel (debug : Bool) (fuel bsize : Nat) (g : Grid) (pivTol regMag : R)
    (k p : Nat) (A11 : Matrix F) (pivSign1 : Matrix Int) (reg1 : Matrix R) :
    Except Error (Matrix F × Matrix R) :=
  RegularizedVar3 debug fuel bsize A11 pivTol regMag
    (LocalMatrixMCSTAR g.Height (k % g.Height) p pivSign1)
    (LocalMatrixMCSTAR g.Height (k % g.Height) p reg1)

/-- Body of the panel loop of the distributed `ldl::RegularizedVar3` (lines 145-184)
for the panel `[k, k+nb)`, acting on the logical values of `(A, reg)`.
Redistributions preserve the logical value; every worker runs the local panel
factorization and the step fails when one of them does.  Entries are taken from the
worker that owns them: global row `i` of `A` and of `reg` belongs to grid row `i % r`. -/
def DistRegularizedVar3Panel (debug : Bool) (fuel bsize : Nat) (g : Grid) (pivTol regMag : R)
    (pivSign : Matrix Int) (n k nb : Nat) (s : Matrix F × Matrix R) :
    Except Error (Matrix F × Matrix R) := do
  let A := s.1
  let reg := s.2
  let A11 ← A.View k (k+nb) k (k+nb)
  let A21 ← A.View (k+nb) n k (k+nb)
  let A22 ← A.View (k+nb) n (k+nb) n
  let pivSign1 ← pivSign.View k (k+nb) 0 1
  let reg1 ← reg.View k (k+nb) 0 1
  let locals ← (List.range g.Height).mapM
    (fun p => DistLocalPanel debug fuel bsize g pivTol regMag k p A11 pivSign1 reg1)
  let loc : Nat → Matrix F × Matrix R := fun p => locals.getD p (A11, reg1)
  let A11 : Matrix F :=
    { A11 with Get := fun i j => (loc ((k + i) % g.Height)).1.Get i j }
  let reg1 : Matrix R :=
    { reg1 with Get := fun i j => (loc ((k + i) % g.Height)).2.Get (i / g.Height) j }
  let S21 : Matrix F :=
    { A21 with Get := fun i j =>
        (TrsmRightLowerAdjointUnit (loc ((k + nb + i) % g.Height)).1 A21).Get i j }
  let A21 : Matrix F :=
    { A21 with Get := fun i j =>
        (DiagonalSolveRightNormal (loc ((k + nb + i) % g.Height)).1.GetDiagonal S21).Get i j }
  let A22 := TrrkLowerNormalAdjoint (-1) S21 A21 1 A22
  let A := ((A.SetView k k A11).SetView (k+nb) k A21).SetView (k+nb) (k+nb) A22
  let reg := reg.SetView k 0 reg1
  pure (A, reg)

/-- Distributed `ldl::RegularizedVar3` (lines 105-186) on the logical values of its
arguments, over the grid `g`.  The only check is the one of line 114; line 116 is
`// TODO: pivSign check`. -/
def DistRegularizedVar3 (debug : Bool) (fuel bsize : Nat) (g : Grid) (A : Matrix F)
    (pivTol regMag : R) (pivSign : Matrix Int) (_reg : Matrix R) :
    Except Error (Matrix F × Matrix R) :=
  if debug ∧ A.Height ≠ A.Width then
    .error (.LogicError "A must be square")
  else
    let n := A.Height
    blockedLoop bsize n (DistRegularizedVar3Panel debug fuel bsize g pivTol regMag pivSign n)
      fuel 0 (A, Zeros n 1)

/-! ### Concrete inputs -/

/-- The pivot-sign vector `[1, ..., 1]` of length `n`. -/
def onesSign (n : Nat) : Matrix Int := ⟨n, 1, fun _ _ => 1⟩

/-- The symmetric `2 x 2` matrix `[[0, 1], [1, 2]]`. -/
def exampleA : Matrix ℚ :=
  ⟨2, 2, fun i j => if i = 0 ∧ j = 0 then 0 else if i = 1 ∧ j = 1 then 2 else 1⟩

/-- The symmetric `2 x 2` matrix `[[0, 1], [1, 0]]`. -/
def exampleZeroDiag : Matrix ℚ := ⟨2, 2, fun i j => if i = j then 0 else 1⟩

/-- The symmetric `2 x 2` matrix `[[2, 1], [1, 2]]`. -/
def examplePosDef : Matrix ℚ := ⟨2, 2, fun i j => if i = j then 2 else 1⟩

/-- The lower triangle of the Hermitian `2 x 2` matrix `[[0, 1 - i], [1 + i, 3]]`. -/
def exampleHermitian : Matrix GaussRat :=
  ⟨2, 2, fun i j =>
    if i = 1 ∧ j = 1 then ⟨3, 0⟩ else if i = 1 ∧ j = 0 then ⟨1, 1⟩ else ⟨0, 0⟩⟩

/-- The symmetric `4 x 4` matrix with `A[i][j] = i + j`. -/
def exampleSum : Matrix ℚ := ⟨4, 4, fun i j => (i : ℚ) + (j : ℚ)⟩

end ldl

namespace apply_packed_reflectors

variable {F R : Type} [Field F] [LinearOrderedField R] [Scalar F R]

/-- Modelled from the spec: the conjugation flag of `LLHF`, an enumeration of the
library. -/
inductive Conjugation where
  | UNCONJUGATED
  | CONJUGATED
  deriving DecidableEq, Repr

/-- Modelled from the spec: `H.DiagonalLength( offset )`, the length of the diagonal
of an `height x width` matrix that starts `offset` columns to the right of the top left
corner (`offset >= 0`) or `-offset` rows below it (`offset < 0`). -/
def DiagonalLength (height width : Nat) (offset : Int) : Nat :=
  if 0 < offset then min height (width - offset.toNat)
  else min (height - (-offset).toNat) width

/-- Modelled from the spec: `MakeTrapezoidal( LOWER, A, 0, RIGHT )`: the entries above
the diagonal that ends in the bottom right corner are set to zero, that is the entries
`(i, j)` with `j + A.Height > i + A.Width`. -/
def MakeTrapezoidalLowerRight (A : Matrix F) : Matrix F :=
  { A with Get := fun i j =>
      if i < A.Height ∧ j < A.Width ∧ j + A.Height > i + A.Width then 0 else A.Get i j }

/-- Modelled from the spec: `SetDiagonal( A, alpha, 0, RIGHT )`: the entries of the
diagonal that ends in the bottom right corner, `(i, j)` with `j + A.Height = i + A.Width`,
are set to `alpha`. -/
def SetDiagonalRight (A : Matrix F) (alpha : F) : Matrix F :=
  { A with Get := fun i j =>
      if i < A.Height ∧ j < A.Width ∧ j + A.Height = i + A.Width then alpha else A.Get i j }

/-- Modelled from the spec: `Herk( LOWER, NORMAL, alpha, A, C )`: `C` becomes the square
matrix of order `A.Height` whose lower triangle (diagonal included) is that of
`alpha A A^H`; the rest of `C` is zero. -/
def HerkLowerNormal (alpha : F) (A : Matrix F) : Matrix F :=
  { Height := A.Height, Width := A.Height,
    Get := fun i j =>
      if j ≤ i ∧ i < A.Height then
        alpha * ∑ m ∈ Finset.range A.Width, A.Get i m * Scalar.Conj (A.Get j m)
      else 0 }

/-- Modelled from the spec: `FixDiagonal( conjugation, t, SInv )`: the diagonal entry
`j` of `SInv` is set to `1/t(j)`, or to `1/Conj(t(j))` when `conjugation` is
`CONJUGATED`. -/
def FixDiagonal (conjugation : Conjugation) (t SInv : Matrix F) : Matrix F :=
  forLoop 0
    (fun j (SInv : Matrix F) =>
      let value : F :=
        if conjugation = Conjugation.CONJUGATED then 1 / Scalar.Conj (t.Get j 0)
        else 1 / t.Get j 0
      SInv.Set j j value)
    SInv.Height SInv

/-- Modelled from the spec: `Gemm( NORMAL, NORMAL, alpha, A, B, C )`, `C := alpha A B`;
the inner dimensions have to agree. -/
def GemmNormalNormal (alpha : F) (A B : Matrix F) : Except Error (Matrix F) :=
  if A.Width = B.Height then
    .ok { Height := A.Height, Width := B.Width,
          Get := fun i j => alpha * ∑ m ∈ Finset.range A.Width, A.Get i m * B.Get m j }
  else
    .error (.LogicError "Nonconformal Gemm")

/-- Modelled from the spec: row `i` of the triangular solve `X := L^{-1} X`; it becomes
`(X(i,:) - sum_{m<i} L(i,m) X(m,:)) / L(i,i)`, the rows `m < i` holding the solution
already. -/
def TrsmLeftLowerNormalNonUnitRow (L : Matrix F) (i : Nat) (X : Matrix F) : Matrix F :=
  { X with Get := fun r c =>
      if r = i ∧ c < X.Width then
        (X.Get i c - ∑ m ∈ Finset.range i, L.Get i m * X.Get m c) / L.Get i i
      else X.Get r c }

/-- Modelled from the spec: `Trsm( LEFT, LOWER, NORMAL, NON_UNIT, F(1), L, X )`, the
triangular solve `X := L^{-1} X` with the lower triangle of `L` (diagonal included).  The
rows of the solution are computed by forward substitution, for `i = 0, 1, ...` in turn. -/
def TrsmLeftLowerNormalNonUnit (L X : Matrix F) : Matrix F :=
  forLoop 0 (TrsmLeftLowerNormalNonUnitRow L) X.Height X

/-- Modelled from the spec: `Gemm( ADJOINT, NORMAL, alpha, A, B, beta, C )`,
`C := alpha A^H B + beta C`; the dimensions have to agree. -/
def GemmAdjointNormal (alpha : F) (A B : Matrix F) (beta : F) (C : Matrix F) :
    Except Error (Matrix F) :=
  if A.Height = B.Height ∧ A.Width = C.Height ∧ B.Width = C.Width then
    .ok { C with Get := fun i j =>
            if i < C.Height ∧ j < C.Width then
              alpha * (∑ m ∈ Finset.range A.Height, Scalar.Conj (A.Get m i) * B.Get m j)
                + beta * C.Get i j
            else C.Get i j }
  else
    .error (.LogicError "Nonconformal Gemm")

/-- Body of the panel loop of the serial `LLHF` (lines 66-82) for the panel `[k, k+nb)`
of the offset diagonal, acting on `A`. -/
def LLHFPanel (conjugation : Conjugation) (iOff jOff : Nat) (H t : Matrix F) (nA : Nat)
    (k nb : Nat) (A : Matrix F) : Except Error (Matrix F) := do
  let ki := k + iOff
  let kj := k + jOff
  let HPan ← H.View ki (ki+nb) 0 (kj+nb)
  let ATop ← A.View 0 (k+nb) 0 nA
  let t1 ← t.View k (k+nb) 0 1
  let HPanCopy := HPan
  let HPanCopy := MakeTrapezoidalLowerRight HPanCopy
  let HPanCopy := SetDiagonalRight HPanCopy 1
  let SInv := HerkLowerNormal 1 HPanCopy
  let SInv := FixDiagonal conjugation t1 SInv
  let Z ← GemmNormalNormal 1 HPanCopy ATop
  let Z := TrsmLeftLowerNormalNonUnit SInv Z
  let ATop ← GemmAdjointNormal (-1) HPanCopy Z 1 ATop
  pure (A.SetView 0 0 ATop)

/-- Serial `apply_packed_reflectors::LLHF` (lines 41-84).  `debug` says whether the
checks under `#ifndef RELEASE` are compiled in, `bsize` is `Blocksize()`, `fuel` bounds
the number of evaluations of the loop condition. -/
def LLHF (debug : Bool) (fuel bsize : Nat) (conjugation : Conjugation) (offset : Int)
    (H t A : Matrix F) : Except Error (Matrix F) :=
  if debug ∧ H.Width ≠ A.Height then
    .error (.LogicError "H's width must match A's height")
  else
    let nA := A.Width
    let diagLength := DiagonalLength H.Height H.Width offset
    if debug ∧ t.Height ≠ diagLength then
      .error (.LogicError "t must be the same length as H's offset diag")
    else
      let iOff := if offset ≥ 0 then 0 else (-offset).toNat
      let jOff := if offset ≥ 0 then offset.toNat else 0
      blockedLoop bsize diagLength (LLHFPanel conjugation iOff jOff H t nA) fuel 0 A

/-- The Householder vector `v_i`: row `i + iOff` of `H` with the entry on the offset
diagonal (column `i + jOff`) replaced by `1` and the entries to its right replaced
by `0`. -/
def reflectorVector (iOff jOff : Nat) (H : Matrix F) (i : Nat) : Nat → F :=
  fun m => if m < i + jOff then H.Get (i + iOff) m else if m = i + jOff then 1 else 0

/-- The scalar `tau_i` of reflector `i`: `t(i)`, or `Conj(t(i))` when `conjugation` is
`CONJUGATED`. -/
def reflectorScalar (conjugation : Conjugation) (t : Matrix F) (i : Nat) : F :=
  if conjugation = Conjugation.CONJUGATED then Scalar.Conj (t.Get i 0) else t.Get i 0

/-- Application of one elementary reflector from the left,
`A := (I - tau v^H v) A` for a row vector `v` of length `A.Height`: the entry `(r, c)`
becomes `A(r,c) - tau Conj(v_r) sum_m v_m A(m,c)`. -/
def applyReflector (tau : F) (v : Nat → F) (A : Matrix F) : Matrix F :=
  { A with Get := fun r c =>
      if r < A.Height ∧ c < A.Width then
        A.Get r c - tau * Scalar.Conj (v r) * ∑ m ∈ Finset.range A.Height, v m * A.Get m c
      else A.Get r c }

/-- The matrix left by the reflectors `k, k+1, ..., k+i-1` (scalars `tau j`, vectors
`v j`) applied to `A` one at a time, in this order. -/
def reflectorsFrom (tau : Nat → F) (v : Nat → Nat → F) (k : Nat) (A : Matrix F) (i : Nat) :
    Matrix F :=
  forLoop k (fun j B => applyReflector (tau j) (v j) B) i A

/-- The row `tau v B` that reflector `k+i` subtracts (after multiplication by `v^H`) from
the matrix `B` it is applied to. -/
def reflectorRow (tau : Nat → F) (v : Nat → Nat → F) (k : Nat) (A : Matrix F) (i c : Nat) : F :=
  tau (k + i) * ∑ m ∈ Finset.range A.Height, v (k + i) m * (reflectorsFrom tau v k A i).Get m c

/-- The matrices `V`, `ATop` and `t1` hold what the panel step `[k, k+nb)` of `LLHF` (offset
`<= 0`) works on: `V` is `HPanCopy` after `MakeTrapezoidal` and `SetDiagonal`, its rows
being the vectors `v_k, ..., v_{k+nb-1}`, `ATop` is the view of the first `k+nb` rows of
`A` and `t1` the view of the scalars of the panel. -/
structure LLHFPanelViews (iOff : Nat) (H t A : Matrix F) (k nb : Nat)
    (V ATop t1 : Matrix F) : Prop where
  le : k + nb ≤ A.Height
  VHeight : V.Height = nb
  VWidth : V.Width = k + nb
  VGet : ∀ i c, i < nb → c < k + nb → V.Get i c = reflectorVector iOff 0 H (k + i) c
  ATopHeight : ATop.Height = k + nb
  ATopWidth : ATop.Width = A.Width
  ATopGet : ∀ i j, ATop.Get i j = A.Get i j
  t1Get : ∀ j, t1.Get j 0 = t.Get (k + j) 0

/-- The reflectors `0, 1, ..., count-1` applied to `A` one at a time, in this order. -/
def applyReflectorsInOrder (conjugation : Conjugation) (iOff jOff : Nat) (H t : Matrix F)
    (count : Nat) (A : Matrix F) : Matrix F :=
  forLoop 0
    (fun i A => applyReflector (reflectorScalar conjugation t i) (reflectorVector iOff jOff H i) A)
    count A

/-! ### Concrete inputs -/

/-- The complex `2 x 2` matrix `[[1, 2], [3 + i, 4 + i]]` of packed reflectors. -/
def exampleH : Matrix GaussRat := ⟨2, 2, fun i j => ⟨2 * (i : ℚ) + (j : ℚ) + 1, (i : ℚ)⟩⟩

/-- The complex reflector scalars `[1 + i, 2 + i]`. -/
def exampleT : Matrix GaussRat := ⟨2, 1, fun i _ => ⟨(i : ℚ) + 1, 1⟩⟩

/-- The `2 x 2` matrix `[[1, 0], [1, 1]]` the reflectors are applied to. -/
def exampleB : Matrix GaussRat := ⟨2, 2, fun i j => if i < j then ⟨0, 0⟩ else ⟨1, 0⟩⟩

end apply_packed_reflectors

namespace ldl

/-- The matrix `[[2, 7], [1, 2]]`: the lower triangle of `examplePosDef` with another entry
above the diagonal. -/
def exampleUpper : Matrix ℚ := ⟨2, 2, fun i j => if i < j then 7 else if i = j then 2 else 1⟩

end ldl

/-! ## The entrywise one-norm of a Hermitian matrix -/

/-- `UpperOrLower`: the triangle of a Hermitian matrix that is stored. -/
inductive UpperOrLower where
  | LOWER
  | UPPER
  deriving DecidableEq

/-- Equality of results of fallible calls is decidable when it is for errors and values. -/
instance instDecidableEqExcept {ε α : Type} [DecidableEq ε] [DecidableEq α] :
    DecidableEq (Except ε α)
  | .ok a, .ok b =>
    if h : a = b then isTrue (congrArg Except.ok h) else isFalse (fun e => h (Except.ok.inj e))
  | .error a, .error b =>
    if h : a = b then isTrue (congrArg Except.error h)
    else isFalse (fun e => h (Except.error.inj e))
  | .ok _, .error _ => isFalse (fun e => Except.noConfusion e)
  | .error _, .ok _ => isFalse (fun e => Except.noConfusion e)

/-- Serial `HermitianEntrywiseOneNorm( uplo, A )` (EntrywiseOne.hpp, lines 15-61).  `Abs` is
the library's absolute value from the scalars to the real base field, taken as a
parameter.  The check of line 22 is not under `#ifndef RELEASE`. -/
def HermitianEntrywiseOneNorm {F R : Type} [LinearOrderedField R] (Abs : F → R)
    (uplo : UpperOrLower) (A : Matrix F) : Except Error R :=
  if A.Height ≠ A.Width then
    .error (.LogicError "Hermitian matrices must be square.")
  else
    let height := A.Height
    let width := A.Width
    if uplo = UpperOrLower.UPPER then
      .ok (forLoop 0 (fun j norm =>
        forLoop 0 (fun i norm =>
          let alpha := Abs (A.Get i j)
          if i = j then norm + alpha else norm + 2 * alpha)
          j norm) width 0)
    else
      .ok (forLoop 0 (fun j norm =>
        forLoop (j+1) (fun i norm =>
          let alpha := Abs (A.Get i j)
          if i = j then norm + alpha else norm + 2 * alpha)
          (height - (j+1)) norm) width 0)

/-- Modelled from the spec: a `DistMatrix<F>` in the default `[MC,MR]` distribution: its
process grid, its two alignments and its logical value.  The worker in grid row `p` and
grid column `q` owns the global rows `ColShift + iLocal*r` and the global columns
`RowShift + jLocal*c` (RealSymmetricFunction.cpp, lines 42-58). -/
structure DistMatrix (F : Type) where
  Grid : ldl.Grid
  ColAlignment : Nat
  RowAlignment : Nat
  Value : Matrix F

/-- Modelled from the spec: `A.ColShift()` on a worker of grid row `p`, the first row it
owns. -/
def DistMatrix.ColShift {F : Type} (A : DistMatrix F) (p : Nat) : Nat :=
  ldl.Shift p A.ColAlignment A.Grid.Height

/-- Modelled from the spec: `A.RowShift()` on a worker of grid column `q`, the first
column it owns. -/
def DistMatrix.RowShift {F : Type} (A : DistMatrix F) (q : Nat) : Nat :=
  ldl.Shift q A.RowAlignment A.Grid.Width

/-- Modelled from the spec: `A.LocalHeight()` on a worker of grid row `p`. -/
def DistMatrix.LocalHeight {F : Type} (A : DistMatrix F) (p : Nat) : Nat :=
  ldl.LocalLength A.Value.Height (A.ColShift p) A.Grid.Height

/-- Modelled from the spec: `A.LocalWidth()` on a worker of grid column `q`. -/
def DistMatrix.LocalWidth {F : Type} (A : DistMatrix F) (q : Nat) : Nat :=
  ldl.LocalLength A.Value.Width (A.RowShift q) A.Grid.Width

/-- Modelled from the spec: `A.GetLocal( iLocal, jLocal )` on the worker `(p, q)`: the
entry of the logical matrix at row `ColShift + iLocal*r` and column
`RowShift + jLocal*c`. -/
def DistMatrix.GetLocal {F : Type} (A : DistMatrix F) (p q iLocal jLocal : Nat) : F :=
  A.Value.Get (A.ColShift p + iLocal * A.Grid.Height) (A.RowShift q + jLocal * A.Grid.Width)

/-- The loop nest of the distributed `HermitianEntrywiseOneNorm` (EntrywiseOne.hpp,
lines 79-113) as run by the worker `(p, q)`.  The statement inside the inner loop is the
parameter `body iLocal jLocal i j`, acting on the accumulator; the loop bounds and the
global indices `i`, `j` are those of the source. -/
def HermitianLocalLoops {F σ : Type} (uplo : UpperOrLower) (A : DistMatrix F) (p q : Nat)
    (body : Nat → Nat → Nat → Nat → σ → σ) (init : σ) : σ :=
  let r := A.Grid.Height
  let c := A.Grid.Width
  let colShift := A.ColShift p
  let rowShift := A.RowShift q
  let localWidth := A.LocalWidth q
  if uplo = UpperOrLower.UPPER then
    forLoop 0 (fun jLocal acc =>
      let j := rowShift + jLocal * c
      let numUpperRows := ldl.LocalLength (j+1) colShift r
      forLoop 0 (fun iLocal acc =>
        let i := colShift + iLocal * r
        body iLocal jLocal i j acc)
        numUpperRows acc) localWidth init
  else
    forLoop 0 (fun jLocal acc =>
      let j := rowShift + jLocal * c
      let numStrictlyUpperRows := ldl.LocalLength j colShift r
      forLoop numStrictlyUpperRows (fun iLocal acc =>
        let i := colShift + iLocal * r
        body iLocal jLocal i j acc)
        (A.LocalHeight p - numStrictlyUpperRows) acc) localWidth init

/-- The value of `localSum` that the worker `(p, q)` hands to the reduction: the loop nest
run with the statement of lines 87-91 (and 106-110),
`alpha = Abs(A.GetLocal(iLocal,jLocal)); if( i==j ) localSum += alpha; else localSum += 2*alpha;`. -/
def HermitianEntrywiseOneNormLocalSum {F R : Type} [LinearOrderedField R] (Abs : F → R)
    (uplo : UpperOrLower) (A : DistMatrix F) (p q : Nat) : R :=
  HermitianLocalLoops uplo A p q
    (fun iLocal jLocal i j localSum =>
      let alpha := Abs (A.GetLocal p q iLocal jLocal)
      if i = j then localSum + alpha else localSum + 2 * alpha)
    0

/-- The number of times the loop nest of the worker `(p, q)` reaches the global entry
`(i0, j0)`. -/
def HermitianLocalVisits {F : Type} (uplo : UpperOrLower) (A : DistMatrix F) (p q i0 j0 : Nat) :
    Nat :=
  HermitianLocalLoops uplo A p q
    (fun _ _ i j count => if i = i0 ∧ j = j0 then count + 1 else count)
    0

/-- Modelled from the spec: `mpi::AllReduce( &localSum, &norm, 1, mpi::SUM, VCComm )`, the
sum of the values held by all workers of the grid. -/
def AllReduceSum {R : Type} [LinearOrderedField R] (g : ldl.Grid) (localValue : Nat → Nat → R) :
    R :=
  ∑ p ∈ Finset.range g.Height, ∑ q ∈ Finset.range g.Width, localValue p q

/-- Distributed `HermitianEntrywiseOneNorm( uplo, A )` (EntrywiseOne.hpp, lines 63-123): the
value every worker returns. -/
def DistHermitianEntrywiseOneNorm {F R : Type} [LinearOrderedField R] (Abs : F → R)
    (uplo : UpperOrLower) (A : DistMatrix F) : Except Error R :=
  if A.Value.Height ≠ A.Value.Width then
    .error (.LogicError "Hermitian matrices must be square.")
  else
    .ok (AllReduceSum A.Grid (fun p q => HermitianEntrywiseOneNormLocalSum Abs uplo A p q))

/-- The value the specification gives for the entrywise one-norm of the Hermitian matrix
whose `uplo` triangle is stored in `A`: the sum over `i` of `|A[i][i]|` plus twice the sum
of `|A[i][j]|` over the entries strictly inside the selected triangle. -/
def SpecHermitianEntrywiseOneNorm {F R : Type} [LinearOrderedField R] (Abs : F → R)
    (uplo : UpperOrLower) (A : Matrix F) : R :=
  (∑ i ∈ Finset.range A.Height, Abs (A.Get i i)) +
    2 * ∑ j ∈ Finset.range A.Width, ∑ i ∈ Finset.range A.Height,
      if (uplo = UpperOrLower.UPPER ∧ i < j) ∨ (uplo = UpperOrLower.LOWER ∧ j < i) then
        Abs (A.Get i j)
      else 0

/-- The `1 x 1` real matrix `[[1]]`. -/
def exampleOne : Matrix ℚ := ⟨1, 1, fun _ _ => 1⟩

/-- The real matrix `A[i][j] = i + j` of order 4 over the `2 x 3` grid, alignments
`(1, 2)`. -/
def exampleDist : DistMatrix ℚ := ⟨⟨2, 3⟩, 1, 2, ldl.exampleSum⟩


end El

/-! # Theorems -/

namespace El

/-! ## Loops and single writes -/

@[simp] theorem Matrix_Set_Get {α : Type} (A : Matrix α) (i j : Nat) (v : α) (r c : Nat) :
    (A.Set i j v).Get r c = if r = i ∧ c = j then v else A.Get r c := rfl

@[simp] theorem Matrix_SetView_Get {α : Type} (A B : Matrix α) (i0 j0 r c : Nat) :
    (A.SetView i0 j0 B).Get r c =
      if i0 ≤ r ∧ r < i0 + B.Height ∧ j0 ≤ c ∧ c < j0 + B.Width then B.Get (r - i0) (c - j0)
      else A.Get r c := rfl

theorem forLoop_succ {σ : Type} (lo : Nat) (body : Nat → σ → σ) (c : Nat) (s : σ) :
    forLoop lo body (c+1) s = body (lo + c) (forLoop lo body c s) := rfl

namespace ldl

variable {F R : Type} [Field F] [LinearOrderedField R] [Scalar F R]

/-! ## The column step of `RegularizedVar3Unb`, entry by entry -/

theorem UnbA22Col_loop_Get (j k : Nat) (beta : F) (A : Matrix F) (cnt r c : Nat) :
    (forLoop k
      (fun i A => A.Set (j+1+i) (j+1+k) (A.Get (j+1+i) (j+1+k) - A.Get (j+1+i) j * beta))
      cnt A).Get r c =
    if c = j+1+k ∧ j+1+k ≤ r ∧ r < j+1+k+cnt then A.Get r c - A.Get r j * beta
    else A.Get r c := by
  induction cnt generalizing r c with
  | zero => rw [if_neg (by omega)]; rfl
  | succ n ih =>
    rw [forLoop_succ]
    simp only [Matrix_Set_Get, ih]
    by_cases h1 : r = j + 1 + (k + n) ∧ c = j + 1 + k
    · obtain ⟨rfl, rfl⟩ := h1
      rw [if_pos ⟨rfl, rfl⟩, if_neg (by omega), if_neg (by omega), if_pos (by omega)]
    · rw [if_neg h1]
      by_cases h2 : c = j + 1 + k ∧ j + 1 + k ≤ r ∧ r < j + 1 + k + n
      · rw [if_pos h2, if_pos (by omega)]
      · rw [if_neg h2, if_neg (by omega)]

theorem UnbA22Col_Get (j k h : Nat) (beta : F) (A : Matrix F) (r c : Nat) :
    (UnbA22Col j k h beta A).Get r c =
    if c = j+1+k ∧ c ≤ r ∧ r < j+1+h then A.Get r c - A.Get r j * beta
    else A.Get r c := by
  unfold UnbA22Col
  rw [UnbA22Col_loop_Get]
  by_cases h2 : c = j + 1 + k ∧ c ≤ r ∧ r < j + 1 + h
  · rw [if_pos h2, if_pos (by omega)]
  · rw [if_neg h2, if_neg (by omega)]

theorem UnbA22_loop_Get (j h : Nat) (alpha11 : R) (A : Matrix F) (cnt r c : Nat) :
    (forLoop 0
      (fun k A =>
        let beta : F := Scalar.Conj (A.Get (j+1+k) j / Scalar.ofReal alpha11)
        UnbA22Col j k h beta A) cnt A).Get r c =
    if j+1 ≤ c ∧ c < j+1+cnt ∧ c ≤ r ∧ r < j+1+h then
      A.Get r c - A.Get r j * Scalar.Conj (A.Get c j / Scalar.ofReal alpha11)
    else A.Get r c := by
  induction cnt generalizing r c with
  | zero => rw [if_neg (by omega)]; rfl
  | succ n ih =>
    rw [forLoop_succ]
    simp only [UnbA22Col_Get, ih]
    by_cases h1 : c = j + 1 + (0 + n) ∧ c ≤ r ∧ r < j + 1 + h
    · rw [if_pos h1, if_neg (by omega), if_neg (by omega), if_neg (by omega), if_pos (by omega)]
      have : j + 1 + (0 + n) = c := by omega
      rw [this]
    · rw [if_neg h1]
      by_cases h2 : j + 1 ≤ c ∧ c < j + 1 + n ∧ c ≤ r ∧ r < j + 1 + h
      · rw [if_pos h2, if_pos (by omega)]
      · rw [if_neg h2, if_neg (by omega)]

theorem UnbA22_Get (j h : Nat) (alpha11 : R) (A : Matrix F) (r c : Nat) :
    (UnbA22 j h alpha11 A).Get r c =
    if j+1 ≤ c ∧ c ≤ r ∧ r < j+1+h then
      A.Get r c - A.Get r j * Scalar.Conj (A.Get c j / Scalar.ofReal alpha11)
    else A.Get r c := by
  unfold UnbA22
  rw [UnbA22_loop_Get]
  by_cases h2 : j + 1 ≤ c ∧ c ≤ r ∧ r < j + 1 + h
  · rw [if_pos h2, if_pos (by omega)]
  · rw [if_neg h2, if_neg (by omega)]

theorem Unba21_loop_Get (j : Nat) (alpha11 : R) (A : Matrix F) (cnt r c : Nat) :
    (forLoop 0
      (fun i A => A.Set (j+1+i) j (A.Get (j+1+i) j / Scalar.ofReal alpha11)) cnt A).Get r c =
    if c = j ∧ j+1 ≤ r ∧ r < j+1+cnt then A.Get r c / Scalar.ofReal alpha11
    else A.Get r c := by
  induction cnt generalizing r c with
  | zero => rw [if_neg (by omega)]; rfl
  | succ n ih =>
    rw [forLoop_succ]
    simp only [Matrix_Set_Get, ih]
    by_cases h1 : r = j + 1 + (0 + n) ∧ c = j
    · obtain ⟨rfl, rfl⟩ := h1
      rw [if_pos ⟨rfl, rfl⟩, if_neg (by omega), if_pos (by omega)]
    · rw [if_neg h1]
      by_cases h2 : c = j ∧ j + 1 ≤ r ∧ r < j + 1 + n
      · rw [if_pos h2, if_pos (by omega)]
      · rw [if_neg h2, if_neg (by omega)]

theorem Unba21_Get (j h : Nat) (alpha11 : R) (A : Matrix F) (r c : Nat) :
    (Unba21 j h alpha11 A).Get r c =
    if c = j ∧ j+1 ≤ r ∧ r < j+1+h then A.Get r c / Scalar.ofReal alpha11
    else A.Get r c := by
  unfold Unba21
  rw [Unba21_loop_Get]

theorem UnbColumn_fst (pivTol regMag : R) (pivSign : Matrix Int) (n j : Nat)
    (s : Matrix F × Matrix R) :
    (UnbColumn pivTol regMag pivSign n j s).1 =
      Unba21 j (n - (j+1)) (UnbPivot pivTol regMag pivSign j s.1)
        (UnbA22 j (n - (j+1)) (UnbPivot pivTol regMag pivSign j s.1)
          (s.1.Set j j (Scalar.ofReal (UnbPivot pivTol regMag pivSign j s.1)))) := rfl

theorem UnbColumn_fst_Get (pivTol regMag : R) (pivSign : Matrix Int) (n j : Nat)
    (s : Matrix F × Matrix R) (hj : j < n) (r c : Nat) :
    (UnbColumn pivTol regMag pivSign n j s).1.Get r c =
    if r = j ∧ c = j then Scalar.ofReal (UnbPivot pivTol regMag pivSign j s.1)
    else if c = j ∧ j < r ∧ r < n then
      s.1.Get r j / Scalar.ofReal (UnbPivot pivTol regMag pivSign j s.1)
    else if j < c ∧ c ≤ r ∧ r < n then
      s.1.Get r c - s.1.Get r j *
        Scalar.Conj (s.1.Get c j / Scalar.ofReal (UnbPivot pivTol regMag pivSign j s.1))
    else s.1.Get r c := by
  rw [UnbColumn_fst]
  generalize UnbPivot pivTol regMag pivSign j s.1 = α
  obtain ⟨h, rfl⟩ : ∃ h, n = j + 1 + h := ⟨n - (j+1), by omega⟩
  have hh : j + 1 + h - (j + 1) = h := by omega
  rw [hh]
  simp only [Unba21_Get, UnbA22_Get, Matrix_Set_Get]
  split_ifs <;> first | rfl | (exfalso; omega) | (rename_i h1 h2; obtain ⟨rfl, -⟩ := h2; rfl)

theorem UnbColumn_snd_Get (pivTol regMag : R) (pivSign : Matrix Int) (n j : Nat)
    (s : Matrix F × Matrix R) (r c : Nat) :
    (UnbColumn pivTol regMag pivSign n j s).2.Get r c =
    if r = j ∧ c = 0 ∧
        ((pivSign.Get j 0 : Int) : R) * Scalar.RealPart (s.1.Get j j) ≤ pivTol then
      ((pivSign.Get j 0 : Int) : R) * regMag - Scalar.RealPart (s.1.Get j j)
    else s.2.Get r c := by
  unfold UnbColumn
  simp only
  split_ifs with h1 h2 h3 <;> simp_all

/-! ## The states of `RegularizedVar3Unb` -/

theorem UnbState_zero (A : Matrix F) (pivTol regMag : R) (pivSign : Matrix Int) :
    UnbState A pivTol regMag pivSign 0 = (A, Zeros A.Height 1) := rfl

theorem UnbState_succ (A : Matrix F) (pivTol regMag : R) (pivSign : Matrix Int) (j : Nat) :
    UnbState A pivTol regMag pivSign (j+1) =
      UnbColumn pivTol regMag pivSign A.Height j (UnbState A pivTol regMag pivSign j) := by
  unfold UnbState
  rw [forLoop_succ, Nat.zero_add]

/-- With the checks passed (or compiled out), `RegularizedVar3Unb` returns the state
reached after all `n` columns. -/
theorem RegularizedVar3Unb_ok (debug : Bool) (A : Matrix F) (pivTol regMag : R)
    (pivSign : Matrix Int) (reg : Matrix R) (hsq : A.Height = A.Width)
    (hpiv : pivSign.Height = A.Height ∧ pivSign.Width = 1) :
    RegularizedVar3Unb debug A pivTol regMag pivSign reg =
      .ok (UnbState A pivTol regMag pivSign A.Height) := by
  unfold RegularizedVar3Unb UnbState
  rw [if_neg (by simp [hsq]), if_neg (by simp [hpiv.1, hpiv.2])]

/-- A column step changes no entry of a column to its left. -/
theorem UnbColumn_fst_Get_left (pivTol regMag : R) (pivSign : Matrix Int) (n j : Nat)
    (s : Matrix F × Matrix R) (hj : j < n) (r c : Nat) (hc : c < j) :
    (UnbColumn pivTol regMag pivSign n j s).1.Get r c = s.1.Get r c := by
  rw [UnbColumn_fst_Get _ _ _ _ _ _ hj, if_neg (by omega), if_neg (by omega), if_neg (by omega)]

/-- Entries of columns left of `j` are not changed by the columns `j, j+1, ...`. -/
theorem UnbState_Get_left (A : Matrix F) (pivTol regMag : R) (pivSign : Matrix Int)
    (j t r c : Nat) (hc : c < j) (ht : j + t ≤ A.Height) :
    (UnbState A pivTol regMag pivSign (j + t)).1.Get r c =
      (UnbState A pivTol regMag pivSign j).1.Get r c := by
  induction t with
  | zero => rfl
  | succ t ih =>
    rw [← Nat.add_assoc, UnbState_succ, UnbColumn_fst_Get_left _ _ _ _ _ _ (by omega) _ _ (by omega),
      ih (by omega)]

theorem UnbState_snd_Get_left (A : Matrix F) (pivTol regMag : R) (pivSign : Matrix Int)
    (j t r c : Nat) (hr : r < j) :
    (UnbState A pivTol regMag pivSign (j + t)).2.Get r c =
      (UnbState A pivTol regMag pivSign j).2.Get r c := by
  induction t with
  | zero => rfl
  | succ t ih =>
    rw [← Nat.add_assoc, UnbState_succ, UnbColumn_snd_Get, if_neg (by omega), ih]

/-- Before column `j` is processed, `reg[j]` still holds the zero written by `Zeros`. -/
theorem UnbState_snd_Get_zero (A : Matrix F) (pivTol regMag : R) (pivSign : Matrix Int)
    (j r c : Nat) (hr : j ≤ r) :
    (UnbState A pivTol regMag pivSign j).2.Get r c = 0 := by
  induction j with
  | zero => rfl
  | succ j ih =>
    rw [UnbState_succ, UnbColumn_snd_Get, if_neg (by omega), ih (by omega)]

/-- C1. In `RegularizedVar3Unb`, for a square `A` and a conforming `pivSign`, at every
column `j` with `p` the real part of the diagonal entry as it stands after the columns
`0..j-1`: if `pivSign[j]*p <= pivTol` (equality included) then `reg[j] = pivSign[j]*regMag - p`
and the diagonal entry becomes `pivSign[j]*regMag`; otherwise `reg[j] = 0` and the
diagonal entry is `p`. -/
theorem C1_unsafe_pivot_rule (debug : Bool) (A : Matrix F) (pivTol regMag : R)
    (pivSign : Matrix Int) (reg : Matrix R) (hsq : A.Height = A.Width)
    (hpiv : pivSign.Height = A.Height ∧ pivSign.Width = 1) :
    ∃ A' reg', RegularizedVar3Unb debug A pivTol regMag pivSign reg = .ok (A', reg') ∧
      ∀ j, j < A.Height →
        ((((pivSign.Get j 0 : Int) : R) *
            Scalar.RealPart ((UnbState A pivTol regMag pivSign j).1.Get j j) ≤ pivTol →
          reg'.Get j 0 = ((pivSign.Get j 0 : Int) : R) * regMag -
              Scalar.RealPart ((UnbState A pivTol regMag pivSign j).1.Get j j) ∧
          A'.Get j j = Scalar.ofReal (((pivSign.Get j 0 : Int) : R) * regMag)) ∧
        (¬ ((pivSign.Get j 0 : Int) : R) *
            Scalar.RealPart ((UnbState A pivTol regMag pivSign j).1.Get j j) ≤ pivTol →
          reg'.Get j 0 = 0 ∧
          A'.Get j j =
            Scalar.ofReal (Scalar.RealPart ((UnbState A pivTol regMag pivSign j).1.Get j j)))) := by
  refine ⟨(UnbState A pivTol regMag pivSign A.Height).1,
    (UnbState A pivTol regMag pivSign A.Height).2,
    RegularizedVar3Unb_ok debug A pivTol regMag pivSign reg hsq hpiv, ?_⟩
  intro j hj
  obtain ⟨t, ht⟩ : ∃ t, A.Height = (j + 1) + t := ⟨A.Height - (j+1), by omega⟩
  have hA : (UnbState A pivTol regMag pivSign A.Height).1.Get j j =
      Scalar.ofReal (UnbPivot pivTol regMag pivSign j (UnbState A pivTol regMag pivSign j).1) := by
    rw [ht, UnbState_Get_left A pivTol regMag pivSign (j+1) t j j (by omega) (by omega),
      UnbState_succ, UnbColumn_fst_Get _ _ _ _ _ _ hj, if_pos ⟨rfl, rfl⟩]
  have hr : (UnbState A pivTol regMag pivSign A.Height).2.Get j 0 =
      if ((pivSign.Get j 0 : Int) : R) *
          Scalar.RealPart ((UnbState A pivTol regMag pivSign j).1.Get j j) ≤ pivTol then
        ((pivSign.Get j 0 : Int) : R) * regMag -
          Scalar.RealPart ((UnbState A pivTol regMag pivSign j).1.Get j j)
      else 0 := by
    rw [ht, UnbState_snd_Get_left A pivTol regMag pivSign (j+1) t j 0 (by omega),
      UnbState_succ, UnbColumn_snd_Get, UnbState_snd_Get_zero _ _ _ _ _ _ _ (le_refl j)]
    simp
  constructor
  · intro h
    rw [hr, hA, if_pos h]
    refine ⟨rfl, ?_⟩
    unfold UnbPivot
    simp only
    rw [if_pos h]
  · intro h
    rw [hr, hA, if_neg h]
    refine ⟨rfl, ?_⟩
    unfold UnbPivot
    simp only
    rw [if_neg h]

/-- Witness for C1 on `[[0, 1], [1, 2]]` with `pivTol = 0`, `regMag = 1` and signs
`[1, 1]`: column 0 is unsafe (boundary case `0 <= 0`), column 1 is safe. -/
theorem C1_unsafe_pivot_rule_witness :
    (exampleA.Height = exampleA.Width ∧
      ((onesSign 2).Height = exampleA.Height ∧ (onesSign 2).Width = 1)) ∧
    ∃ A' reg', RegularizedVar3Unb true exampleA (0 : ℚ) 1 (onesSign 2) (Zeros 0 0) = .ok (A', reg') ∧
      ∀ j, j < exampleA.Height →
        (((((onesSign 2).Get j 0 : Int) : ℚ) *
            Scalar.RealPart ((UnbState exampleA (0 : ℚ) 1 (onesSign 2) j).1.Get j j) ≤ 0 →
          reg'.Get j 0 = (((onesSign 2).Get j 0 : Int) : ℚ) * 1 -
              Scalar.RealPart ((UnbState exampleA (0 : ℚ) 1 (onesSign 2) j).1.Get j j) ∧
          A'.Get j j = Scalar.ofReal ((((onesSign 2).Get j 0 : Int) : ℚ) * 1)) ∧
        (¬ (((onesSign 2).Get j 0 : Int) : ℚ) *
            Scalar.RealPart ((UnbState exampleA (0 : ℚ) 1 (onesSign 2) j).1.Get j j) ≤ 0 →
          reg'.Get j 0 = 0 ∧
          A'.Get j j =
            Scalar.ofReal
              (Scalar.RealPart ((UnbState exampleA (0 : ℚ) 1 (onesSign 2) j).1.Get j j)))) :=
  ⟨⟨rfl, rfl, rfl⟩,
    C1_unsafe_pivot_rule true exampleA 0 1 (onesSign 2) (Zeros 0 0) rfl ⟨rfl, rfl⟩⟩

/-! ## C4: the path without regularization -/

theorem UnbColumn_safe (pivTol regMag : R) (pivSign : Matrix Int) (n j : Nat)
    (s : Matrix F × Matrix R)
    (h : pivTol < ((pivSign.Get j 0 : Int) : R) * Scalar.RealPart (s.1.Get j j)) :
    UnbColumn pivTol regMag pivSign n j s = (PlainColumn n j s.1, s.2) := by
  unfold UnbColumn PlainColumn
  simp only [if_neg (not_le.mpr h)]

/-- C4. When at every column the pivot met by the factorization satisfies
`pivSign[j]*pivot > pivTol`, `RegularizedVar3Unb` returns the all-zero regularization
vector of length `n` and leaves in `A` the result of the plain unpivoted, unregularized
LDL^H recurrence. -/
theorem C4_no_regularization_path (debug : Bool) (A : Matrix F) (pivTol regMag : R)
    (pivSign : Matrix Int) (reg : Matrix R) (hsq : A.Height = A.Width)
    (hpiv : pivSign.Height = A.Height ∧ pivSign.Width = 1)
    (hsafe : ∀ j, j < A.Height →
      pivTol < ((pivSign.Get j 0 : Int) : R) *
        Scalar.RealPart ((UnbState A pivTol regMag pivSign j).1.Get j j)) :
    RegularizedVar3Unb debug A pivTol regMag pivSign reg =
      .ok (PlainLDL A, Zeros A.Height 1) := by
  rw [RegularizedVar3Unb_ok debug A pivTol regMag pivSign reg hsq hpiv]
  have key : ∀ j, j ≤ A.Height → UnbState A pivTol regMag pivSign j =
      (forLoop 0 (PlainColumn A.Height) j A, Zeros A.Height 1) := by
    intro j
    induction j with
    | zero => intro _; rfl
    | succ j ih =>
      intro hj
      have hs := hsafe j (by omega)
      rw [UnbState_succ, UnbColumn_safe _ _ _ _ _ _ hs, ih (by omega), forLoop_succ, Nat.zero_add]
  rw [key A.Height (le_refl _)]
  rfl

/-- Witness for C4 on `[[2, 1], [1, 2]]`: both pivots, `2` and `3/2`, exceed `pivTol = 0`. -/
theorem C4_no_regularization_path_witness :
    (examplePosDef.Height = examplePosDef.Width ∧
      ((onesSign 2).Height = examplePosDef.Height ∧ (onesSign 2).Width = 1) ∧
      ∀ j, j < examplePosDef.Height →
        (0 : ℚ) < (((onesSign 2).Get j 0 : Int) : ℚ) *
          Scalar.RealPart ((UnbState examplePosDef (0 : ℚ) 1 (onesSign 2) j).1.Get j j)) ∧
    RegularizedVar3Unb true examplePosDef (0 : ℚ) 1 (onesSign 2) (Zeros 0 0) =
      .ok (PlainLDL examplePosDef, Zeros examplePosDef.Height 1) :=
  have hsafe : ∀ j, j < examplePosDef.Height →
      (0 : ℚ) < (((onesSign 2).Get j 0 : Int) : ℚ) *
        Scalar.RealPart ((UnbState examplePosDef (0 : ℚ) 1 (onesSign 2) j).1.Get j j) := by
    intro j hj
    have h2 : j < 2 := hj
    interval_cases j <;> decide!
  ⟨⟨rfl, ⟨rfl, rfl⟩, hsafe⟩,
    C4_no_regularization_path true examplePosDef 0 1 (onesSign 2) (Zeros 0 0) rfl ⟨rfl, rfl⟩ hsafe⟩

/-! ## C6: the pivots that are divided by -/

/-- C6 as stated fails: with `regMag = 0` (a non-negative regularization magnitude) and
`pivTol = 0` the pivot of column 0 of `[[0, 1], [1, 0]]` is `0`, and the column below it
(`a21Height = 1`) is divided by it; the same happens with `regMag = 1` when the
pivot-sign entry is `0`. -/
theorem C6_counterexample :
    (exampleZeroDiag.Height = exampleZeroDiag.Width ∧ (0 : ℚ) ≤ 0 ∧
      exampleZeroDiag.Height - (0 + 1) = 1 ∧
      UnbPivot (0 : ℚ) 0 (onesSign 2) 0 (UnbState exampleZeroDiag (0 : ℚ) 0 (onesSign 2) 0).1 = 0) ∧
    (UnbPivot (0 : ℚ) 1 (Zeros 2 1) 0 (UnbState exampleZeroDiag (0 : ℚ) 1 (Zeros 2 1) 0).1 = 0) := by
  refine ⟨⟨rfl, le_refl _, rfl, ?_⟩, ?_⟩ <;> decide!

theorem UnbPivot_ne_zero (pivTol regMag : R) (pivSign : Matrix Int) (j : Nat) (A : Matrix F)
    (htol : 0 ≤ pivTol) (hreg : 0 < regMag) (hsign : pivSign.Get j 0 ≠ 0) :
    UnbPivot pivTol regMag pivSign j A ≠ 0 := by
  unfold UnbPivot
  simp only
  split_ifs with h
  · exact mul_ne_zero (Int.cast_ne_zero.mpr hsign) (ne_of_gt hreg)
  · intro h0
    apply h
    rw [h0, mul_zero]
    exact htol

/-- C6, amended. For a non-negative pivot tolerance, a positive regularization magnitude
and a pivot-sign vector without zero entries, the pivot `alpha11` that column `j` of
`RegularizedVar3Unb` divides by is nonzero, as a real number and as a scalar, at every
column `j`; the column step is the division of the trailing updates by this pivot. -/
theorem C6_pivots_nonzero (A : Matrix F) (pivTol regMag : R) (pivSign : Matrix Int)
    (htol : 0 ≤ pivTol) (hreg : 0 < regMag)
    (hsign : ∀ j, j < A.Height → pivSign.Get j 0 ≠ 0) (j : Nat) (hj : j < A.Height) :
    UnbPivot pivTol regMag pivSign j (UnbState A pivTol regMag pivSign j).1 ≠ 0 ∧
    (Scalar.ofReal (UnbPivot pivTol regMag pivSign j (UnbState A pivTol regMag pivSign j).1) : F)
      ≠ 0 ∧
    (UnbState A pivTol regMag pivSign (j+1)).1 =
      Unba21 j (A.Height - (j+1))
        (UnbPivot pivTol regMag pivSign j (UnbState A pivTol regMag pivSign j).1)
        (UnbA22 j (A.Height - (j+1))
          (UnbPivot pivTol regMag pivSign j (UnbState A pivTol regMag pivSign j).1)
          ((UnbState A pivTol regMag pivSign j).1.Set j j
            (Scalar.ofReal
              (UnbPivot pivTol regMag pivSign j (UnbState A pivTol regMag pivSign j).1)))) := by
  have h := UnbPivot_ne_zero pivTol regMag pivSign j (UnbState A pivTol regMag pivSign j).1
    htol hreg (hsign j hj)
  refine ⟨h, ?_, ?_⟩
  · exact (map_ne_zero (Scalar.ofReal : R →+* F)).mpr h
  · rw [UnbState_succ, UnbColumn_fst]

/-- Witness for the amended C6 on `[[0, 1], [1, 0]]` with `pivTol = 0`, `regMag = 1`. -/
theorem C6_pivots_nonzero_witness :
    ((0 : ℚ) ≤ 0 ∧ (0 : ℚ) < 1 ∧ (∀ j, j < exampleZeroDiag.Height → (onesSign 2).Get j 0 ≠ 0) ∧
      0 < exampleZeroDiag.Height) ∧
    UnbPivot (0 : ℚ) 1 (onesSign 2) 0 (UnbState exampleZeroDiag (0 : ℚ) 1 (onesSign 2) 0).1 ≠ 0 :=
  ⟨⟨le_refl _, one_pos, fun _ _ => one_ne_zero, by decide⟩,
    (C6_pivots_nonzero exampleZeroDiag (0 : ℚ) 1 (onesSign 2) (le_refl _) one_pos
      (fun _ _ => one_ne_zero) 0 (by decide)).1⟩

end ldl

/-! ## C10: the blocked driver loop -/

theorem panel_count_lt (bsize n t : Nat) (hb : 1 ≤ bsize) :
    t < (n + bsize - 1) / bsize ↔ t * bsize < n := by
  rw [Nat.lt_iff_add_one_le, Nat.le_div_iff_mul_le (by omega), Nat.succ_mul]
  omega

theorem blockedLoop_from {σ : Type} (bsize n : Nat) (body : Nat → Nat → σ → Except Error σ)
    (hb : 1 ≤ bsize) (fuel : Nat) :
    ∀ (t0 : Nat) (s : σ), (n + bsize - 1) / bsize - t0 < fuel →
      blockedLoop bsize n body fuel (t0 * bsize) s =
        ((List.range' t0 ((n + bsize - 1) / bsize - t0)).map
          (fun t => (t * bsize, min bsize (n - t * bsize)))).foldlM
          (fun s p => body p.1 p.2 s) s := by
  induction fuel with
  | zero => intro t0 s h; omega
  | succ fuel ih =>
    intro t0 s h
    unfold blockedLoop
    by_cases hk : t0 * bsize < n
    · have ht : t0 < (n + bsize - 1) / bsize := (panel_count_lt bsize n t0 hb).mpr hk
      obtain ⟨d, hd⟩ : ∃ d, (n + bsize - 1) / bsize - t0 = d + 1 :=
        ⟨(n + bsize - 1) / bsize - t0 - 1, by omega⟩
      rw [if_pos hk, hd, List.range'_succ, List.map_cons, List.foldlM_cons]
      have hd' : d = (n + bsize - 1) / bsize - (t0 + 1) := by omega
      have hstep : t0 * bsize + bsize = (t0 + 1) * bsize := by rw [Nat.succ_mul]
      rw [hstep]
      cases hbody : body (t0 * bsize) (min bsize (n - t0 * bsize)) s with
      | error e => rfl
      | ok s' =>
        show blockedLoop bsize n body fuel ((t0 + 1) * bsize) s' = _
        rw [ih (t0 + 1) s' (by omega), hd']
        rfl
    · have ht : ¬ t0 < (n + bsize - 1) / bsize := fun h' => hk ((panel_count_lt bsize n t0 hb).mp h')
      have h0 : (n + bsize - 1) / bsize - t0 = 0 := by omega
      rw [if_neg hk, h0]
      rfl

/-- With enough fuel the driver loop is the fold of its body over `panelList`. -/
theorem blockedLoop_eq_foldlM {σ : Type} (bsize n fuel : Nat)
    (body : Nat → Nat → σ → Except Error σ) (hb : 1 ≤ bsize)
    (hfuel : (n + bsize - 1) / bsize < fuel) (s : σ) :
    blockedLoop bsize n body fuel 0 s =
      (panelList bsize n).foldlM (fun s p => body p.1 p.2 s) s := by
  have h := blockedLoop_from bsize n body hb fuel 0 s (by rw [Nat.sub_zero]; exact hfuel)
  rw [Nat.zero_mul, Nat.sub_zero] at h
  rw [h, panelList, List.range_eq_range']

theorem foldlM_append_singleton (l : List (Nat × Nat)) (acc : List (Nat × Nat)) :
    l.foldlM (fun (visited : List (Nat × Nat)) p => (Except.ok (visited ++ [(p.1, p.2)]) :
      Except Error (List (Nat × Nat)))) acc = .ok (acc ++ l) := by
  induction l generalizing acc with
  | nil => simp [List.foldlM]; rfl
  | cons p l ih =>
    rw [List.foldlM_cons]
    show l.foldlM _ (acc ++ [(p.1, p.2)]) = _
    rw [ih]
    simp

/-- C10. For every dimension `n` and block size `bsize >= 1` the blocked driver loop
ends (any fuel above `ceil(n/bsize)` is enough) after exactly `ceil(n/bsize)` iterations
and runs its body on the panels of `panelList`, in order and without early exit; panel
`t` is `[t*bsize, t*bsize+nb)`, with `1 <= nb <= bsize`, only the last panel may be
shorter than `bsize`, consecutive panels are adjacent (so they come in strictly
increasing order and are pairwise disjoint), and every index below `n` lies in exactly
one panel. -/
theorem C10_blocked_loop_panels (n bsize fuel : Nat) (hb : 1 ≤ bsize)
    (hfuel : (n + bsize - 1) / bsize < fuel) :
    panelsVisited bsize n fuel = .ok (panelList bsize n) ∧
    (∀ (σ : Type) (body : Nat → Nat → σ → Except Error σ) (s : σ),
      blockedLoop bsize n body fuel 0 s =
        (panelList bsize n).foldlM (fun s p => body p.1 p.2 s) s) ∧
    (panelList bsize n).length = (n + bsize - 1) / bsize ∧
    (∀ t, t < (n + bsize - 1) / bsize →
      (panelList bsize n)[t]? = some (t * bsize, min bsize (n - t * bsize))) ∧
    (∀ t, t < (n + bsize - 1) / bsize →
      1 ≤ min bsize (n - t * bsize) ∧ min bsize (n - t * bsize) ≤ bsize ∧
      t * bsize + min bsize (n - t * bsize) ≤ n) ∧
    (∀ t, t + 1 < (n + bsize - 1) / bsize →
      min bsize (n - t * bsize) = bsize ∧
      t * bsize + min bsize (n - t * bsize) = (t + 1) * bsize) ∧
    (∀ i, i < n → ∃! t, t < (n + bsize - 1) / bsize ∧
      t * bsize ≤ i ∧ i < t * bsize + min bsize (n - t * bsize)) := by
  refine ⟨?_, ?_, ?_, ?_, ?_, ?_, ?_⟩
  · unfold panelsVisited
    rw [blockedLoop_eq_foldlM bsize n fuel _ hb hfuel, foldlM_append_singleton, List.nil_append]
  · intro σ body s
    exact blockedLoop_eq_foldlM bsize n fuel body hb hfuel s
  · simp [panelList]
  · intro t ht
    simp [panelList, List.getElem?_map, List.getElem?_range ht]
  · intro t ht
    have h1 := (panel_count_lt bsize n t hb).mp ht
    omega
  · intro t ht
    have h1 := (panel_count_lt bsize n (t+1) hb).mp ht
    rw [Nat.succ_mul] at h1
    rw [Nat.succ_mul]
    omega
  · intro i hi
    refine ⟨i / bsize, ⟨?_, ?_, ?_⟩, ?_⟩
    · rw [panel_count_lt bsize n _ hb]
      exact lt_of_le_of_lt (Nat.div_mul_le_self i bsize) hi
    · exact Nat.div_mul_le_self i bsize
    · have h1 := Nat.div_mul_le_self i bsize
      have h2 : i < (i / bsize + 1) * bsize := Nat.lt_mul_of_div_lt (Nat.lt_succ_self _) (by omega)
      rw [Nat.succ_mul] at h2
      omega
    · rintro t ⟨-, h1, h2⟩
      have h3 : i < t * bsize + bsize := lt_of_lt_of_le h2 (by omega)
      symm
      apply Nat.div_eq_of_lt_le
      · exact h1
      · rw [Nat.succ_mul]; exact h3

/-- Witness for C10: `n = 5` cut with `bsize = 2`. -/
theorem C10_blocked_loop_panels_witness :
    (1 ≤ 2 ∧ (5 + 2 - 1) / 2 < 4) ∧ panelsVisited 2 5 4 = .ok [(0, 2), (2, 2), (4, 1)] :=
  ⟨by decide, (C10_blocked_loop_panels 5 2 4 (by decide) (by decide)).1⟩

namespace ldl
variable {F R : Type} [Field F] [LinearOrderedField R] [Scalar F R]

/-! ## C9: the validation of the entry points -/

/-- With validation enabled `RegularizedVar3Unb` rejects a non-square `A` and a
pivot-sign vector that is not `n x 1`, before anything is computed. -/
theorem RegularizedVar3Unb_checks (A : Matrix F) (pivTol regMag : R) (pivSign : Matrix Int)
    (reg : Matrix R) :
    (A.Height ≠ A.Width →
      RegularizedVar3Unb true A pivTol regMag pivSign reg =
        .error (.LogicError "A must be square")) ∧
    (A.Height = A.Width → (pivSign.Height ≠ A.Height ∨ pivSign.Width ≠ 1) →
      RegularizedVar3Unb true A pivTol regMag pivSign reg =
        .error (.LogicError "pivSign must be a conforming column vector")) := by
  constructor
  · intro h
    unfold RegularizedVar3Unb
    rw [if_pos ⟨rfl, h⟩]
  · intro h1 h2
    unfold RegularizedVar3Unb
    rw [if_neg (by simp [h1]), if_pos ⟨rfl, h2⟩]

/-- C9 fails on the blocked entry points. With validation enabled and `A = [[2,1],[1,2]]`,
the serial blocked `RegularizedVar3` and the distributed overload (grid `1 x 1`) accept
the pivot-sign vector `[1,1,1]` of height `3` and return a factorization; and with the
pivot-sign vector `[1]` of height `1` and block size `1` the serial blocked routine
fails only at the second panel, whereas `RegularizedVar3Unb` rejects both vectors. -/
theorem C9_pivSign_mismatch_not_reported :
    (∃ out, RegularizedVar3 true 3 2 examplePosDef (0 : ℚ) 1 (onesSign 3) (Zeros 2 1) = .ok out) ∧
    (∃ out, DistRegularizedVar3 true 3 2 ⟨1, 1⟩ examplePosDef (0 : ℚ) 1 (onesSign 3) (Zeros 0 0)
      = .ok out) ∧
    (∃ out, RegularizedVar3Panel true (0 : ℚ) 1 (onesSign 1) 2 0 1 (examplePosDef, Zeros 2 1)
        = .ok out ∧
      RegularizedVar3Panel true (0 : ℚ) 1 (onesSign 1) 2 1 1 out
        = .error (.LogicError "view out of bounds")) ∧
    RegularizedVar3Unb true examplePosDef (0 : ℚ) 1 (onesSign 3) (Zeros 2 1)
      = .error (.LogicError "pivSign must be a conforming column vector") ∧
    RegularizedVar3Unb true examplePosDef (0 : ℚ) 1 (onesSign 1) (Zeros 2 1)
      = .error (.LogicError "pivSign must be a conforming column vector") :=
  ⟨⟨_, rfl⟩, ⟨_, rfl⟩, ⟨_, rfl, rfl⟩, rfl, rfl⟩

/-! ## The run of the column loop from an arbitrary column -/

section Cols

variable (pivTol regMag : R) (pivSign : Matrix Int) (n k : Nat) (M : Matrix F)

theorem UnbCols_zero : UnbCols pivTol regMag pivSign n k M 0 = M := rfl

theorem UnbCols_succ (t : Nat) :
    UnbCols pivTol regMag pivSign n k M (t+1) =
      (UnbColumn pivTol regMag pivSign n (k+t)
        (UnbCols pivTol regMag pivSign n k M t, Zeros n 1)).1 := by
  unfold UnbCols
  rw [forLoop_succ, UnbColumn_fst, UnbColumn_fst]

theorem UnbCols_succ_Get (t : Nat) (ht : k + t < n) (r c : Nat) :
    (UnbCols pivTol regMag pivSign n k M (t+1)).Get r c =
    if r = k + t ∧ c = k + t then Scalar.ofReal (UnbColsPivot pivTol regMag pivSign n k M t)
    else if c = k + t ∧ k + t < r ∧ r < n then
      (UnbCols pivTol regMag pivSign n k M t).Get r (k + t) /
        Scalar.ofReal (UnbColsPivot pivTol regMag pivSign n k M t)
    else if k + t < c ∧ c ≤ r ∧ r < n then
      (UnbCols pivTol regMag pivSign n k M t).Get r c -
        (UnbCols pivTol regMag pivSign n k M t).Get r (k + t) *
          Scalar.Conj ((UnbCols pivTol regMag pivSign n k M t).Get c (k + t) /
            Scalar.ofReal (UnbColsPivot pivTol regMag pivSign n k M t))
    else (UnbCols pivTol regMag pivSign n k M t).Get r c := by
  rw [UnbCols_succ, UnbColumn_fst_Get _ _ _ _ _ _ ht]
  rfl

theorem UnbColumn_fst_Height (j : Nat) (s : Matrix F × Matrix R) :
    (UnbColumn pivTol regMag pivSign n j s).1.Height = s.1.Height ∧
    (UnbColumn pivTol regMag pivSign n j s).1.Width = s.1.Width := by
  rw [UnbColumn_fst]
  generalize UnbPivot pivTol regMag pivSign j s.1 = α
  have hset : ∀ (cnt lo : Nat) (f g : Nat → Nat) (v : Nat → Matrix F → F) (B : Matrix F),
      (forLoop lo (fun i A => A.Set (f i) (g i) (v i A)) cnt B).Height = B.Height ∧
      (forLoop lo (fun i A => A.Set (f i) (g i) (v i A)) cnt B).Width = B.Width := by
    intro cnt
    induction cnt with
    | zero => intro lo f g v B; exact ⟨rfl, rfl⟩
    | succ c ih =>
      intro lo f g v B
      rw [forLoop_succ]
      exact ih lo f g v B
  have h22 : ∀ (cnt h : Nat) (B : Matrix F),
      (forLoop 0 (fun k A =>
        let beta : F := Scalar.Conj (A.Get (j+1+k) j / Scalar.ofReal α)
        UnbA22Col j k h beta A) cnt B).Height = B.Height ∧
      (forLoop 0 (fun k A =>
        let beta : F := Scalar.Conj (A.Get (j+1+k) j / Scalar.ofReal α)
        UnbA22Col j k h beta A) cnt B).Width = B.Width := by
    intro cnt
    induction cnt with
    | zero => intro h B; exact ⟨rfl, rfl⟩
    | succ c ih =>
      intro h B
      rw [forLoop_succ]
      simp only
      unfold UnbA22Col
      have h1 := hset (h - (0 + c)) (0 + c) (fun i => j+1+i) (fun _ => j+1+(0+c))
        (fun i A => A.Get (j+1+i) (j+1+(0+c)) - A.Get (j+1+i) j *
          Scalar.Conj ((forLoop 0 (fun k A =>
            let beta : F := Scalar.Conj (A.Get (j+1+k) j / Scalar.ofReal α)
            UnbA22Col j k h beta A) c B).Get (j+1+(0+c)) j / Scalar.ofReal α))
        (forLoop 0 (fun k A =>
            let beta : F := Scalar.Conj (A.Get (j+1+k) j / Scalar.ofReal α)
            UnbA22Col j k h beta A) c B)
      have h2 := ih h B
      unfold UnbA22Col at h2
      exact ⟨h1.1.trans h2.1, h1.2.trans h2.2⟩
  unfold Unba21 UnbA22
  have h1 := hset (n - (j+1)) 0 (fun i => j+1+i) (fun _ => j)
    (fun i A => A.Get (j+1+i) j / Scalar.ofReal α)
  have h2 := h22 (n - (j+1)) (n - (j+1)) (s.1.Set j j (Scalar.ofReal α))
  constructor
  · rw [(h1 _).1, h2.1]; rfl
  · rw [(h1 _).2, h2.2]; rfl

theorem UnbCols_Height (t : Nat) :
    (UnbCols pivTol regMag pivSign n k M t).Height = M.Height ∧
    (UnbCols pivTol regMag pivSign n k M t).Width = M.Width := by
  induction t with
  | zero => exact ⟨rfl, rfl⟩
  | succ t ih =>
    rw [UnbCols_succ]
    have h := UnbColumn_fst_Height pivTol regMag pivSign n (k+t)
      (UnbCols pivTol regMag pivSign n k M t, Zeros n 1)
    exact ⟨h.1.trans ih.1, h.2.trans ih.2⟩

/-- Entries outside the lower triangle of the trailing block are never written. -/
theorem UnbCols_Get_frame (t r c : Nat) (ht : k + t ≤ n) (h : c < k ∨ r < c ∨ n ≤ r) :
    (UnbCols pivTol regMag pivSign n k M t).Get r c = M.Get r c := by
  induction t with
  | zero => rfl
  | succ t ih =>
    rw [UnbCols_succ_Get _ _ _ _ _ _ _ (by omega), if_neg (by omega), if_neg (by omega),
      if_neg (by omega), ih (by omega)]

/-- A finished column is not written again. -/
theorem UnbCols_Get_left (t u r c : Nat) (hc : c < k + t) (hu : k + t + u ≤ n) :
    (UnbCols pivTol regMag pivSign n k M (t + u)).Get r c =
      (UnbCols pivTol regMag pivSign n k M t).Get r c := by
  induction u with
  | zero => rfl
  | succ u ih =>
    rw [← Nat.add_assoc, UnbCols_succ_Get _ _ _ _ _ _ _ (by omega), if_neg (by omega),
      if_neg (by omega), if_neg (by omega), ih (by omega)]

/-- A finished column holds the pivot on the diagonal and the scaled column below it. -/
theorem UnbCols_Get_done (t m r : Nat) (hm : m < t) (ht : k + t ≤ n) :
    (UnbCols pivTol regMag pivSign n k M t).Get (k + m) (k + m) =
      Scalar.ofReal (UnbColsPivot pivTol regMag pivSign n k M m) ∧
    (k + m < r → r < n →
      (UnbCols pivTol regMag pivSign n k M t).Get r (k + m) =
        (UnbCols pivTol regMag pivSign n k M m).Get r (k + m) /
          Scalar.ofReal (UnbColsPivot pivTol regMag pivSign n k M m)) := by
  obtain ⟨u, rfl⟩ : ∃ u, t = (m + 1) + u := ⟨t - (m+1), by omega⟩
  constructor
  · rw [UnbCols_Get_left _ _ _ _ _ _ (m+1) u _ _ (by omega) (by omega),
      UnbCols_succ_Get _ _ _ _ _ _ _ (by omega), if_pos ⟨rfl, rfl⟩]
  · intro h1 h2
    rw [UnbCols_Get_left _ _ _ _ _ _ (m+1) u _ _ (by omega) (by omega),
      UnbCols_succ_Get _ _ _ _ _ _ _ (by omega), if_neg (by omega), if_pos ⟨rfl, h1, h2⟩]

/-- The trailing block after `t` columns: the start value minus the `t` rank-one
updates. -/
theorem UnbCols_Get_trailing (t r c : Nat) (ht : k + t ≤ n) (hc : k + t ≤ c) (hrc : c ≤ r)
    (hr : r < n) :
    (UnbCols pivTol regMag pivSign n k M t).Get r c =
      M.Get r c - ∑ m ∈ Finset.range t,
        (UnbCols pivTol regMag pivSign n k M m).Get r (k + m) *
          Scalar.Conj ((UnbCols pivTol regMag pivSign n k M m).Get c (k + m) /
            Scalar.ofReal (UnbColsPivot pivTol regMag pivSign n k M m)) := by
  induction t with
  | zero => simp [UnbCols_zero]
  | succ t ih =>
    rw [UnbCols_succ_Get _ _ _ _ _ _ _ (by omega), if_neg (by omega), if_neg (by omega),
      if_pos (by omega), ih (by omega) (by omega), Finset.sum_range_succ]
    ring

end Cols

/-! ## The panel factorization seen inside the whole matrix -/

section Panel

variable (pivTol regMag : R) (pivSign pivSign1 : Matrix Int) (n k nb : Nat) (M V : Matrix F)

/-- The run of the column loop on the diagonal block `V = M(k:k+nb, k:k+nb)` computes
the same entries and pivots as the run on the whole matrix from column `k`. -/
theorem UnbCols_view (hV : ∀ i j, i < nb → j < nb → V.Get i j = M.Get (k + i) (k + j))
    (hS : ∀ j, j < nb → pivSign1.Get j 0 = pivSign.Get (k + j) 0) (hn : k + nb ≤ n)
    (t : Nat) (ht : t ≤ nb) :
    ∀ i j, i < nb → j < nb →
      (UnbCols pivTol regMag pivSign1 nb 0 V t).Get i j =
        (UnbCols pivTol regMag pivSign n k M t).Get (k + i) (k + j) := by
  induction t with
  | zero => exact hV
  | succ t ih =>
    intro i j hi hj
    have ih' := ih (by omega)
    have hp : UnbColsPivot pivTol regMag pivSign1 nb 0 V t =
        UnbColsPivot pivTol regMag pivSign n k M t := by
      unfold UnbColsPivot UnbPivot
      simp only [Nat.zero_add]
      rw [ih' t t (by omega) (by omega), hS t (by omega)]
    rw [UnbCols_succ_Get _ _ _ _ _ _ _ (by omega), UnbCols_succ_Get _ _ _ _ _ _ _ (by omega)]
    simp only [Nat.zero_add]
    rw [hp]
    by_cases h1 : i = t ∧ j = t
    · have h1' : k + i = k + t ∧ k + j = k + t := by omega
      rw [if_pos h1, if_pos h1']
    · have h1' : ¬ (k + i = k + t ∧ k + j = k + t) := by omega
      rw [if_neg h1, if_neg h1']
      by_cases h2 : j = t ∧ t < i ∧ i < nb
      · have h2' : k + j = k + t ∧ k + t < k + i ∧ k + i < n := by omega
        rw [if_pos h2, if_pos h2', ih' i t hi (by omega)]
      · have h2' : ¬ (k + j = k + t ∧ k + t < k + i ∧ k + i < n) := by omega
        rw [if_neg h2, if_neg h2']
        by_cases h3 : t < j ∧ j ≤ i ∧ i < nb
        · have h3' : k + t < k + j ∧ k + j ≤ k + i ∧ k + i < n := by omega
          rw [if_pos h3, if_pos h3', ih' i j hi hj, ih' i t hi (by omega),
            ih' j t hj (by omega)]
        · have h3' : ¬ (k + t < k + j ∧ k + j ≤ k + i ∧ k + i < n) := by omega
          rw [if_neg h3, if_neg h3', ih' i j hi hj]

theorem UnbColsPivot_view (hV : ∀ i j, i < nb → j < nb → V.Get i j = M.Get (k + i) (k + j))
    (hS : ∀ j, j < nb → pivSign1.Get j 0 = pivSign.Get (k + j) 0) (hn : k + nb ≤ n)
    (t : Nat) (ht : t < nb) :
    UnbColsPivot pivTol regMag pivSign1 nb 0 V t =
      UnbColsPivot pivTol regMag pivSign n k M t := by
  unfold UnbColsPivot UnbPivot
  simp only [Nat.zero_add]
  rw [UnbCols_view pivTol regMag pivSign pivSign1 n k nb M V hV hS hn t (by omega) t t ht ht,
    hS t ht]

theorem UnbRegEntry_view (hV : ∀ i j, i < nb → j < nb → V.Get i j = M.Get (k + i) (k + j))
    (hS : ∀ j, j < nb → pivSign1.Get j 0 = pivSign.Get (k + j) 0) (hn : k + nb ≤ n)
    (t : Nat) (ht : t < nb) :
    UnbRegEntry pivTol regMag pivSign1 t (UnbCols pivTol regMag pivSign1 nb 0 V t) =
      UnbRegEntry pivTol regMag pivSign (k + t) (UnbCols pivTol regMag pivSign n k M t) := by
  unfold UnbRegEntry
  simp only
  rw [UnbCols_view pivTol regMag pivSign pivSign1 n k nb M V hV hS hn t (by omega) t t ht ht,
    hS t ht]

end Panel

/-- The entries of `reg` left by `RegularizedVar3Unb`. -/
theorem UnbState_snd_Get (A : Matrix F) (pivTol regMag : R) (pivSign : Matrix Int) (j : Nat)
    (hj : j < A.Height) :
    (UnbState A pivTol regMag pivSign A.Height).2.Get j 0 =
      UnbRegEntry pivTol regMag pivSign j (UnbState A pivTol regMag pivSign j).1 := by
  obtain ⟨t, ht⟩ : ∃ t, A.Height = (j + 1) + t := ⟨A.Height - (j+1), by omega⟩
  rw [ht, UnbState_snd_Get_left A pivTol regMag pivSign (j+1) t j 0 (by omega),
    UnbState_succ, UnbColumn_snd_Get, UnbState_snd_Get_zero _ _ _ _ _ _ _ (le_refl j)]
  unfold UnbRegEntry
  simp

theorem UnbState_snd_Height (A : Matrix F) (pivTol regMag : R) (pivSign : Matrix Int) (j : Nat) :
    (UnbState A pivTol regMag pivSign j).2.Height = A.Height ∧
    (UnbState A pivTol regMag pivSign j).2.Width = 1 := by
  induction j with
  | zero => exact ⟨rfl, rfl⟩
  | succ j ih =>
    rw [UnbState_succ]
    unfold UnbColumn
    simp only
    split_ifs
    · exact ih
    · exact ih

theorem UnbState_fst (A : Matrix F) (pivTol regMag : R) (pivSign : Matrix Int) (j : Nat) :
    (UnbState A pivTol regMag pivSign j).1 = UnbCols pivTol regMag pivSign A.Height 0 A j := rfl

/-! ## The triangular solve of the panel step -/

theorem TrsmRightLowerAdjointUnitColumn_Get (L : Matrix F) (j : Nat) (X : Matrix F)
    (i c : Nat) :
    (TrsmRightLowerAdjointUnitColumn L j X).Get i c =
      if c = j ∧ i < X.Height then
        X.Get i j - ∑ m ∈ Finset.range j, X.Get i m * Scalar.Conj (L.Get j m)
      else X.Get i c := rfl

theorem TrsmRightLowerAdjointUnit_loop (L X : Matrix F) (x : Nat → Nat → F) (cnt : Nat)
    (hx : ∀ i j, i < X.Height → j < cnt →
      x i j = X.Get i j - ∑ m ∈ Finset.range j, x i m * Scalar.Conj (L.Get j m)) :
    (forLoop 0 (TrsmRightLowerAdjointUnitColumn L) cnt X).Height = X.Height ∧
    (forLoop 0 (TrsmRightLowerAdjointUnitColumn L) cnt X).Width = X.Width ∧
    ∀ i c, (forLoop 0 (TrsmRightLowerAdjointUnitColumn L) cnt X).Get i c =
      if c < cnt ∧ i < X.Height then x i c else X.Get i c := by
  induction cnt with
  | zero =>
    refine ⟨rfl, rfl, ?_⟩
    intro i c
    rw [if_neg (by omega)]
    rfl
  | succ j ih =>
    obtain ⟨ihH, ihW, ihG⟩ := ih (fun i j' hi hj' => hx i j' hi (by omega))
    rw [forLoop_succ]
    refine ⟨ihH, ihW, ?_⟩
    intro i c
    rw [TrsmRightLowerAdjointUnitColumn_Get, Nat.zero_add, ihH]
    by_cases h1 : c = j ∧ i < X.Height
    · obtain ⟨rfl, hi⟩ := h1
      rw [if_pos ⟨rfl, hi⟩, if_pos (by omega), hx i c hi (by omega), ihG i c,
        if_neg (by omega)]
      congr 1
      apply Finset.sum_congr rfl
      intro m hm
      rw [ihG i m, if_pos ⟨Finset.mem_range.mp hm, hi⟩]
    · rw [if_neg h1, ihG i c]
      by_cases h2 : c < j ∧ i < X.Height
      · rw [if_pos h2, if_pos (by omega)]
      · rw [if_neg h2, if_neg (by omega)]

end ldl

theorem Matrix_View_ok {α : Type} (A : Matrix α) (i0 i1 j0 j1 : Nat)
    (h : i0 ≤ i1 ∧ i1 ≤ A.Height ∧ j0 ≤ j1 ∧ j1 ≤ A.Width) :
    A.View i0 i1 j0 j1 =
      .ok { Height := i1 - i0, Width := j1 - j0, Get := fun i j => A.Get (i0 + i) (j0 + j) } := by
  unfold Matrix.View
  rw [if_pos h]

theorem Matrix_ext {α : Type} (A B : Matrix α) (hH : A.Height = B.Height)
    (hW : A.Width = B.Width) (hG : ∀ i j, A.Get i j = B.Get i j) : A = B := by
  cases A; cases B
  simp only at hH hW hG
  subst hH; subst hW
  congr
  funext i j
  exact hG i j

namespace ldl
variable {F R : Type} [Field F] [LinearOrderedField R] [Scalar F R]

section PanelStep

variable (pivTol regMag : R) (pivSign pivSign1 : Matrix Int) (n k nb : Nat)
  (M V A21 A22 : Matrix F)

/-- The factored diagonal block, entry by entry. -/
theorem panel_A11 (h : PanelViews pivSign pivSign1 n k nb M V A21 A22) (i j : Nat)
    (hi : i < nb) (hj : j < nb) :
    (UnbCols pivTol regMag pivSign1 nb 0 V nb).Get i j =
      (UnbCols pivTol regMag pivSign n k M nb).Get (k + i) (k + j) :=
  UnbCols_view pivTol regMag pivSign pivSign1 n k nb M V (fun i j _ _ => h.VGet i j)
    (fun j _ => h.signGet j) h.le nb (le_refl _) i j hi hj

/-- The strictly lower part of the factored diagonal block holds the multipliers. -/
theorem panel_L11 (h : PanelViews pivSign pivSign1 n k nb M V A21 A22) (j m : Nat)
    (hj : j < nb) (hm : m < j) :
    (UnbCols pivTol regMag pivSign1 nb 0 V nb).Get j m =
      (UnbCols pivTol regMag pivSign n k M m).Get (k + j) (k + m) /
        Scalar.ofReal (UnbColsPivot pivTol regMag pivSign n k M m) := by
  have hle := h.le
  rw [panel_A11 pivTol regMag pivSign pivSign1 n k nb M V A21 A22 h j m hj (by omega)]
  exact (UnbCols_Get_done pivTol regMag pivSign n k M nb m (k + j) (by omega) hle).2
    (by omega) (by omega)

/-- The diagonal of the factored diagonal block holds the pivots. -/
theorem panel_d1 (h : PanelViews pivSign pivSign1 n k nb M V A21 A22) (m : Nat)
    (hm : m < nb) :
    (UnbCols pivTol regMag pivSign1 nb 0 V nb).Get m m =
      Scalar.ofReal (UnbColsPivot pivTol regMag pivSign n k M m) := by
  rw [panel_A11 pivTol regMag pivSign pivSign1 n k nb M V A21 A22 h m m hm hm]
  exact (UnbCols_Get_done pivTol regMag pivSign n k M nb m 0 hm h.le).1

/-- After `Trsm`, `A21` holds the columns below the panel as they stand when the
unblocked loop reaches them (before their scaling). -/
theorem panel_S21 (h : PanelViews pivSign pivSign1 n k nb M V A21 A22) :
    (TrsmRightLowerAdjointUnit (UnbCols pivTol regMag pivSign1 nb 0 V nb) A21).Height
      = n - (k + nb) ∧
    (TrsmRightLowerAdjointUnit (UnbCols pivTol regMag pivSign1 nb 0 V nb) A21).Width = nb ∧
    ∀ i c, (TrsmRightLowerAdjointUnit (UnbCols pivTol regMag pivSign1 nb 0 V nb) A21).Get i c =
      if c < nb ∧ i < n - (k + nb) then
        (UnbCols pivTol regMag pivSign n k M c).Get (k + nb + i) (k + c)
      else A21.Get i c := by
  have hle := h.le
  have key := TrsmRightLowerAdjointUnit_loop (UnbCols pivTol regMag pivSign1 nb 0 V nb) A21
    (fun i c => (UnbCols pivTol regMag pivSign n k M c).Get (k + nb + i) (k + c)) A21.Width
    (by
      intro i j hi hj
      rw [h.A21Height] at hi
      rw [h.A21Width] at hj
      simp only
      rw [UnbCols_Get_trailing pivTol regMag pivSign n k M j (k + nb + i) (k + j) (by omega)
        (le_refl _) (by omega) (by omega), h.A21Get]
      congr 1
      apply Finset.sum_congr rfl
      intro m hm
      have hm' := Finset.mem_range.mp hm
      rw [panel_L11 pivTol regMag pivSign pivSign1 n k nb M V A21 A22 h j m hj hm'])
  unfold TrsmRightLowerAdjointUnit
  rw [h.A21Height, h.A21Width] at key
  rw [h.A21Width]
  exact key

/-- After `DiagonalSolve`, `A21` holds the scaled columns below the panel. -/
theorem panel_A21 (h : PanelViews pivSign pivSign1 n k nb M V A21 A22) (i c : Nat)
    (hi : i < n - (k + nb)) (hc : c < nb) :
    (DiagonalSolveRightNormal (UnbCols pivTol regMag pivSign1 nb 0 V nb).GetDiagonal
      (TrsmRightLowerAdjointUnit (UnbCols pivTol regMag pivSign1 nb 0 V nb) A21)).Get i c =
      (UnbCols pivTol regMag pivSign n k M nb).Get (k + nb + i) (k + c) := by
  have hle := h.le
  obtain ⟨hH, hW, hG⟩ := panel_S21 pivTol regMag pivSign pivSign1 n k nb M V A21 A22 h
  unfold DiagonalSolveRightNormal Matrix.GetDiagonal
  simp only
  rw [hH, hW, if_pos ⟨hi, hc⟩, hG, if_pos ⟨hc, hi⟩,
    panel_d1 pivTol regMag pivSign pivSign1 n k nb M V A21 A22 h c hc]
  exact ((UnbCols_Get_done pivTol regMag pivSign n k M nb c (k + nb + i) hc hle).2
    (by omega) (by omega)).symm

/-- After `Trrk`, the lower triangle of `A22` holds the updated trailing block and its
strictly upper triangle is as before. -/
theorem panel_A22 (h : PanelViews pivSign pivSign1 n k nb M V A21 A22) (i j : Nat)
    (hi : i < n - (k + nb)) (hj : j < n - (k + nb)) :
    (TrrkLowerNormalAdjoint (-1)
      (TrsmRightLowerAdjointUnit (UnbCols pivTol regMag pivSign1 nb 0 V nb) A21)
      (DiagonalSolveRightNormal (UnbCols pivTol regMag pivSign1 nb 0 V nb).GetDiagonal
        (TrsmRightLowerAdjointUnit (UnbCols pivTol regMag pivSign1 nb 0 V nb) A21))
      1 A22).Get i j =
      (UnbCols pivTol regMag pivSign n k M nb).Get (k + nb + i) (k + nb + j) := by
  have hle := h.le
  obtain ⟨hH, hW, hG⟩ := panel_S21 pivTol regMag pivSign pivSign1 n k nb M V A21 A22 h
  unfold TrrkLowerNormalAdjoint
  simp only
  rw [h.A22Height, hW]
  by_cases hji : j ≤ i
  · rw [if_pos ⟨hji, hi⟩, UnbCols_Get_trailing pivTol regMag pivSign n k M nb (k + nb + i)
      (k + nb + j) hle (by omega) (by omega) (by omega), h.A22Get]
    have hsum : ∑ m ∈ Finset.range nb,
        (TrsmRightLowerAdjointUnit (UnbCols pivTol regMag pivSign1 nb 0 V nb) A21).Get i m *
          Scalar.Conj ((DiagonalSolveRightNormal
            (UnbCols pivTol regMag pivSign1 nb 0 V nb).GetDiagonal
            (TrsmRightLowerAdjointUnit (UnbCols pivTol regMag pivSign1 nb 0 V nb) A21)).Get j m)
        = ∑ m ∈ Finset.range nb,
          (UnbCols pivTol regMag pivSign n k M m).Get (k + nb + i) (k + m) *
            Scalar.Conj ((UnbCols pivTol regMag pivSign n k M m).Get (k + nb + j) (k + m) /
              Scalar.ofReal (UnbColsPivot pivTol regMag pivSign n k M m)) := by
      apply Finset.sum_congr rfl
      intro m hm
      have hm' := Finset.mem_range.mp hm
      rw [hG, if_pos ⟨hm', hi⟩,
        panel_A21 pivTol regMag pivSign pivSign1 n k nb M V A21 A22 h j m hj hm',
        (UnbCols_Get_done pivTol regMag pivSign n k M nb m (k + nb + j) hm' hle).2
          (by omega) (by omega)]
    rw [hsum]
    ring
  · rw [if_neg (by omega), h.A22Get,
      UnbCols_Get_frame pivTol regMag pivSign n k M nb _ _ hle (Or.inr (Or.inl (by omega)))]

/-- The panel step of the blocked routine leaves in `A` what the column steps
`k, ..., k+nb-1` of the unblocked routine leave. -/
theorem panel_A (h : PanelViews pivSign pivSign1 n k nb M V A21 A22) (hH : M.Height = n)
    (hW : M.Width = n) :
    ((M.SetView k k (UnbCols pivTol regMag pivSign1 nb 0 V nb)).SetView (k + nb) k
        (DiagonalSolveRightNormal (UnbCols pivTol regMag pivSign1 nb 0 V nb).GetDiagonal
          (TrsmRightLowerAdjointUnit (UnbCols pivTol regMag pivSign1 nb 0 V nb) A21))).SetView
      (k + nb) (k + nb)
        (TrrkLowerNormalAdjoint (-1)
          (TrsmRightLowerAdjointUnit (UnbCols pivTol regMag pivSign1 nb 0 V nb) A21)
          (DiagonalSolveRightNormal (UnbCols pivTol regMag pivSign1 nb 0 V nb).GetDiagonal
            (TrsmRightLowerAdjointUnit (UnbCols pivTol regMag pivSign1 nb 0 V nb) A21))
          1 A22) =
      UnbCols pivTol regMag pivSign n k M nb := by
  have hle := h.le
  obtain ⟨hSH, hSW, -⟩ := panel_S21 pivTol regMag pivSign pivSign1 n k nb M V A21 A22 h
  have hVd := UnbCols_Height pivTol regMag pivSign1 nb 0 V nb
  have hMd := UnbCols_Height pivTol regMag pivSign n k M nb
  apply Matrix_ext
  · exact hMd.1.symm
  · exact hMd.2.symm
  · intro r c
    have e22H : (TrrkLowerNormalAdjoint (-1)
          (TrsmRightLowerAdjointUnit (UnbCols pivTol regMag pivSign1 nb 0 V nb) A21)
          (DiagonalSolveRightNormal (UnbCols pivTol regMag pivSign1 nb 0 V nb).GetDiagonal
            (TrsmRightLowerAdjointUnit (UnbCols pivTol regMag pivSign1 nb 0 V nb) A21))
          1 A22).Height = n - (k + nb) := h.A22Height
    have e22W : (TrrkLowerNormalAdjoint (-1)
          (TrsmRightLowerAdjointUnit (UnbCols pivTol regMag pivSign1 nb 0 V nb) A21)
          (DiagonalSolveRightNormal (UnbCols pivTol regMag pivSign1 nb 0 V nb).GetDiagonal
            (TrsmRightLowerAdjointUnit (UnbCols pivTol regMag pivSign1 nb 0 V nb) A21))
          1 A22).Width = n - (k + nb) := h.A22Width
    have e21H : (DiagonalSolveRightNormal (UnbCols pivTol regMag pivSign1 nb 0 V nb).GetDiagonal
          (TrsmRightLowerAdjointUnit (UnbCols pivTol regMag pivSign1 nb 0 V nb) A21)).Height
        = n - (k + nb) := hSH
    have e21W : (DiagonalSolveRightNormal (UnbCols pivTol regMag pivSign1 nb 0 V nb).GetDiagonal
          (TrsmRightLowerAdjointUnit (UnbCols pivTol regMag pivSign1 nb 0 V nb) A21)).Width
        = nb := hSW
    rw [Matrix_SetView_Get, e22H, e22W]
    by_cases c1 : k + nb ≤ r ∧ r < k + nb + (n - (k + nb)) ∧ k + nb ≤ c ∧
        c < k + nb + (n - (k + nb))
    · rw [if_pos c1, panel_A22 pivTol regMag pivSign pivSign1 n k nb M V A21 A22 h _ _
        (by omega) (by omega)]
      congr 1 <;> omega
    · rw [if_neg c1, Matrix_SetView_Get, e21H, e21W]
      by_cases c2 : k + nb ≤ r ∧ r < k + nb + (n - (k + nb)) ∧ k ≤ c ∧ c < k + nb
      · rw [if_pos c2, panel_A21 pivTol regMag pivSign pivSign1 n k nb M V A21 A22 h _ _
          (by omega) (by omega)]
        congr 1 <;> omega
      · rw [if_neg c2, Matrix_SetView_Get, hVd.1, hVd.2, h.VHeight, h.VWidth]
        by_cases c3 : k ≤ r ∧ r < k + nb ∧ k ≤ c ∧ c < k + nb
        · rw [if_pos c3, panel_A11 pivTol regMag pivSign pivSign1 n k nb M V A21 A22 h _ _
            (by omega) (by omega)]
          congr 1 <;> omega
        · rw [if_neg c3]
          symm
          apply UnbCols_Get_frame pivTol regMag pivSign n k M nb _ _ hle
          omega

end PanelStep
/-- The panel step of the serial blocked `RegularizedVar3` succeeds on a well-sized
state and is the run of the columns `k, ..., k+nb-1` of the unblocked loop. -/
theorem RegularizedVar3Panel_eq (debug : Bool) (pivTol regMag : R) (pivSign : Matrix Int)
    (n k nb : Nat) (s : Matrix F × Matrix R) (hn : k + nb ≤ n)
    (hH : s.1.Height = n) (hW : s.1.Width = n)
    (hpH : k + nb ≤ pivSign.Height) (hpW : 1 ≤ pivSign.Width)
    (hrH : k + nb ≤ s.2.Height) (hrW : 1 ≤ s.2.Width) :
    ∃ reg', RegularizedVar3Panel debug pivTol regMag pivSign n k nb s =
        .ok (UnbCols pivTol regMag pivSign n k s.1 nb, reg') ∧
      reg'.Height = s.2.Height ∧ reg'.Width = s.2.Width ∧
      ∀ i c, reg'.Get i c =
        if k ≤ i ∧ i < k + nb ∧ c = 0 then
          UnbRegEntry pivTol regMag pivSign i (UnbCols pivTol regMag pivSign n k s.1 (i - k))
        else s.2.Get i c := by
  unfold RegularizedVar3Panel
  dsimp only
  rw [Matrix_View_ok s.1 k (k+nb) k (k+nb) (by omega),
    Matrix_View_ok s.1 (k+nb) n k (k+nb) (by omega),
    Matrix_View_ok s.1 (k+nb) n (k+nb) n (by omega),
    Matrix_View_ok pivSign k (k+nb) 0 1 (by omega),
    Matrix_View_ok s.2 k (k+nb) 0 1 (by omega)]
  simp only [bind, Except.bind, Nat.add_sub_cancel_left, Nat.sub_zero, Nat.zero_add]
  generalize hVdef :
    (Matrix.mk nb nb (fun i j => s.1.Get (k + i) (k + j)) : Matrix F) = V
  generalize hA21def :
    (Matrix.mk (n - (k + nb)) nb (fun i j => s.1.Get (k + nb + i) (k + j)) : Matrix F) = A21
  generalize hA22def :
    (Matrix.mk (n - (k + nb)) (n - (k + nb)) (fun i j => s.1.Get (k + nb + i) (k + nb + j)) :
      Matrix F) = A22
  generalize hPdef :
    (Matrix.mk nb 1 (fun i j => pivSign.Get (k + i) j) : Matrix Int) = pivSign1
  generalize hRdef :
    (Matrix.mk nb 1 (fun i j => s.2.Get (k + i) j) : Matrix R) = reg1
  have hviews : PanelViews pivSign pivSign1 n k nb s.1 V A21 A22 := by
    subst hVdef hA21def hA22def hPdef
    exact ⟨hn, rfl, rfl, fun _ _ => rfl, rfl, rfl, fun _ _ => rfl, rfl, rfl, fun _ _ => rfl,
      fun _ => rfl⟩
  have hPH : pivSign1.Height = nb ∧ pivSign1.Width = 1 := by subst hPdef; exact ⟨rfl, rfl⟩
  rw [RegularizedVar3Unb_ok debug V pivTol regMag pivSign1 reg1
    (by rw [hviews.VHeight, hviews.VWidth]) (by rw [hviews.VHeight]; exact hPH)]
  simp only [pure, Except.pure]
  rw [UnbState_fst, hviews.VHeight,
    panel_A pivTol regMag pivSign pivSign1 n k nb s.1 V A21 A22 hviews hH hW]
  refine ⟨_, rfl, rfl, rfl, ?_⟩
  intro i c
  have hd := UnbState_snd_Height V pivTol regMag pivSign1 nb
  rw [hviews.VHeight] at hd
  rw [Matrix_SetView_Get, hd.1, hd.2]
  by_cases h1 : k ≤ i ∧ i < k + nb ∧ c = 0
  · obtain ⟨h1a, h1b, rfl⟩ := h1
    rw [if_pos (by omega), if_pos ⟨h1a, h1b, rfl⟩]
    have h2 := UnbState_snd_Get V pivTol regMag pivSign1 (i - k)
      (by rw [hviews.VHeight]; omega)
    rw [hviews.VHeight] at h2
    rw [Nat.sub_zero, h2, UnbState_fst, hviews.VHeight,
      UnbRegEntry_view pivTol regMag pivSign pivSign1 n k nb s.1 V
        (fun i j _ _ => hviews.VGet i j) (fun j _ => hviews.signGet j) hn (i - k) (by omega)]
    congr 1
    omega
  · rw [if_neg (by omega), if_neg h1]

/-- Running the columns `k, ..., k+t-1` after the columns `0, ..., k-1`. -/
theorem UnbCols_add (pivTol regMag : R) (pivSign : Matrix Int) (n k : Nat) (A : Matrix F)
    (t : Nat) :
    UnbCols pivTol regMag pivSign n k (UnbCols pivTol regMag pivSign n 0 A k) t =
      UnbCols pivTol regMag pivSign n 0 A (k + t) := by
  induction t with
  | zero => rfl
  | succ t ih =>
    rw [← Nat.add_assoc, UnbCols_succ, UnbCols_succ, ih, Nat.zero_add]

theorem RegularizedVar3_loop (debug : Bool) (bsize : Nat) (A : Matrix F) (pivTol regMag : R)
    (pivSign : Matrix Int) (hsq : A.Height = A.Width)
    (hpiv : pivSign.Height = A.Height ∧ pivSign.Width = 1) (hb : 1 ≤ bsize) (fuel : Nat) :
    ∀ (t0 : Nat) (s : Matrix F × Matrix R),
      (A.Height + bsize - 1) / bsize - t0 < fuel →
      s.1 = UnbCols pivTol regMag pivSign A.Height 0 A (min (t0 * bsize) A.Height) →
      s.2.Height = A.Height → s.2.Width = 1 →
      (∀ i, i < min (t0 * bsize) A.Height →
        s.2.Get i 0 = UnbRegEntry pivTol regMag pivSign i
          (UnbCols pivTol regMag pivSign A.Height 0 A i)) →
      ∃ reg', blockedLoop bsize A.Height
          (RegularizedVar3Panel debug pivTol regMag pivSign A.Height) fuel (t0 * bsize) s =
          .ok (UnbCols pivTol regMag pivSign A.Height 0 A A.Height, reg') ∧
        reg'.Height = A.Height ∧ reg'.Width = 1 ∧
        ∀ i, i < A.Height →
          reg'.Get i 0 = UnbRegEntry pivTol regMag pivSign i
            (UnbCols pivTol regMag pivSign A.Height 0 A i) := by
  induction fuel with
  | zero => intro t0 s h; omega
  | succ fuel ih =>
    intro t0 s hf hs1 hrH hrW hreg
    unfold blockedLoop
    by_cases hk : t0 * bsize < A.Height
    · have hmin : min (t0 * bsize) A.Height = t0 * bsize := by omega
      rw [hmin] at hs1 hreg
      have hd := UnbCols_Height pivTol regMag pivSign A.Height 0 A (t0 * bsize)
      obtain ⟨reg1, hpanel, h1H, h1W, h1G⟩ :=
        RegularizedVar3Panel_eq debug pivTol regMag pivSign A.Height (t0 * bsize)
          (min bsize (A.Height - t0 * bsize)) s (by omega)
          (by rw [hs1, hd.1]) (by rw [hs1, hd.2, hsq]) (by rw [hpiv.1]; omega)
          (by rw [hpiv.2]) (by rw [hrH]; omega) (by rw [hrW])
      rw [if_pos hk, hpanel]
      have hstep : t0 * bsize + bsize = (t0 + 1) * bsize := by rw [Nat.succ_mul]
      have hnext : t0 * bsize + min bsize (A.Height - t0 * bsize) =
          min ((t0 + 1) * bsize) A.Height := by
        rw [← hstep]; omega
      have ht : t0 < (A.Height + bsize - 1) / bsize := (panel_count_lt bsize A.Height t0 hb).mpr hk
      simp only [Except.bind]
      rw [hstep]
      apply ih (t0 + 1) _ (by omega)
      · show UnbCols pivTol regMag pivSign A.Height (t0 * bsize) s.1 _ = _
        rw [hs1, UnbCols_add, hnext]
      · exact h1H.trans hrH
      · exact h1W.trans hrW
      · intro i hi
        rw [h1G]
        by_cases hi2 : t0 * bsize ≤ i
        · rw [if_pos ⟨hi2, by omega, rfl⟩, hs1, UnbCols_add]
          congr 2
          omega
        · rw [if_neg (by omega)]
          exact hreg i (by omega)
    · have hmin : min (t0 * bsize) A.Height = A.Height := by omega
      rw [hmin] at hs1 hreg
      rw [if_neg hk]
      refine ⟨s.2, ?_, hrH, hrW, hreg⟩
      rw [← hs1]

/-- C3. Block-size invariance: for a square `A`, a conforming `pivSign`, a `reg` pre-sized
to `n x 1` and any block size `bsize >= 1`, the serial blocked `RegularizedVar3` ends and
leaves the same matrix `A` (so in particular the same lower triangle) and the same
entries of `reg` as `RegularizedVar3Unb` applied to the whole matrix; the output does
not depend on `bsize`. -/
theorem C3_block_size_invariance (debug : Bool) (fuel bsize : Nat) (A : Matrix F)
    (pivTol regMag : R) (pivSign : Matrix Int) (reg : Matrix R) (hsq : A.Height = A.Width)
    (hpiv : pivSign.Height = A.Height ∧ pivSign.Width = 1)
    (hreg : reg.Height = A.Height ∧ reg.Width = 1) (hb : 1 ≤ bsize)
    (hfuel : (A.Height + bsize - 1) / bsize < fuel) :
    ∃ A' regB regU,
      RegularizedVar3 debug fuel bsize A pivTol regMag pivSign reg = .ok (A', regB) ∧
      RegularizedVar3Unb debug A pivTol regMag pivSign reg = .ok (A', regU) ∧
      regB.Height = regU.Height ∧ regB.Width = regU.Width ∧
      ∀ i, i < A.Height → regB.Get i 0 = regU.Get i 0 := by
  obtain ⟨regB, hB, hBH, hBW, hBG⟩ :=
    RegularizedVar3_loop debug bsize A pivTol regMag pivSign hsq hpiv hb fuel 0 (A, reg)
      (by rw [Nat.sub_zero]; exact hfuel) (by rw [Nat.zero_mul, Nat.zero_min]; rfl)
      hreg.1 hreg.2 (by intro i hi; rw [Nat.zero_mul, Nat.zero_min] at hi; omega)
  rw [Nat.zero_mul] at hB
  have hU := UnbState_snd_Height A pivTol regMag pivSign A.Height
  refine ⟨UnbCols pivTol regMag pivSign A.Height 0 A A.Height, regB,
    (UnbState A pivTol regMag pivSign A.Height).2, ?_, ?_, ?_, ?_, ?_⟩
  · unfold RegularizedVar3
    rw [if_neg (by simp [hsq])]
    exact hB
  · rw [RegularizedVar3Unb_ok debug A pivTol regMag pivSign reg hsq hpiv]
    rfl
  · rw [hBH, hU.1]
  · rw [hBW, hU.2]
  · intro i hi
    rw [hBG i hi, UnbState_snd_Get A pivTol regMag pivSign i hi, UnbState_fst]

/-- Witness for C3: `A[i][j] = i + j` of order 4 with block size 2. -/
theorem C3_block_size_invariance_witness :
    (exampleSum.Height = exampleSum.Width ∧
      ((onesSign 4).Height = exampleSum.Height ∧ (onesSign 4).Width = 1) ∧
      ((Zeros 4 1 : Matrix ℚ).Height = exampleSum.Height ∧ (Zeros 4 1 : Matrix ℚ).Width = 1) ∧
      1 ≤ 2 ∧ (exampleSum.Height + 2 - 1) / 2 < 3) ∧
    ∃ A' regB regU,
      RegularizedVar3 true 3 2 exampleSum (0 : ℚ) 1 (onesSign 4) (Zeros 4 1) = .ok (A', regB) ∧
      RegularizedVar3Unb true exampleSum (0 : ℚ) 1 (onesSign 4) (Zeros 4 1) = .ok (A', regU) ∧
      regB.Height = regU.Height ∧ regB.Width = regU.Width ∧
      ∀ i, i < exampleSum.Height → regB.Get i 0 = regU.Get i 0 :=
  ⟨⟨rfl, ⟨rfl, rfl⟩, ⟨rfl, rfl⟩, by decide, by decide⟩,
    C3_block_size_invariance true 3 2 exampleSum 0 1 (onesSign 4) (Zeros 4 1) rfl ⟨rfl, rfl⟩
      ⟨rfl, rfl⟩ (by decide) (by decide)⟩

/-! ## The factorization identity `L D L^H = A + diag(reg)` -/

theorem UnbRegEntry_eq (pivTol regMag : R) (pivSign : Matrix Int) (j : Nat) (M : Matrix F) :
    UnbRegEntry pivTol regMag pivSign j M =
      UnbPivot pivTol regMag pivSign j M - Scalar.RealPart (M.Get j j) := by
  unfold UnbRegEntry UnbPivot
  simp only
  split_ifs
  · rfl
  · rw [sub_self]

section Recon

variable (pivTol regMag : R) (pivSign : Matrix Int) (A : Matrix F)

/-- The diagonal entry met by column `j` is real when the diagonal of the input is. -/
theorem UnbCols_diag_real (hreal : ∀ i, i < A.Height → Scalar.Conj (A.Get i i) = A.Get i i)
    (j : Nat) (hj : j < A.Height) :
    Scalar.Conj ((UnbCols pivTol regMag pivSign A.Height 0 A j).Get j j) =
      (UnbCols pivTol regMag pivSign A.Height 0 A j).Get j j := by
  have h := UnbCols_Get_trailing pivTol regMag pivSign A.Height 0 A j j j (by omega) (by omega)
    (le_refl _) hj
  rw [h, map_sub, map_sum, hreal j hj]
  congr 1
  apply Finset.sum_congr rfl
  intro m _
  rw [map_mul, Scalar.Conj_Conj, map_div₀, Scalar.Conj_ofReal]
  ring

/-- The lower triangle of `L D L^H`, before the last term is simplified. -/
theorem ReconstructLDLH_lower
    (hpiv : ∀ m, m + 1 < A.Height → UnbColsPivot pivTol regMag pivSign A.Height 0 A m ≠ 0)
    (i j : Nat) (hji : j ≤ i) (hi : i < A.Height) :
    ReconstructLDLH (UnbCols pivTol regMag pivSign A.Height 0 A A.Height) i j =
      A.Get i j - (UnbCols pivTol regMag pivSign A.Height 0 A j).Get i j +
        UnitLower (UnbCols pivTol regMag pivSign A.Height 0 A A.Height) i j *
          Scalar.ofReal (UnbColsPivot pivTol regMag pivSign A.Height 0 A j) := by
  have hdone := fun m r (hm : m < A.Height) =>
    UnbCols_Get_done pivTol regMag pivSign A.Height 0 A A.Height m r hm (by omega)
  simp only [Nat.zero_add] at hdone
  have htr := UnbCols_Get_trailing pivTol regMag pivSign A.Height 0 A j i j (by omega)
    (by omega) hji hi
  simp only [Nat.zero_add] at htr
  unfold ReconstructLDLH
  rw [(UnbCols_Height pivTol regMag pivSign A.Height 0 A A.Height).1]
  have hsplit : Finset.range A.Height = Finset.range (j + 1) ∪
      (Finset.range A.Height \ Finset.range (j + 1)) := by
    rw [Finset.union_sdiff_of_subset]
    exact Finset.range_subset.mpr (by omega)
  rw [hsplit, Finset.sum_union Finset.disjoint_sdiff, Finset.sum_range_succ]
  have hzero : ∑ m ∈ Finset.range A.Height \ Finset.range (j + 1),
      UnitLower (UnbCols pivTol regMag pivSign A.Height 0 A A.Height) i m *
        (UnbCols pivTol regMag pivSign A.Height 0 A A.Height).Get m m *
        Scalar.Conj (UnitLower (UnbCols pivTol regMag pivSign A.Height 0 A A.Height) j m) = 0 := by
    apply Finset.sum_eq_zero
    intro m hm
    rw [Finset.mem_sdiff, Finset.mem_range, Finset.mem_range] at hm
    have hu : UnitLower (UnbCols pivTol regMag pivSign A.Height 0 A A.Height) j m = 0 := by
      unfold UnitLower
      rw [if_neg (by omega), if_neg (by omega)]
    rw [hu, map_zero, mul_zero]
  have hsum : ∑ m ∈ Finset.range j,
      UnitLower (UnbCols pivTol regMag pivSign A.Height 0 A A.Height) i m *
        (UnbCols pivTol regMag pivSign A.Height 0 A A.Height).Get m m *
        Scalar.Conj (UnitLower (UnbCols pivTol regMag pivSign A.Height 0 A A.Height) j m) =
      ∑ m ∈ Finset.range j,
        (UnbCols pivTol regMag pivSign A.Height 0 A m).Get i m *
          Scalar.Conj ((UnbCols pivTol regMag pivSign A.Height 0 A m).Get j m /
            Scalar.ofReal (UnbColsPivot pivTol regMag pivSign A.Height 0 A m)) := by
    apply Finset.sum_congr rfl
    intro m hm
    have hm' := Finset.mem_range.mp hm
    have ha : (Scalar.ofReal (UnbColsPivot pivTol regMag pivSign A.Height 0 A m) : F) ≠ 0 :=
      (map_ne_zero (Scalar.ofReal : R →+* F)).mpr (hpiv m (by omega))
    unfold UnitLower
    rw [if_pos (by omega), if_pos hm', (hdone m 0 (by omega)).1,
      (hdone m i (by omega)).2 (by omega) hi, (hdone m j (by omega)).2 hm' (by omega),
      div_mul_cancel₀ _ ha]
  have hlast : UnitLower (UnbCols pivTol regMag pivSign A.Height 0 A A.Height) j j = 1 := by
    unfold UnitLower
    rw [if_neg (by omega), if_pos rfl]
  rw [hzero, hsum, hlast, map_one, mul_one, add_zero, (hdone j 0 (by omega)).1, htr]
  ring

/-- `L D L^H = A + diag(reg)` for the matrix and the regularization left by the column
loop, the input being read as a Hermitian matrix through its lower triangle. -/
theorem ReconstructLDLH_eq
    (hreal : ∀ i, i < A.Height → Scalar.Conj (A.Get i i) = A.Get i i)
    (hpiv : ∀ m, m + 1 < A.Height → UnbColsPivot pivTol regMag pivSign A.Height 0 A m ≠ 0)
    (reg : Matrix R)
    (hreg : ∀ i, i < A.Height → reg.Get i 0 = UnbRegEntry pivTol regMag pivSign i
      (UnbCols pivTol regMag pivSign A.Height 0 A i))
    (i j : Nat) (hi : i < A.Height) (hj : j < A.Height) :
    ReconstructLDLH (UnbCols pivTol regMag pivSign A.Height 0 A A.Height) i j =
      HermitianOfLower A i j + DiagOfReg reg i j := by
  have hdone := fun m r (hm : m < A.Height) =>
    UnbCols_Get_done pivTol regMag pivSign A.Height 0 A A.Height m r hm (by omega)
  simp only [Nat.zero_add] at hdone
  have lower : ∀ i j, j ≤ i → i < A.Height →
      ReconstructLDLH (UnbCols pivTol regMag pivSign A.Height 0 A A.Height) i j =
        A.Get i j + DiagOfReg reg i j := by
    intro i j hji hi
    rw [ReconstructLDLH_lower pivTol regMag pivSign A hpiv i j hji hi]
    unfold UnitLower DiagOfReg
    by_cases hij : j < i
    · have ha : (Scalar.ofReal (UnbColsPivot pivTol regMag pivSign A.Height 0 A j) : F) ≠ 0 :=
        (map_ne_zero (Scalar.ofReal : R →+* F)).mpr (hpiv j (by omega))
      rw [if_pos hij, if_neg (by omega), (hdone j i (by omega)).2 hij hi,
        div_mul_cancel₀ _ ha]
      ring
    · have hij' : i = j := by omega
      subst hij'
      rw [if_neg hij, if_pos rfl, if_pos rfl, hreg i hi, UnbRegEntry_eq, map_sub,
        Scalar.ofReal_RealPart _ (UnbCols_diag_real pivTol regMag pivSign A hreal i hi)]
      unfold UnbColsPivot
      rw [Nat.zero_add]
      ring
  by_cases hji : j ≤ i
  · rw [lower i j hji hi]
    unfold HermitianOfLower
    rw [if_pos hji]
  · have hconj : ReconstructLDLH (UnbCols pivTol regMag pivSign A.Height 0 A A.Height) i j =
        Scalar.Conj (ReconstructLDLH (UnbCols pivTol regMag pivSign A.Height 0 A A.Height) j i) := by
      unfold ReconstructLDLH
      rw [map_sum]
      apply Finset.sum_congr rfl
      intro m hm
      have hm' : m < A.Height := by
        rw [(UnbCols_Height pivTol regMag pivSign A.Height 0 A A.Height).1] at hm
        exact Finset.mem_range.mp hm
      rw [map_mul, map_mul, Scalar.Conj_Conj, (hdone m 0 hm').1, Scalar.Conj_ofReal]
      ring
    rw [hconj, lower j i (by omega) hj]
    unfold HermitianOfLower DiagOfReg
    rw [if_neg hji, if_neg (by omega), if_neg (by omega), add_zero, add_zero]

end Recon

/-! ## C2: regularization correctness -/

/-- C2 as stated fails. On `[[0, 1], [1, 2]]` with `pivTol = 0`, `regMag = 1` (block
size 1, `reg` pre-sized) column 0 is regularized, `reg[0] = 1`, and `L D L^H + diag(reg)`
is `2` at `(0,0)` where the input is `0`: the regularization has to be subtracted, not
added.  On `[[0, 1], [1, 0]]` with `pivTol = 0`, `regMag = 0` the pivot of column 0 is `0`
and the reconstruction misses the entry `(1, 0)` of the input. -/
theorem C2_counterexample :
    (∃ A' reg',
      RegularizedVar3 true 3 1 exampleA (0 : ℚ) 1 (onesSign 2) (Zeros 2 1) = .ok (A', reg') ∧
      ReconstructLDLH A' 0 0 + DiagOfReg reg' 0 0 ≠ HermitianOfLower exampleA 0 0) ∧
    (∃ A' reg',
      RegularizedVar3 true 3 1 exampleZeroDiag (0 : ℚ) 0 (onesSign 2) (Zeros 2 1)
        = .ok (A', reg') ∧
      ReconstructLDLH A' 1 0 + DiagOfReg reg' 1 0 ≠ HermitianOfLower exampleZeroDiag 1 0) :=
  ⟨⟨_, _, rfl, by decide!⟩, ⟨_, _, rfl, by decide!⟩⟩

/-- C2, amended. For a square input `A` read as a Hermitian matrix through its lower
triangle (real diagonal), a conforming pivot-sign vector, a `reg` pre-sized to `n x 1`,
any block size `bsize >= 1` and any `pivTol`, `regMag` for which every pivot of the
factorization is nonzero, the serial `RegularizedVar3` ends with the pivots on the
diagonal of its output, and `L D L^H` reconstructed from the output, with `diag(reg)`
subtracted from it, reproduces `A` exactly: `L D L^H - diag(reg) = A`. -/
theorem C2_regularization_correctness (debug : Bool) (fuel bsize : Nat) (A : Matrix F)
    (pivTol regMag : R) (pivSign : Matrix Int) (reg : Matrix R) (hsq : A.Height = A.Width)
    (hpiv : pivSign.Height = A.Height ∧ pivSign.Width = 1)
    (hreg : reg.Height = A.Height ∧ reg.Width = 1) (hb : 1 ≤ bsize)
    (hfuel : (A.Height + bsize - 1) / bsize < fuel)
    (hreal : ∀ i, i < A.Height → Scalar.Conj (A.Get i i) = A.Get i i)
    (hpivot : ∀ m, m < A.Height → UnbColsPivot pivTol regMag pivSign A.Height 0 A m ≠ 0) :
    ∃ A' reg',
      RegularizedVar3 debug fuel bsize A pivTol regMag pivSign reg = .ok (A', reg') ∧
      (∀ m, m < A.Height →
        A'.Get m m = Scalar.ofReal (UnbColsPivot pivTol regMag pivSign A.Height 0 A m)) ∧
      ∀ i j, i < A.Height → j < A.Height →
        ReconstructLDLH A' i j - DiagOfReg reg' i j = HermitianOfLower A i j := by
  obtain ⟨regB, hB, -, -, hBG⟩ :=
    RegularizedVar3_loop debug bsize A pivTol regMag pivSign hsq hpiv hb fuel 0 (A, reg)
      (by rw [Nat.sub_zero]; exact hfuel) (by rw [Nat.zero_mul, Nat.zero_min]; rfl)
      hreg.1 hreg.2 (by intro i hi; rw [Nat.zero_mul, Nat.zero_min] at hi; omega)
  rw [Nat.zero_mul] at hB
  refine ⟨UnbCols pivTol regMag pivSign A.Height 0 A A.Height, regB, ?_, ?_, ?_⟩
  · unfold RegularizedVar3
    rw [if_neg (by simp [hsq])]
    exact hB
  · intro m hm
    have h := (UnbCols_Get_done pivTol regMag pivSign A.Height 0 A A.Height m 0 hm (by omega)).1
    rw [Nat.zero_add] at h
    exact h
  · intro i j hi hj
    rw [ReconstructLDLH_eq pivTol regMag pivSign A hreal (fun m hm => hpivot m (by omega)) regB hBG
      i j hi hj]
    ring

/-- Witness for the amended C2 on the complex Hermitian matrix `[[0, 1 - i], [1 + i, 3]]`
with `pivTol = 0`, `regMag = 1`, block size 1: column 0 is regularized, the pivots are
`1` and `1`. -/
theorem C2_regularization_correctness_witness :
    (exampleHermitian.Height = exampleHermitian.Width ∧
      ((onesSign 2).Height = exampleHermitian.Height ∧ (onesSign 2).Width = 1) ∧
      ((Zeros 2 1 : Matrix ℚ).Height = exampleHermitian.Height ∧
        (Zeros 2 1 : Matrix ℚ).Width = 1) ∧
      1 ≤ 1 ∧ (exampleHermitian.Height + 1 - 1) / 1 < 3 ∧
      (∀ i, i < exampleHermitian.Height →
        Scalar.Conj (exampleHermitian.Get i i) = exampleHermitian.Get i i) ∧
      (∀ m, m < exampleHermitian.Height →
        UnbColsPivot (0 : ℚ) 1 (onesSign 2) exampleHermitian.Height 0 exampleHermitian m ≠ 0)) ∧
    ∃ A' reg',
      RegularizedVar3 true 3 1 exampleHermitian (0 : ℚ) 1 (onesSign 2) (Zeros 2 1)
        = .ok (A', reg') ∧
      (∀ m, m < exampleHermitian.Height →
        A'.Get m m = Scalar.ofReal
          (UnbColsPivot (0 : ℚ) 1 (onesSign 2) exampleHermitian.Height 0 exampleHermitian m)) ∧
      ∀ i j, i < exampleHermitian.Height → j < exampleHermitian.Height →
        ReconstructLDLH A' i j - DiagOfReg reg' i j = HermitianOfLower exampleHermitian i j :=
  have hreal : ∀ i, i < exampleHermitian.Height →
      Scalar.Conj (exampleHermitian.Get i i) = exampleHermitian.Get i i := by
    intro i hi
    have h2 : i < 2 := hi
    interval_cases i <;> decide!
  have hpivot : ∀ m, m < exampleHermitian.Height →
      UnbColsPivot (0 : ℚ) 1 (onesSign 2) exampleHermitian.Height 0 exampleHermitian m ≠ 0 := by
    intro m hm
    have h2 : m < 2 := hm
    interval_cases m <;> decide!
  ⟨⟨rfl, ⟨rfl, rfl⟩, ⟨rfl, rfl⟩, by decide, by decide, hreal, hpivot⟩,
    C2_regularization_correctness true 3 1 exampleHermitian 0 1 (onesSign 2) (Zeros 2 1) rfl
      ⟨rfl, rfl⟩ ⟨rfl, rfl⟩ (by decide) (by decide) hreal hpivot⟩

/-! ## C8: the concrete scenario -/

/-- C8 as stated fails: for `n = 4`, block size 2, signs `[1,1,1,1]`, `pivTol = 1e-12`,
`regMag = 1e-8` and `A[i][j] = i + j` the first pivot is `A[0][0] = 0 <= pivTol`, so
regularization is triggered, `reg[0] = 1e-8`, and `L D L^H` differs from the input at
`(0,0)` by `1e-8 > 1e-10`. -/
theorem C8_counterexample :
    ∃ A' reg',
      RegularizedVar3 true 3 2 exampleSum ((1 : ℚ) / 10 ^ 12) ((1 : ℚ) / 10 ^ 8) (onesSign 4)
        (Zeros 4 1) = .ok (A', reg') ∧
      reg'.Get 0 0 ≠ 0 ∧
      (1 : ℚ) / 10 ^ 10 < |ReconstructLDLH A' 0 0 - HermitianOfLower exampleSum 0 0| :=
  ⟨_, _, rfl, by decide!, by decide!⟩

/-- C8, amended. In the scenario of C8 the serial `RegularizedVar3` ends, regularization
is triggered at every column (`reg[0] = 1e-8`, `reg[1] = 1e8 - 2 + 1e-8` and so on, every
pivot being replaced by `1e-8`), and the product `L D L^H` reconstructed from the output
equals the input plus `diag(reg)` exactly; off the diagonal it equals the input. -/
theorem C8_concrete_scenario :
    ∃ A' reg',
      RegularizedVar3 true 3 2 exampleSum ((1 : ℚ) / 10 ^ 12) ((1 : ℚ) / 10 ^ 8) (onesSign 4)
        (Zeros 4 1) = .ok (A', reg') ∧
      reg'.Get 0 0 = 1 / 10 ^ 8 ∧ reg'.Get 1 0 = 10 ^ 8 - 2 + 1 / 10 ^ 8 ∧
      (∀ i, i < 4 → reg'.Get i 0 ≠ 0 ∧ A'.Get i i = 1 / 10 ^ 8) ∧
      (∀ i, i < 4 → ∀ j, j < 4 →
        ReconstructLDLH A' i j = HermitianOfLower exampleSum i j + DiagOfReg reg' i j) ∧
      (∀ i, i < 4 → ∀ j, j < 4 → i ≠ j →
        ReconstructLDLH A' i j = HermitianOfLower exampleSum i j) :=
  ⟨_, _, rfl, by decide!, by decide!, by decide!, by decide!, by decide!⟩

end ldl

theorem forLoop_add {σ : Type} (body : Nat → σ → σ) (k t : Nat) (s : σ) :
    forLoop k body t (forLoop 0 body k s) = forLoop 0 body (k + t) s := by
  induction t with
  | zero => rfl
  | succ t ih => rw [← Nat.add_assoc, forLoop_succ, forLoop_succ, ih, Nat.zero_add]

namespace apply_packed_reflectors
variable {F R : Type} [Field F] [LinearOrderedField R] [Scalar F R]

/-! ## Reflectors applied one at a time -/

section Sequential

variable (tau : Nat → F) (v : Nat → Nat → F) (k : Nat) (A : Matrix F)

theorem reflectorsFrom_succ (i : Nat) :
    reflectorsFrom tau v k A (i + 1) =
      applyReflector (tau (k + i)) (v (k + i)) (reflectorsFrom tau v k A i) := rfl

theorem reflectorsFrom_Height (i : Nat) :
    (reflectorsFrom tau v k A i).Height = A.Height ∧
    (reflectorsFrom tau v k A i).Width = A.Width := by
  induction i with
  | zero => exact ⟨rfl, rfl⟩
  | succ i ih => rw [reflectorsFrom_succ]; exact ih

theorem reflectorsFrom_succ_Get (i r c : Nat) :
    (reflectorsFrom tau v k A (i + 1)).Get r c =
      if r < A.Height ∧ c < A.Width then
        (reflectorsFrom tau v k A i).Get r c - Scalar.Conj (v (k + i) r) * reflectorRow tau v k A i c
      else (reflectorsFrom tau v k A i).Get r c := by
  rw [reflectorsFrom_succ]
  unfold applyReflector reflectorRow
  simp only
  rw [(reflectorsFrom_Height tau v k A i).1, (reflectorsFrom_Height tau v k A i).2]
  split_ifs
  · ring
  · rfl

/-- After `i` reflectors: the start value minus the `i` rank-one updates. -/
theorem reflectorsFrom_Get (i r c : Nat) :
    (reflectorsFrom tau v k A i).Get r c =
      if r < A.Height ∧ c < A.Width then
        A.Get r c - ∑ p ∈ Finset.range i, Scalar.Conj (v (k + p) r) * reflectorRow tau v k A p c
      else A.Get r c := by
  induction i with
  | zero =>
    simp only [Finset.range_zero, Finset.sum_empty, sub_zero, ite_self]
    rfl
  | succ i ih =>
    rw [reflectorsFrom_succ_Get, ih]
    split_ifs
    · rw [Finset.sum_range_succ]; ring
    · rfl

/-- The recurrence of the rows: the triangular system solved by the blocked routine. -/
theorem reflectorRow_rec (i c : Nat) (hc : c < A.Width) :
    reflectorRow tau v k A i c =
      tau (k + i) * (∑ m ∈ Finset.range A.Height, v (k + i) m * A.Get m c -
        ∑ p ∈ Finset.range i,
          (∑ m ∈ Finset.range A.Height, v (k + i) m * Scalar.Conj (v (k + p) m)) *
            reflectorRow tau v k A p c) := by
  have h1 : ∑ m ∈ Finset.range A.Height, v (k + i) m * (reflectorsFrom tau v k A i).Get m c =
      ∑ m ∈ Finset.range A.Height, (v (k + i) m * A.Get m c -
        ∑ p ∈ Finset.range i,
          v (k + i) m * Scalar.Conj (v (k + p) m) * reflectorRow tau v k A p c) := by
    apply Finset.sum_congr rfl
    intro m hm
    rw [reflectorsFrom_Get, if_pos ⟨Finset.mem_range.mp hm, hc⟩, mul_sub, Finset.mul_sum]
    congr 1
    apply Finset.sum_congr rfl
    intro p _
    ring
  have h2 : ∑ p ∈ Finset.range i,
      (∑ m ∈ Finset.range A.Height, v (k + i) m * Scalar.Conj (v (k + p) m)) *
        reflectorRow tau v k A p c =
      ∑ m ∈ Finset.range A.Height, ∑ p ∈ Finset.range i,
        v (k + i) m * Scalar.Conj (v (k + p) m) * reflectorRow tau v k A p c := by
    rw [Finset.sum_comm]
    apply Finset.sum_congr rfl
    intro p _
    rw [Finset.sum_mul]
  conv_lhs => unfold reflectorRow
  rw [h1, Finset.sum_sub_distrib, h2]

end Sequential

end apply_packed_reflectors

theorem sum_range_extend {F : Type} [Field F] (f : Nat → F) (w h : Nat) (hwh : w ≤ h)
    (hf : ∀ m, w ≤ m → f m = 0) :
    ∑ m ∈ Finset.range h, f m = ∑ m ∈ Finset.range w, f m := by
  symm
  apply Finset.sum_subset (Finset.range_subset.mpr hwh)
  intro m _ hm
  rw [Finset.mem_range] at hm
  exact hf m (by omega)

theorem FixDiagonal_loop {α : Type} (value : Nat → α) (S : Matrix α) (cnt : Nat) :
    (forLoop 0 (fun j (S : Matrix α) => S.Set j j (value j)) cnt S).Height = S.Height ∧
    (forLoop 0 (fun j (S : Matrix α) => S.Set j j (value j)) cnt S).Width = S.Width ∧
    ∀ r c, (forLoop 0 (fun j (S : Matrix α) => S.Set j j (value j)) cnt S).Get r c =
      if r = c ∧ r < cnt then value r else S.Get r c := by
  induction cnt with
  | zero =>
    refine ⟨rfl, rfl, ?_⟩
    intro r c
    rw [if_neg (by omega)]
    rfl
  | succ j ih =>
    obtain ⟨ihH, ihW, ihG⟩ := ih
    rw [forLoop_succ]
    refine ⟨ihH, ihW, ?_⟩
    intro r c
    rw [Matrix_Set_Get, ihG, Nat.zero_add]
    by_cases h1 : r = j ∧ c = j
    · obtain ⟨rfl, rfl⟩ := h1
      rw [if_pos ⟨rfl, rfl⟩, if_pos ⟨rfl, by omega⟩]
    · rw [if_neg h1]
      by_cases h2 : r = c ∧ r < j
      · rw [if_pos h2, if_pos ⟨h2.1, by omega⟩]
      · rw [if_neg h2, if_neg (by omega)]

namespace apply_packed_reflectors
variable {F R : Type} [Field F] [LinearOrderedField R] [Scalar F R]

/-! ## The primitives of the panel step of `LLHF` -/

theorem FixDiagonal_Get (conjugation : Conjugation) (t S : Matrix F) :
    (FixDiagonal conjugation t S).Height = S.Height ∧
    (FixDiagonal conjugation t S).Width = S.Width ∧
    ∀ r c, (FixDiagonal conjugation t S).Get r c =
      if r = c ∧ r < S.Height then 1 / reflectorScalar conjugation t r else S.Get r c := by
  unfold FixDiagonal
  have h := FixDiagonal_loop (fun j => 1 / reflectorScalar conjugation t j) S S.Height
  have hbody : (fun j (S : Matrix F) =>
      let value : F :=
        if conjugation = Conjugation.CONJUGATED then 1 / Scalar.Conj (t.Get j 0)
        else 1 / t.Get j 0
      S.Set j j value) =
      (fun j (S : Matrix F) => S.Set j j (1 / reflectorScalar conjugation t j)) := by
    funext j S
    unfold reflectorScalar
    simp only
    split_ifs <;> rfl
  rw [hbody]
  exact h

theorem TrsmLeftLowerNormalNonUnitRow_Get (L : Matrix F) (i : Nat) (X : Matrix F)
    (r c : Nat) :
    (TrsmLeftLowerNormalNonUnitRow L i X).Get r c =
      if r = i ∧ c < X.Width then
        (X.Get i c - ∑ m ∈ Finset.range i, L.Get i m * X.Get m c) / L.Get i i
      else X.Get r c := rfl

theorem TrsmLeftLowerNormalNonUnit_loop (L X : Matrix F) (z : Nat → Nat → F) (cnt : Nat)
    (hz : ∀ i c, i < cnt → c < X.Width →
      z i c = (X.Get i c - ∑ m ∈ Finset.range i, L.Get i m * z m c) / L.Get i i) :
    (forLoop 0 (TrsmLeftLowerNormalNonUnitRow L) cnt X).Height = X.Height ∧
    (forLoop 0 (TrsmLeftLowerNormalNonUnitRow L) cnt X).Width = X.Width ∧
    ∀ r c, (forLoop 0 (TrsmLeftLowerNormalNonUnitRow L) cnt X).Get r c =
      if r < cnt ∧ c < X.Width then z r c else X.Get r c := by
  induction cnt with
  | zero =>
    refine ⟨rfl, rfl, ?_⟩
    intro r c
    rw [if_neg (by omega)]
    rfl
  | succ i ih =>
    obtain ⟨ihH, ihW, ihG⟩ := ih (fun i' c hi' hc => hz i' c (by omega) hc)
    rw [forLoop_succ]
    refine ⟨ihH, ihW, ?_⟩
    intro r c
    rw [TrsmLeftLowerNormalNonUnitRow_Get, Nat.zero_add, ihW]
    by_cases h1 : r = i ∧ c < X.Width
    · obtain ⟨rfl, hc⟩ := h1
      rw [if_pos ⟨rfl, hc⟩, if_pos ⟨by omega, hc⟩, hz r c (by omega) hc, ihG r c,
        if_neg (by omega)]
      congr 2
      apply Finset.sum_congr rfl
      intro m hm
      rw [ihG m c, if_pos ⟨Finset.mem_range.mp hm, hc⟩]
    · rw [if_neg h1, ihG r c]
      by_cases h2 : r < i ∧ c < X.Width
      · rw [if_pos h2, if_pos ⟨by omega, h2.2⟩]
      · rw [if_neg h2, if_neg (by omega)]

/-! ## The panel step of `LLHF` -/

section LLHFPanelStep

variable (conjugation : Conjugation) (iOff : Nat) (H t A : Matrix F) (k nb : Nat)

theorem reflectorVector_zero (j m : Nat) (h : j < m) :
    reflectorVector iOff 0 H j m = 0 := by
  unfold reflectorVector
  rw [if_neg (by omega), if_neg (by omega)]

/-- The panel `HPanCopy` after `MakeTrapezoidal` and `SetDiagonal` holds the vectors
`v_k, ..., v_{k+nb-1}` in its rows. -/
theorem HPanCopy_Get (i c : Nat) (hi : i < nb) (hc : c < k + nb) :
    (SetDiagonalRight (MakeTrapezoidalLowerRight
      (Matrix.mk nb (k + nb) (fun i j => H.Get (k + iOff + i) j))) 1).Get i c =
      reflectorVector iOff 0 H (k + i) c := by
  unfold SetDiagonalRight MakeTrapezoidalLowerRight reflectorVector
  simp only [Nat.add_zero]
  by_cases h1 : c < k + i
  · rw [if_neg (by omega), if_neg (by omega), if_pos h1]
    congr 1
    omega
  · rw [if_neg h1]
    by_cases h2 : c = k + i
    · rw [if_pos ⟨hi, hc, by omega⟩, if_pos h2]
    · rw [if_neg (by omega), if_pos ⟨hi, hc, by omega⟩, if_neg h2]

end LLHFPanelStep

section LLHFPanelAlgebra

variable (conjugation : Conjugation) (iOff : Nat) (H t A : Matrix F) (k nb : Nat)
  (V ATop t1 : Matrix F)

/-- Inner products of the rows of the panel, taken over the width of the panel, are the
inner products of the reflector vectors. -/
theorem panel_inner (h : LLHFPanelViews iOff H t A k nb V ATop t1) (i p : Nat) (hi : i < nb)
    (hp : p < nb) :
    ∑ c ∈ Finset.range V.Width, V.Get i c * Scalar.Conj (V.Get p c) =
      ∑ m ∈ Finset.range A.Height,
        reflectorVector iOff 0 H (k + i) m * Scalar.Conj (reflectorVector iOff 0 H (k + p) m) := by
  rw [h.VWidth, sum_range_extend _ (k + nb) A.Height h.le
    (fun m hm => by rw [reflectorVector_zero iOff H (k + i) m (by omega), zero_mul])]
  apply Finset.sum_congr rfl
  intro c hc
  have hc' := Finset.mem_range.mp hc
  rw [h.VGet i c hi hc', h.VGet p c hp hc']

theorem panel_Z0 (h : LLHFPanelViews iOff H t A k nb V ATop t1) (i c : Nat) (hi : i < nb) :
    ∑ m ∈ Finset.range V.Width, V.Get i m * ATop.Get m c =
      ∑ m ∈ Finset.range A.Height, reflectorVector iOff 0 H (k + i) m * A.Get m c := by
  rw [h.VWidth, sum_range_extend _ (k + nb) A.Height h.le
    (fun m hm => by rw [reflectorVector_zero iOff H (k + i) m (by omega), zero_mul])]
  apply Finset.sum_congr rfl
  intro m hm
  rw [h.VGet i m hi (Finset.mem_range.mp hm), h.ATopGet]

theorem panel_scalar (h : LLHFPanelViews iOff H t A k nb V ATop t1) (j : Nat) :
    reflectorScalar conjugation t1 j = reflectorScalar conjugation t (k + j) := by
  unfold reflectorScalar
  rw [h.t1Get]

/-- The triangular solve of the panel step yields the rows subtracted by the reflectors
when they are applied one at a time. -/
theorem panel_Z (h : LLHFPanelViews iOff H t A k nb V ATop t1) :
    (TrsmLeftLowerNormalNonUnit (FixDiagonal conjugation t1 (HerkLowerNormal 1 V))
      (Matrix.mk V.Height ATop.Width
        (fun i j => 1 * ∑ m ∈ Finset.range V.Width, V.Get i m * ATop.Get m j))).Height = nb ∧
    (TrsmLeftLowerNormalNonUnit (FixDiagonal conjugation t1 (HerkLowerNormal 1 V))
      (Matrix.mk V.Height ATop.Width
        (fun i j => 1 * ∑ m ∈ Finset.range V.Width, V.Get i m * ATop.Get m j))).Width
      = A.Width ∧
    ∀ i c, i < nb → c < A.Width →
      (TrsmLeftLowerNormalNonUnit (FixDiagonal conjugation t1 (HerkLowerNormal 1 V))
        (Matrix.mk V.Height ATop.Width
          (fun i j => 1 * ∑ m ∈ Finset.range V.Width, V.Get i m * ATop.Get m j))).Get i c =
        reflectorRow (reflectorScalar conjugation t) (reflectorVector iOff 0 H) k A i c := by
  obtain ⟨hFH, -, hFG⟩ := FixDiagonal_Get conjugation t1 (HerkLowerNormal 1 V)
  have hHerkH : (HerkLowerNormal 1 V).Height = nb := h.VHeight
  have key := TrsmLeftLowerNormalNonUnit_loop
    (FixDiagonal conjugation t1 (HerkLowerNormal 1 V))
    (Matrix.mk V.Height ATop.Width
      (fun i j => 1 * ∑ m ∈ Finset.range V.Width, V.Get i m * ATop.Get m j))
    (reflectorRow (reflectorScalar conjugation t) (reflectorVector iOff 0 H) k A) V.Height
    (by
      intro i c hi hc
      rw [h.VHeight] at hi
      have hc' : c < A.Width := by rw [← h.ATopWidth]; exact hc
      have hsum : ∑ m ∈ Finset.range i,
          (FixDiagonal conjugation t1 (HerkLowerNormal 1 V)).Get i m *
            reflectorRow (reflectorScalar conjugation t) (reflectorVector iOff 0 H) k A m c =
          ∑ p ∈ Finset.range i,
            (∑ m ∈ Finset.range A.Height, reflectorVector iOff 0 H (k + i) m *
              Scalar.Conj (reflectorVector iOff 0 H (k + p) m)) *
              reflectorRow (reflectorScalar conjugation t) (reflectorVector iOff 0 H) k A p c := by
        apply Finset.sum_congr rfl
        intro p hp
        have hp' := Finset.mem_range.mp hp
        rw [hFG, if_neg (by omega)]
        unfold HerkLowerNormal
        simp only
        rw [if_pos ⟨by omega, by rw [h.VHeight]; exact hi⟩, one_mul,
          panel_inner iOff H t A k nb V ATop t1 h i p hi (by omega)]
      rw [hsum, hFG, if_pos ⟨rfl, by rw [hHerkH]; exact hi⟩,
        panel_scalar conjugation iOff H t A k nb V ATop t1 h i]
      simp only
      rw [one_mul, panel_Z0 iOff H t A k nb V ATop t1 h i c hi,
        reflectorRow_rec _ _ _ _ i c hc', div_div_eq_mul_div, div_one]
      ring)
  unfold TrsmLeftLowerNormalNonUnit
  simp only at key ⊢
  obtain ⟨kH, kW, kG⟩ := key
  refine ⟨kH.trans h.VHeight, kW.trans h.ATopWidth, ?_⟩
  intro i c hi hc
  rw [kG, if_pos ⟨by rw [h.VHeight]; exact hi, by rw [h.ATopWidth]; exact hc⟩]

end LLHFPanelAlgebra

/-- The panel step `[k, k+nb)` of `LLHF` (offset `<= 0`) applies the reflectors
`k, ..., k+nb-1` one at a time: `I - V^H T^{-1} V` is the product of the reflectors of
the panel. -/
theorem LLHFPanel_eq (conjugation : Conjugation) (iOff : Nat) (H t A : Matrix F) (k nb : Nat)
    (hH : k + iOff + nb ≤ H.Height) (hW : k + nb ≤ H.Width) (hA : A.Height = H.Width)
    (htH : k + nb ≤ t.Height) (htW : 1 ≤ t.Width) :
    LLHFPanel conjugation iOff 0 H t A.Width k nb A =
      .ok (reflectorsFrom (reflectorScalar conjugation t) (reflectorVector iOff 0 H) k A nb) := by
  unfold LLHFPanel
  dsimp only
  rw [Matrix_View_ok H (k + iOff) (k + iOff + nb) 0 (k + 0 + nb) (by omega),
    Matrix_View_ok A 0 (k + nb) 0 A.Width (by omega),
    Matrix_View_ok t k (k + nb) 0 1 (by omega)]
  simp only [bind, Except.bind, Nat.add_sub_cancel_left, Nat.sub_zero, Nat.zero_add, Nat.add_zero]
  generalize hVdef : SetDiagonalRight (MakeTrapezoidalLowerRight
      (Matrix.mk nb (k + nb) (fun i j => H.Get (k + iOff + i) j))) 1 = V
  generalize hATdef : (Matrix.mk (k + nb) A.Width (fun i j => A.Get i j) : Matrix F) = ATop
  generalize ht1def : (Matrix.mk nb 1 (fun i j => t.Get (k + i) j) : Matrix F) = t1
  have hviews : LLHFPanelViews iOff H t A k nb V ATop t1 := by
    subst hVdef hATdef ht1def
    exact ⟨by omega, rfl, rfl, fun i c hi hc => HPanCopy_Get iOff H k nb i c hi hc, rfl, rfl,
      fun _ _ => rfl, fun _ => rfl⟩
  unfold GemmNormalNormal
  rw [if_pos (by rw [hviews.VWidth, hviews.ATopHeight])]
  simp only
  obtain ⟨hZH, hZW, hZG⟩ := panel_Z conjugation iOff H t A k nb V ATop t1 hviews
  generalize TrsmLeftLowerNormalNonUnit (FixDiagonal conjugation t1 (HerkLowerNormal 1 V))
    (Matrix.mk V.Height ATop.Width
      (fun i j => 1 * ∑ m ∈ Finset.range V.Width, V.Get i m * ATop.Get m j)) = Z
    at hZH hZW hZG ⊢
  unfold GemmAdjointNormal
  rw [if_pos ⟨by rw [hZH, hviews.VHeight], by rw [hviews.VWidth, hviews.ATopHeight],
    by rw [hZW, hviews.ATopWidth]⟩]
  simp only [pure, Except.pure]
  congr 1
  have hd := reflectorsFrom_Height (reflectorScalar conjugation t) (reflectorVector iOff 0 H) k A nb
  apply Matrix_ext
  · exact hd.1.symm
  · exact hd.2.symm
  · intro r c
    rw [Matrix_SetView_Get, reflectorsFrom_Get]
    simp only [Nat.zero_add, Nat.sub_zero, Nat.zero_le, true_and]
    rw [hviews.ATopHeight, hviews.ATopWidth, hviews.VHeight]
    by_cases h1 : r < k + nb ∧ c < A.Width
    · rw [if_pos h1, if_pos h1, if_pos ⟨by omega, h1.2⟩, hviews.ATopGet]
      have hsum : ∑ m ∈ Finset.range nb, Scalar.Conj (V.Get m r) * Z.Get m c =
          ∑ p ∈ Finset.range nb, Scalar.Conj (reflectorVector iOff 0 H (k + p) r) *
            reflectorRow (reflectorScalar conjugation t) (reflectorVector iOff 0 H) k A p c := by
        apply Finset.sum_congr rfl
        intro p hp
        have hp' := Finset.mem_range.mp hp
        rw [hviews.VGet p r hp' h1.1, hZG p c hp' h1.2]
      rw [hsum]
      ring
    · rw [if_neg h1]
      by_cases h2 : r < A.Height ∧ c < A.Width
      · rw [if_pos h2]
        have hzero : ∑ p ∈ Finset.range nb, Scalar.Conj (reflectorVector iOff 0 H (k + p) r) *
            reflectorRow (reflectorScalar conjugation t) (reflectorVector iOff 0 H) k A p c = 0 := by
          apply Finset.sum_eq_zero
          intro p hp
          have hp' := Finset.mem_range.mp hp
          rw [reflectorVector_zero iOff H (k + p) r (by omega), map_zero, zero_mul]
        rw [hzero, sub_zero]
      · rw [if_neg h2]

theorem DiagonalLength_nonpos (height width : Nat) (offset : Int) (h : offset ≤ 0) :
    DiagonalLength height width offset = min (height - (-offset).toNat) width := by
  unfold DiagonalLength
  rw [if_neg (by omega)]

theorem LLHF_loop (conjugation : Conjugation) (iOff : Nat) (H t A : Matrix F) (bsize dl : Nat)
    (hdl : 0 < dl → dl + iOff ≤ H.Height) (hdl2 : dl ≤ H.Width) (hA : A.Height = H.Width)
    (htH : dl ≤ t.Height) (htW : 1 ≤ t.Width) (hb : 1 ≤ bsize) (fuel : Nat) :
    ∀ (t0 : Nat) (B : Matrix F), (dl + bsize - 1) / bsize - t0 < fuel →
      B = reflectorsFrom (reflectorScalar conjugation t) (reflectorVector iOff 0 H) 0 A
        (min (t0 * bsize) dl) →
      blockedLoop bsize dl (LLHFPanel conjugation iOff 0 H t A.Width) fuel (t0 * bsize) B =
        .ok (reflectorsFrom (reflectorScalar conjugation t) (reflectorVector iOff 0 H) 0 A dl) := by
  induction fuel with
  | zero => intro t0 B h; omega
  | succ fuel ih =>
    intro t0 B hf hB
    unfold blockedLoop
    by_cases hk : t0 * bsize < dl
    · have hmin : min (t0 * bsize) dl = t0 * bsize := by omega
      rw [hmin] at hB
      have hd := reflectorsFrom_Height (reflectorScalar conjugation t)
        (reflectorVector iOff 0 H) 0 A (t0 * bsize)
      have hBH : B.Height = H.Width := by rw [hB, hd.1, hA]
      have hBW : B.Width = A.Width := by rw [hB, hd.2]
      have hdl' := hdl (by omega)
      have hpanel := LLHFPanel_eq conjugation iOff H t B (t0 * bsize)
        (min bsize (dl - t0 * bsize)) (by omega) (by omega) hBH (by omega) htW
      rw [hBW] at hpanel
      rw [if_pos hk, hpanel]
      simp only [Except.bind]
      have hstep : t0 * bsize + bsize = (t0 + 1) * bsize := by rw [Nat.succ_mul]
      have hnext : t0 * bsize + min bsize (dl - t0 * bsize) = min ((t0 + 1) * bsize) dl := by
        rw [← hstep]; omega
      have ht : t0 < (dl + bsize - 1) / bsize := (panel_count_lt bsize dl t0 hb).mpr hk
      rw [hstep]
      apply ih (t0 + 1) _ (by omega)
      rw [hB, ← hnext]
      exact forLoop_add _ _ _ _
    · have hmin : min (t0 * bsize) dl = dl := by omega
      rw [hmin] at hB
      rw [if_neg hk, hB]

/-- C5. Reflector application: for every offset `<= 0`, every `H` and `A` with
`H.Width = A.Height`, every column vector `t` of length `diagLength` with nonzero
entries and every block size `bsize >= 1`, the serial `LLHF` ends and leaves `A` equal to
the result of applying the elementary reflectors `I - tau_i v_i^H v_i` one at a time for
`i = 0, 1, ..., diagLength-1`, `v_i` being row `i + iOff` of `H` with the entry on the
offset diagonal replaced by `1` and the entries to its right by `0`. -/
theorem C5_reflector_application (debug : Bool) (fuel bsize : Nat) (conjugation : Conjugation)
    (offset : Int) (H t A : Matrix F) (hoff : offset ≤ 0) (hHA : H.Width = A.Height)
    (htH : t.Height = DiagonalLength H.Height H.Width offset) (htW : t.Width = 1)
    (_ht0 : ∀ i, i < DiagonalLength H.Height H.Width offset → t.Get i 0 ≠ 0)
    (hb : 1 ≤ bsize)
    (hfuel : (DiagonalLength H.Height H.Width offset + bsize - 1) / bsize < fuel) :
    LLHF debug fuel bsize conjugation offset H t A =
      .ok (applyReflectorsInOrder conjugation (-offset).toNat 0 H t
        (DiagonalLength H.Height H.Width offset) A) := by
  have hdl := DiagonalLength_nonpos H.Height H.Width offset hoff
  unfold LLHF
  rw [if_neg (by simp [hHA])]
  simp only
  rw [if_neg (by simp [htH])]
  by_cases h0 : offset = 0
  · subst h0
    simp only [ge_iff_le, le_refl, if_true, Int.toNat_zero, neg_zero]
    have h := LLHF_loop conjugation 0 H t A bsize (DiagonalLength H.Height H.Width 0)
      (by intro hpos; rw [hdl] at hpos ⊢; simp only [neg_zero, Int.toNat_zero] at hpos ⊢; omega)
      (by rw [hdl]; omega) hHA.symm
      (by omega) (by omega) hb fuel 0 A (by rw [Nat.sub_zero]; exact hfuel)
      (by rw [Nat.zero_mul, Nat.zero_min]; rfl)
    rw [Nat.zero_mul] at h
    exact h
  · have hneg : ¬ offset ≥ 0 := by omega
    simp only [if_neg hneg]
    have h := LLHF_loop conjugation (-offset).toNat H t A bsize
      (DiagonalLength H.Height H.Width offset)
      (by intro hpos; rw [hdl] at hpos ⊢; omega) (by rw [hdl]; omega) hHA.symm
      (by omega) (by omega) hb fuel 0 A (by rw [Nat.sub_zero]; exact hfuel)
      (by rw [Nat.zero_mul, Nat.zero_min]; rfl)
    rw [Nat.zero_mul] at h
    exact h

/-- Witness for C5: two complex reflectors stored in `[[1, 2], [3 + i, 4 + i]]` with
scalars `[1 + i, 2 + i]`, conjugated, offset 0 and block size 2. -/
theorem C5_reflector_application_witness :
    ((0 : Int) ≤ 0 ∧ exampleH.Width = exampleB.Height ∧
      exampleT.Height = DiagonalLength exampleH.Height exampleH.Width 0 ∧ exampleT.Width = 1 ∧
      (∀ i, i < DiagonalLength exampleH.Height exampleH.Width 0 → exampleT.Get i 0 ≠ 0) ∧
      1 ≤ 2 ∧ (DiagonalLength exampleH.Height exampleH.Width 0 + 2 - 1) / 2 < 2) ∧
    LLHF true 2 2 Conjugation.CONJUGATED 0 exampleH exampleT exampleB =
      .ok (applyReflectorsInOrder Conjugation.CONJUGATED (-(0 : Int)).toNat 0 exampleH exampleT
        (DiagonalLength exampleH.Height exampleH.Width 0) exampleB) :=
  have ht0 : ∀ i, i < DiagonalLength exampleH.Height exampleH.Width 0 → exampleT.Get i 0 ≠ 0 := by
    intro i hi
    have h2 : i < 2 := hi
    interval_cases i <;> decide!
  ⟨⟨le_refl _, rfl, rfl, rfl, ht0, by decide, by decide⟩,
    C5_reflector_application true 2 2 Conjugation.CONJUGATED 0 exampleH exampleT exampleB
      (le_refl _) rfl rfl rfl ht0 (by decide) (by decide)⟩

end apply_packed_reflectors

namespace ldl

/-! ## C7: the distributed overload against the serial routine -/

/-- C7 fails on every grid with two rows of workers. For `A = [[2,1],[1,2]]`, signs
`[1,1]`, `pivTol = 0`, `regMag = 1` and block size 2 the serial `RegularizedVar3` returns
a factorization, while on the `2 x 1` grid the local matrices of `pivSign1_STAR_STAR`
(declared `[MC,STAR]`) have one row each instead of the two of `A11_STAR_STAR`, and the
local panel factorization fails on its view of them.  On a grid with a single row of
workers (`1 x 2`) the distributed routine agrees with the serial one, here on
`A[i][j] = i + j` of order 4. -/
theorem C7_distributed_differs_from_serial :
    ((LocalMatrixMCSTAR 2 0 0 (onesSign 2)).Height = 1 ∧
      (LocalMatrixMCSTAR 2 0 1 (onesSign 2)).Height = 1) ∧
    (∃ out, RegularizedVar3 true 3 2 examplePosDef (0 : ℚ) 1 (onesSign 2) (Zeros 2 1) = .ok out) ∧
    DistRegularizedVar3 true 3 2 ⟨2, 1⟩ examplePosDef (0 : ℚ) 1 (onesSign 2) (Zeros 2 1) =
      .error (.LogicError "view out of bounds") ∧
    DistLocalPanel true 3 2 ⟨2, 1⟩ (0 : ℚ) 1 0 0 examplePosDef (onesSign 2) (Zeros 2 1) =
      .error (.LogicError "view out of bounds") ∧
    (∃ A' reg' Ad regd,
      RegularizedVar3 true 3 2 exampleSum (0 : ℚ) 1 (onesSign 4) (Zeros 4 1) = .ok (A', reg') ∧
      DistRegularizedVar3 true 3 2 ⟨1, 2⟩ exampleSum (0 : ℚ) 1 (onesSign 4) (Zeros 4 1)
        = .ok (Ad, regd) ∧
      (∀ i, i < 4 → ∀ j, j < 4 → A'.Get i j = Ad.Get i j) ∧
      (∀ i, i < 4 → reg'.Get i 0 = regd.Get i 0)) :=
  ⟨⟨rfl, rfl⟩, ⟨_, rfl⟩, rfl, rfl, ⟨_, _, _, _, rfl, rfl, by decide!, by decide!⟩⟩

variable {F R : Type} [Field F] [LinearOrderedField R] [Scalar F R]

/-! ## The contract of the modelled triangular solves -/

theorem TrsmRightLowerAdjointUnit_inv (L X : Matrix F) (cnt : Nat) :
    (forLoop 0 (TrsmRightLowerAdjointUnitColumn L) cnt X).Height = X.Height ∧
    (∀ i c, cnt ≤ c → (forLoop 0 (TrsmRightLowerAdjointUnitColumn L) cnt X).Get i c = X.Get i c) ∧
    (∀ i c, c < cnt → i < X.Height →
      (forLoop 0 (TrsmRightLowerAdjointUnitColumn L) cnt X).Get i c =
        X.Get i c - ∑ m ∈ Finset.range c,
          (forLoop 0 (TrsmRightLowerAdjointUnitColumn L) cnt X).Get i m *
            Scalar.Conj (L.Get c m)) := by
  induction cnt with
  | zero =>
    refine ⟨rfl, ?_, ?_⟩
    · intro i c _; rfl
    · intro i c hc; omega
  | succ j ih =>
    obtain ⟨ihH, ih1, ih2⟩ := ih
    rw [forLoop_succ, Nat.zero_add]
    refine ⟨ihH, ?_, ?_⟩
    · intro i c hc
      rw [TrsmRightLowerAdjointUnitColumn_Get, if_neg (by omega), ih1 i c (by omega)]
    · intro i c hc hi
      have hsum : ∑ m ∈ Finset.range c,
          (TrsmRightLowerAdjointUnitColumn L j
            (forLoop 0 (TrsmRightLowerAdjointUnitColumn L) j X)).Get i m *
            Scalar.Conj (L.Get c m) =
          ∑ m ∈ Finset.range c, (forLoop 0 (TrsmRightLowerAdjointUnitColumn L) j X).Get i m *
            Scalar.Conj (L.Get c m) := by
        apply Finset.sum_congr rfl
        intro m hm
        have hm' := Finset.mem_range.mp hm
        rw [TrsmRightLowerAdjointUnitColumn_Get, if_neg (by omega)]
      rw [hsum, TrsmRightLowerAdjointUnitColumn_Get, ihH]
      by_cases hcj : c = j
      · subst hcj
        rw [if_pos ⟨rfl, hi⟩, ih1 i c (le_refl _)]
      · rw [if_neg (by omega), ih2 i c (by omega) hi]

/-- The modelled `Trsm( RIGHT, LOWER, ADJOINT, UNIT, F(1), L, X )` meets its contract:
its result `X'` satisfies `X' L1^H = X`, `L1` being the unit lower triangular matrix with
the strictly lower part of `L`. -/
theorem TrsmRightLowerAdjointUnit_contract (L X : Matrix F) (i j : Nat) (hi : i < X.Height)
    (hj : j < X.Width) :
    ∑ m ∈ Finset.range X.Width,
      (TrsmRightLowerAdjointUnit L X).Get i m * Scalar.Conj (UnitLower L j m) = X.Get i j := by
  have h := (TrsmRightLowerAdjointUnit_inv L X X.Width).2.2 i j hj hi
  unfold TrsmRightLowerAdjointUnit
  have hsplit : Finset.range X.Width = Finset.range (j + 1) ∪
      (Finset.range X.Width \ Finset.range (j + 1)) := by
    rw [Finset.union_sdiff_of_subset]
    exact Finset.range_subset.mpr (by omega)
  rw [hsplit, Finset.sum_union Finset.disjoint_sdiff, Finset.sum_range_succ]
  rw [Finset.sum_eq_zero (s := Finset.range X.Width \ Finset.range (j + 1)), add_zero]
  · have hlast : UnitLower L j j = 1 := by
      unfold UnitLower
      rw [if_neg (by omega), if_pos rfl]
    rw [hlast, map_one, mul_one, h]
    have hs : ∀ m ∈ Finset.range j, UnitLower L j m = L.Get j m := by
      intro m hm
      unfold UnitLower
      rw [if_pos (Finset.mem_range.mp hm)]
    rw [Finset.sum_congr rfl (fun m hm => by rw [hs m hm])]
    ring
  · intro m hm
    rw [Finset.mem_sdiff, Finset.mem_range, Finset.mem_range] at hm
    unfold UnitLower
    rw [if_neg (by omega), if_neg (by omega), map_zero, mul_zero]

end ldl

namespace apply_packed_reflectors
variable {F R : Type} [Field F] [LinearOrderedField R] [Scalar F R]

theorem TrsmLeftLowerNormalNonUnit_inv (L X : Matrix F) (cnt : Nat) :
    (forLoop 0 (TrsmLeftLowerNormalNonUnitRow L) cnt X).Width = X.Width ∧
    (∀ r c, cnt ≤ r → (forLoop 0 (TrsmLeftLowerNormalNonUnitRow L) cnt X).Get r c = X.Get r c) ∧
    (∀ r c, r < cnt → c < X.Width →
      (forLoop 0 (TrsmLeftLowerNormalNonUnitRow L) cnt X).Get r c =
        (X.Get r c - ∑ m ∈ Finset.range r,
          L.Get r m * (forLoop 0 (TrsmLeftLowerNormalNonUnitRow L) cnt X).Get m c) /
          L.Get r r) := by
  induction cnt with
  | zero =>
    refine ⟨rfl, ?_, ?_⟩
    · intro r c _; rfl
    · intro r c hr; omega
  | succ i ih =>
    obtain ⟨ihW, ih1, ih2⟩ := ih
    rw [forLoop_succ, Nat.zero_add]
    refine ⟨ihW, ?_, ?_⟩
    · intro r c hr
      rw [TrsmLeftLowerNormalNonUnitRow_Get, if_neg (by omega), ih1 r c (by omega)]
    · intro r c hr hc
      have hsum : ∑ m ∈ Finset.range r,
          L.Get r m * (TrsmLeftLowerNormalNonUnitRow L i
            (forLoop 0 (TrsmLeftLowerNormalNonUnitRow L) i X)).Get m c =
          ∑ m ∈ Finset.range r,
            L.Get r m * (forLoop 0 (TrsmLeftLowerNormalNonUnitRow L) i X).Get m c := by
        apply Finset.sum_congr rfl
        intro m hm
        have hm' := Finset.mem_range.mp hm
        rw [TrsmLeftLowerNormalNonUnitRow_Get, if_neg (by omega)]
      rw [hsum, TrsmLeftLowerNormalNonUnitRow_Get, ihW]
      by_cases hri : r = i
      · subst hri
        rw [if_pos ⟨rfl, hc⟩, ih1 r c (le_refl _)]
      · rw [if_neg (by omega), ih2 r c (by omega) hc]

/-- The modelled `Trsm( LEFT, LOWER, NORMAL, NON_UNIT, F(1), L, X )` meets its contract:
when the diagonal of `L` has no zero its result `X'` satisfies `tril(L) X' = X`. -/
theorem TrsmLeftLowerNormalNonUnit_contract (L X : Matrix F) (i c : Nat) (hi : i < X.Height)
    (hc : c < X.Width) (hL : L.Get i i ≠ 0) :
    ∑ m ∈ Finset.range (i + 1), L.Get i m * (TrsmLeftLowerNormalNonUnit L X).Get m c =
      X.Get i c := by
  have h := (TrsmLeftLowerNormalNonUnit_inv L X X.Height).2.2 i c hi hc
  unfold TrsmLeftLowerNormalNonUnit
  rw [Finset.sum_range_succ, h]
  field_simp

end apply_packed_reflectors

theorem mapM_ne_ok {α β : Type} (f : α → Except Error β) (l : List α) (x : α) (hx : x ∈ l)
    (hf : ∀ y, f x ≠ .ok y) : ∀ ys, l.mapM f ≠ .ok ys := by
  induction l with
  | nil => cases hx
  | cons a l ih =>
    intro ys
    rw [List.mapM_cons]
    cases hfa : f a with
    | error e => intro h; cases h
    | ok b =>
      have hxl : x ∈ l := by
        rcases List.mem_cons.mp hx with h | h
        · subst h; exact absurd hfa (hf b)
        · exact h
      cases hl : l.mapM f with
      | error e => intro h; cases h
      | ok bs => exact absurd hl (ih hxl bs)

namespace ldl
variable {F R : Type} [Field F] [LinearOrderedField R] [Scalar F R]

/-! ## C7: the distributed overload on grids with several rows -/

/-- The serial blocked routine fails on the view of a pivot-sign vector that is shorter
than its first panel. -/
theorem RegularizedVar3_short_pivSign (debug : Bool) (fuel bsize : Nat) (A : Matrix F)
    (pivTol regMag : R) (pivSign : Matrix Int) (reg : Matrix R) (hsq : A.Height = A.Width)
    (hn : 1 ≤ A.Height) (hb : 1 ≤ bsize) (hshort : pivSign.Height < min bsize A.Height) :
    ∀ out, RegularizedVar3 debug fuel bsize A pivTol regMag pivSign reg ≠ .ok out := by
  intro out
  unfold RegularizedVar3
  rw [if_neg (by simp [hsq])]
  simp only
  cases fuel with
  | zero => intro h; cases h
  | succ fuel =>
    unfold blockedLoop
    rw [if_pos (by omega)]
    unfold RegularizedVar3Panel
    dsimp only
    rw [Matrix_View_ok A 0 (0 + min bsize (A.Height - 0)) 0 (0 + min bsize (A.Height - 0))
        (by omega),
      Matrix_View_ok A (0 + min bsize (A.Height - 0)) A.Height 0 (0 + min bsize (A.Height - 0))
        (by omega),
      Matrix_View_ok A (0 + min bsize (A.Height - 0)) A.Height (0 + min bsize (A.Height - 0))
        A.Height (by omega)]
    simp only [bind, Except.bind]
    unfold Matrix.View
    rw [if_neg (by omega)]
    intro h
    cases h

theorem LocalLength_second_row (nb r : Nat) (hnb : 1 ≤ nb) (hr : 2 ≤ r) :
    LocalLength nb (Shift 1 0 r) r < nb := by
  have hs : Shift 1 0 r = 1 := by
    unfold Shift
    rw [Nat.sub_zero, Nat.add_mod_right, Nat.mod_eq_of_lt (by omega)]
  rw [hs]
  unfold LocalLength
  split_ifs with h
  · have := Nat.div_le_self (nb - 1 - 1) r
    omega
  · omega

/-- On a grid with at least two rows of workers the distributed routine never returns a
factorization: the worker of grid row 1 holds fewer than `nb` rows of `pivSign1_STAR_STAR`
and its local panel factorization fails on the first panel. -/
theorem DistRegularizedVar3_two_rows (debug : Bool) (fuel bsize : Nat) (g : Grid) (A : Matrix F)
    (pivTol regMag : R) (pivSign : Matrix Int) (reg : Matrix R) (hsq : A.Height = A.Width)
    (hpiv : pivSign.Height = A.Height ∧ pivSign.Width = 1) (hb : 1 ≤ bsize)
    (hn : 1 ≤ A.Height) (hr : 2 ≤ g.Height) :
    ∀ out, DistRegularizedVar3 debug fuel bsize g A pivTol regMag pivSign reg ≠ .ok out := by
  intro out
  obtain ⟨hp1, hp2⟩ := hpiv
  have hz1 : (Zeros A.Height 1 : Matrix R).Height = A.Height := rfl
  have hz2 : (Zeros A.Height 1 : Matrix R).Width = 1 := rfl
  unfold DistRegularizedVar3
  rw [if_neg (by simp [hsq])]
  simp only
  cases fuel with
  | zero => intro h; cases h
  | succ fuel =>
    unfold blockedLoop
    rw [if_pos (by omega)]
    unfold DistRegularizedVar3Panel
    dsimp only
    rw [Matrix_View_ok A 0 (0 + min bsize (A.Height - 0)) 0 (0 + min bsize (A.Height - 0))
        (by omega),
      Matrix_View_ok A (0 + min bsize (A.Height - 0)) A.Height 0 (0 + min bsize (A.Height - 0))
        (by omega),
      Matrix_View_ok A (0 + min bsize (A.Height - 0)) A.Height (0 + min bsize (A.Height - 0))
        A.Height (by omega),
      Matrix_View_ok pivSign 0 (0 + min bsize (A.Height - 0)) 0 1 (by omega),
      Matrix_View_ok (Zeros A.Height 1 : Matrix R) 0 (0 + min bsize (A.Height - 0)) 0 1
        (by omega)]
    simp only [bind, Except.bind]
    have hloc : ∀ ys, (List.range g.Height).mapM (fun p =>
        DistLocalPanel debug (fuel + 1) bsize g pivTol regMag 0 p
          (Matrix.mk (0 + min bsize (A.Height - 0) - 0) (0 + min bsize (A.Height - 0) - 0)
            (fun i j => A.Get (0 + i) (0 + j)))
          (Matrix.mk (0 + min bsize (A.Height - 0) - 0) (1 - 0)
            (fun i j => pivSign.Get (0 + i) (0 + j)))
          (Matrix.mk (0 + min bsize (A.Height - 0) - 0) (1 - 0)
            (fun i j => (Zeros A.Height 1 : Matrix R).Get (0 + i) (0 + j)))) ≠ .ok ys := by
      apply mapM_ne_ok _ _ 1 (List.mem_range.mpr (by omega))
      intro y
      unfold DistLocalPanel
      apply RegularizedVar3_short_pivSign
      · rfl
      · show 1 ≤ 0 + min bsize (A.Height - 0) - 0
        omega
      · exact hb
      · show LocalLength (0 + min bsize (A.Height - 0) - 0) (Shift 1 (0 % g.Height) g.Height)
          g.Height < min bsize (0 + min bsize (A.Height - 0) - 0)
        rw [Nat.zero_mod]
        have h1 := LocalLength_second_row (0 + min bsize (A.Height - 0) - 0) g.Height
          (by omega) hr
        omega
    cases hm : (List.range g.Height).mapM (fun p =>
        DistLocalPanel debug (fuel + 1) bsize g pivTol regMag 0 p
          (Matrix.mk (0 + min bsize (A.Height - 0) - 0) (0 + min bsize (A.Height - 0) - 0)
            (fun i j => A.Get (0 + i) (0 + j)))
          (Matrix.mk (0 + min bsize (A.Height - 0) - 0) (1 - 0)
            (fun i j => pivSign.Get (0 + i) (0 + j)))
          (Matrix.mk (0 + min bsize (A.Height - 0) - 0) (1 - 0)
            (fun i j => (Zeros A.Height 1 : Matrix R).Get (0 + i) (0 + j)))) with
    | error e => intro h; cases h
    | ok ys => exact absurd hm (hloc ys)

end ldl


namespace ldl
variable {F R : Type} [Field F] [LinearOrderedField R] [Scalar F R]

/-! ## C14: the unblocked routine factors the perturbed matrix exactly -/

/-- C14. For a square `A` with real diagonal, read as a Hermitian matrix through its lower
triangle, a conforming `pivSign` and any `pivTol`, `regMag` for which every pivot that is
divided by (those of the columns `m` with `m + 1 < n`) is nonzero, `RegularizedVar3Unb`
returns `(A', reg')` with `L D L^H = A + diag(reg')`, `L` being the unit lower-triangular
matrix stored strictly below the diagonal of `A'` and `D` the diagonal of `A'`: entry by
entry on the lower triangle, and hence for the whole Hermitian matrix. -/
theorem C14_unblocked_exact_factorization (debug : Bool) (A : Matrix F) (pivTol regMag : R)
    (pivSign : Matrix Int) (reg : Matrix R) (hsq : A.Height = A.Width)
    (hpiv : pivSign.Height = A.Height ∧ pivSign.Width = 1)
    (hreal : ∀ i, i < A.Height → Scalar.Conj (A.Get i i) = A.Get i i)
    (hpivot : ∀ m, m + 1 < A.Height →
      UnbPivot pivTol regMag pivSign m (UnbState A pivTol regMag pivSign m).1 ≠ 0) :
    ∃ A' reg', RegularizedVar3Unb debug A pivTol regMag pivSign reg = .ok (A', reg') ∧
      (∀ i j, j ≤ i → i < A.Height →
        ReconstructLDLH A' i j = A.Get i j + DiagOfReg reg' i j) ∧
      ∀ i j, i < A.Height → j < A.Height →
        ReconstructLDLH A' i j = HermitianOfLower A i j + DiagOfReg reg' i j := by
  have hpivot' : ∀ m, m + 1 < A.Height →
      UnbColsPivot pivTol regMag pivSign A.Height 0 A m ≠ 0 := by
    intro m hm
    have h := hpivot m hm
    rw [UnbState_fst] at h
    unfold UnbColsPivot
    rw [Nat.zero_add]
    exact h
  have hreg : ∀ i, i < A.Height →
      (UnbState A pivTol regMag pivSign A.Height).2.Get i 0 =
        UnbRegEntry pivTol regMag pivSign i (UnbCols pivTol regMag pivSign A.Height 0 A i) := by
    intro i hi
    rw [UnbState_snd_Get A pivTol regMag pivSign i hi, UnbState_fst]
  have hall := ReconstructLDLH_eq pivTol regMag pivSign A hreal hpivot'
    (UnbState A pivTol regMag pivSign A.Height).2 hreg
  refine ⟨(UnbState A pivTol regMag pivSign A.Height).1,
    (UnbState A pivTol regMag pivSign A.Height).2,
    RegularizedVar3Unb_ok debug A pivTol regMag pivSign reg hsq hpiv, ?_, ?_⟩
  · intro i j hji hi
    rw [UnbState_fst, hall i j hi (by omega)]
    unfold HermitianOfLower
    rw [if_pos hji]
  · intro i j hi hj
    rw [UnbState_fst]
    exact hall i j hi hj

/-- Witness for C14 on the complex Hermitian matrix `[[0, 1 - i], [1 + i, 3]]` with
`pivTol = 0`, `regMag = 1`: column 0 is regularized. -/
theorem C14_unblocked_exact_factorization_witness :
    (exampleHermitian.Height = exampleHermitian.Width ∧
      ((onesSign 2).Height = exampleHermitian.Height ∧ (onesSign 2).Width = 1) ∧
      (∀ i, i < exampleHermitian.Height →
        Scalar.Conj (exampleHermitian.Get i i) = exampleHermitian.Get i i) ∧
      (∀ m, m + 1 < exampleHermitian.Height →
        UnbPivot (0 : ℚ) 1 (onesSign 2) m
          (UnbState exampleHermitian (0 : ℚ) 1 (onesSign 2) m).1 ≠ 0)) ∧
    ∃ A' reg',
      RegularizedVar3Unb true exampleHermitian (0 : ℚ) 1 (onesSign 2) (Zeros 0 0)
        = .ok (A', reg') ∧
      (∀ i j, j ≤ i → i < exampleHermitian.Height →
        ReconstructLDLH A' i j = exampleHermitian.Get i j + DiagOfReg reg' i j) ∧
      ∀ i j, i < exampleHermitian.Height → j < exampleHermitian.Height →
        ReconstructLDLH A' i j = HermitianOfLower exampleHermitian i j + DiagOfReg reg' i j :=
  have hreal : ∀ i, i < exampleHermitian.Height →
      Scalar.Conj (exampleHermitian.Get i i) = exampleHermitian.Get i i := by
    intro i hi
    have h2 : i < 2 := hi
    interval_cases i <;> decide!
  have hpivot : ∀ m, m + 1 < exampleHermitian.Height →
      UnbPivot (0 : ℚ) 1 (onesSign 2) m
        (UnbState exampleHermitian (0 : ℚ) 1 (onesSign 2) m).1 ≠ 0 := by
    intro m hm
    have h2 : m + 1 < 2 := hm
    have h0 : m = 0 := by omega
    subst h0
    decide!
  ⟨⟨rfl, ⟨rfl, rfl⟩, hreal, hpivot⟩,
    C14_unblocked_exact_factorization true exampleHermitian 0 1 (onesSign 2) (Zeros 0 0) rfl
      ⟨rfl, rfl⟩ hreal hpivot⟩

/-! ## C15: the pivot-sign constraint -/

/-- C15. For a square `A`, a conforming pivot-sign vector with entries in `{+1, -1}`,
`pivTol >= 0` and `regMag > 0`, every diagonal entry `d_j` of the output of
`RegularizedVar3Unb` is real and satisfies `pivSign[j]*d_j > 0`; more precisely either
`pivSign[j]*d_j > pivTol` and `reg[j] = 0`, or `d_j = pivSign[j]*regMag`. -/
theorem C15_pivot_sign_constraint (debug : Bool) (A : Matrix F) (pivTol regMag : R)
    (pivSign : Matrix Int) (reg : Matrix R) (hsq : A.Height = A.Width)
    (hpiv : pivSign.Height = A.Height ∧ pivSign.Width = 1)
    (hsign : ∀ j, j < A.Height → pivSign.Get j 0 = 1 ∨ pivSign.Get j 0 = -1)
    (htol : 0 ≤ pivTol) (hmag : 0 < regMag) :
    ∃ A' reg', RegularizedVar3Unb debug A pivTol regMag pivSign reg = .ok (A', reg') ∧
      ∀ j, j < A.Height →
        A'.Get j j = Scalar.ofReal (Scalar.RealPart (A'.Get j j)) ∧
        0 < ((pivSign.Get j 0 : Int) : R) * Scalar.RealPart (A'.Get j j) ∧
        ((pivTol < ((pivSign.Get j 0 : Int) : R) * Scalar.RealPart (A'.Get j j) ∧
            reg'.Get j 0 = 0) ∨
          Scalar.RealPart (A'.Get j j) = ((pivSign.Get j 0 : Int) : R) * regMag) := by
  refine ⟨(UnbState A pivTol regMag pivSign A.Height).1,
    (UnbState A pivTol regMag pivSign A.Height).2,
    RegularizedVar3Unb_ok debug A pivTol regMag pivSign reg hsq hpiv, ?_⟩
  intro j hj
  have hd := (UnbCols_Get_done pivTol regMag pivSign A.Height 0 A A.Height j 0 hj (by omega)).1
  rw [Nat.zero_add] at hd
  have hr := UnbState_snd_Get A pivTol regMag pivSign j hj
  rw [UnbState_fst] at hr ⊢
  rw [hd, hr, Scalar.RealPart_ofReal]
  refine ⟨rfl, ?_⟩
  have hsq1 : ((pivSign.Get j 0 : Int) : R) * ((pivSign.Get j 0 : Int) : R) = 1 := by
    rcases hsign j hj with h | h <;> rw [h] <;> simp
  unfold UnbColsPivot UnbPivot UnbRegEntry
  rw [Nat.zero_add]
  simp only
  by_cases h : ((pivSign.Get j 0 : Int) : R) *
      Scalar.RealPart ((UnbCols pivTol regMag pivSign A.Height 0 A j).Get j j) ≤ pivTol
  · rw [if_pos h, if_pos h, ← mul_assoc, hsq1, one_mul]
    exact ⟨hmag, Or.inr rfl⟩
  · rw [if_neg h, if_neg h]
    have h' := lt_of_not_le h
    exact ⟨lt_of_le_of_lt htol h', Or.inl ⟨h', rfl⟩⟩

/-- Witness for C15 on `[[0, 1], [1, 2]]` with `pivTol = 0`, `regMag = 1`. -/
theorem C15_pivot_sign_constraint_witness :
    (exampleA.Height = exampleA.Width ∧
      ((onesSign 2).Height = exampleA.Height ∧ (onesSign 2).Width = 1) ∧
      (∀ j, j < exampleA.Height → (onesSign 2).Get j 0 = 1 ∨ (onesSign 2).Get j 0 = -1) ∧
      (0 : ℚ) ≤ 0 ∧ (0 : ℚ) < 1) ∧
    ∃ A' reg', RegularizedVar3Unb true exampleA (0 : ℚ) 1 (onesSign 2) (Zeros 0 0)
        = .ok (A', reg') ∧
      ∀ j, j < exampleA.Height →
        A'.Get j j = Scalar.ofReal (Scalar.RealPart (A'.Get j j)) ∧
        0 < (((onesSign 2).Get j 0 : Int) : ℚ) * Scalar.RealPart (A'.Get j j) ∧
        (((0 : ℚ) < (((onesSign 2).Get j 0 : Int) : ℚ) * Scalar.RealPart (A'.Get j j) ∧
            reg'.Get j 0 = 0) ∨
          Scalar.RealPart (A'.Get j j) = (((onesSign 2).Get j 0 : Int) : ℚ) * 1) :=
  ⟨⟨rfl, ⟨rfl, rfl⟩, fun _ _ => Or.inl rfl, le_refl _, one_pos⟩,
    C15_pivot_sign_constraint true exampleA 0 1 (onesSign 2) (Zeros 0 0) rfl ⟨rfl, rfl⟩
      (fun _ _ => Or.inl rfl) (le_refl _) one_pos⟩

end ldl


namespace ldl
variable {F R : Type} [Field F] [LinearOrderedField R] [Scalar F R]

/-! ## The column loop reads the lower triangle only -/

/-- The column loop reads the input only on its lower triangle: two runs on matrices that
agree there agree on the lower triangle after every column. -/
theorem UnbCols_lower_congr (pivTol regMag : R) (pivSign : Matrix Int) (n k : Nat)
    (A B : Matrix F) (hAB : ∀ r c, c ≤ r → r < n → A.Get r c = B.Get r c) (t : Nat)
    (ht : k + t ≤ n) (r c : Nat) (hrc : c ≤ r) (hr : r < n) :
    (UnbCols pivTol regMag pivSign n k A t).Get r c =
      (UnbCols pivTol regMag pivSign n k B t).Get r c := by
  induction t generalizing r c with
  | zero => exact hAB r c hrc hr
  | succ t ih =>
    have ih' := ih (by omega)
    have hp : UnbColsPivot pivTol regMag pivSign n k A t =
        UnbColsPivot pivTol regMag pivSign n k B t := by
      unfold UnbColsPivot UnbPivot
      rw [ih' (k + t) (k + t) (le_refl _) (by omega)]
    rw [UnbCols_succ_Get _ _ _ _ _ _ _ (by omega), UnbCols_succ_Get _ _ _ _ _ _ _ (by omega), hp]
    by_cases h1 : r = k + t ∧ c = k + t
    · simp only [if_pos h1]
    · simp only [if_neg h1]
      by_cases h2 : c = k + t ∧ k + t < r ∧ r < n
      · simp only [if_pos h2]
        rw [ih' r (k + t) (by omega) hr]
      · simp only [if_neg h2]
        by_cases h3 : k + t < c ∧ c ≤ r ∧ r < n
        · simp only [if_pos h3]
          rw [ih' r c hrc hr, ih' r (k + t) (by omega) hr, ih' c (k + t) (by omega) (by omega)]
        · simp only [if_neg h3]
          exact ih' r c hrc hr

/-- The entries of `reg` depend on the lower triangle of the input only. -/
theorem UnbRegEntry_lower_congr (pivTol regMag : R) (pivSign : Matrix Int)
    (A B : Matrix F) (hH : B.Height = A.Height)
    (hAB : ∀ r c, c ≤ r → r < A.Height → A.Get r c = B.Get r c) (i : Nat) (hi : i < A.Height) :
    UnbRegEntry pivTol regMag pivSign i (UnbCols pivTol regMag pivSign A.Height 0 A i) =
      UnbRegEntry pivTol regMag pivSign i (UnbCols pivTol regMag pivSign B.Height 0 B i) := by
  unfold UnbRegEntry
  rw [hH, UnbCols_lower_congr pivTol regMag pivSign A.Height 0 A B hAB i (by omega) i i
    (le_refl _) hi]

end ldl


namespace apply_packed_reflectors
variable {F R : Type} [Field F] [LinearOrderedField R] [Scalar F R]

/-! ## C11: the views of a panel step of `LLHF` and the first product -/

/-- For a positive offset, a nonempty offset diagonal and the checked preconditions, the
serial `LLHF` stops in its first panel: `HPan` has `offset + nb` columns, `ATop` has `nb`
rows, and the product `HPanCopy * ATop` is refused. -/
theorem LLHF_positive_offset (debug : Bool) (fuel bsize : Nat) (conjugation : Conjugation)
    (offset : Int) (H t A : Matrix F) (hoff : 0 < offset) (hHA : H.Width = A.Height)
    (htH : t.Height = DiagonalLength H.Height H.Width offset) (htW : 1 ≤ t.Width)
    (hb : 1 ≤ bsize) (hdl : 1 ≤ DiagonalLength H.Height H.Width offset) (hfuel : 1 ≤ fuel) :
    LLHF debug fuel bsize conjugation offset H t A =
      .error (.LogicError "Nonconformal Gemm") := by
  unfold LLHF
  rw [if_neg (by simp [hHA])]
  simp only
  rw [if_neg (by simp [htH])]
  have hpos : offset ≥ 0 := by omega
  simp only [if_pos hpos]
  have hd : DiagonalLength H.Height H.Width offset = min H.Height (H.Width - offset.toNat) := by
    unfold DiagonalLength
    rw [if_pos hoff]
  have hto : 1 ≤ offset.toNat := by omega
  generalize DiagonalLength H.Height H.Width offset = dl at *
  obtain ⟨f, rfl⟩ : ∃ f, fuel = f + 1 := ⟨fuel - 1, by omega⟩
  unfold blockedLoop
  rw [if_pos (by omega)]
  unfold LLHFPanel
  dsimp only
  rw [Matrix_View_ok H (0 + 0) (0 + 0 + min bsize (dl - 0)) 0
      (0 + offset.toNat + min bsize (dl - 0)) (by omega),
    Matrix_View_ok A 0 (0 + min bsize (dl - 0)) 0 A.Width (by omega),
    Matrix_View_ok t 0 (0 + min bsize (dl - 0)) 0 1 (by omega)]
  simp only [bind, Except.bind]
  unfold GemmNormalNormal
  rw [if_neg]
  show ¬ (0 + offset.toNat + min bsize (dl - 0) - 0 = 0 + min bsize (dl - 0) - 0)
  omega

/-- C11, as far as it holds. Under the checked preconditions `H.Width = A.Height` and
`t.Height = diagLength`, for a column vector `t`, every offset, every block size
`bsize >= 1` and every panel start `k < diagLength`, with `nb = Min(bsize, diagLength-k)`,
`ki = k+iOff`, `kj = k+jOff`: the three views `HPan = H[ki..ki+nb, 0..kj+nb)`,
`ATop = A[0..k+nb, 0..nA)` and `t1 = t[k..k+nb)` lie within their parents, `HPan` has
`kj+nb` columns and `ATop` has `k+nb` rows, and these agree exactly when `offset <= 0`.
For `offset <= 0` the panel step returns; for a positive offset the product
`HPanCopy * ATop` is not conforming and the panel step stops there. -/
theorem C11_panel_views (conjugation : Conjugation) (offset : Int) (H t A : Matrix F)
    (bsize k dl nb iOff jOff : Nat) (hHA : H.Width = A.Height)
    (hdl : dl = DiagonalLength H.Height H.Width offset) (htH : t.Height = dl)
    (htW : 1 ≤ t.Width) (_hb : 1 ≤ bsize) (hk : k < dl) (hnb : nb = min bsize (dl - k))
    (hiOff : iOff = if offset ≥ 0 then 0 else (-offset).toNat)
    (hjOff : jOff = if offset ≥ 0 then offset.toNat else 0) :
    ∃ HPan ATop t1,
      H.View (k + iOff) (k + iOff + nb) 0 (k + jOff + nb) = .ok HPan ∧
      A.View 0 (k + nb) 0 A.Width = .ok ATop ∧
      t.View k (k + nb) 0 1 = .ok t1 ∧
      HPan.Width = k + jOff + nb ∧ ATop.Height = k + nb ∧
      (HPan.Width = ATop.Height ↔ offset ≤ 0) ∧
      (offset ≤ 0 → ∃ out, LLHFPanel conjugation iOff jOff H t A.Width k nb A = .ok out) ∧
      (0 < offset → LLHFPanel conjugation iOff jOff H t A.Width k nb A =
        .error (.LogicError "Nonconformal Gemm")) := by
  have hd : dl = if 0 < offset then min H.Height (H.Width - offset.toNat)
      else min (H.Height - (-offset).toNat) H.Width := hdl
  have hviews : k + iOff + nb ≤ H.Height ∧ k + jOff + nb ≤ H.Width ∧ k + nb ≤ A.Height ∧
      k + nb ≤ t.Height ∧ (jOff = 0 ↔ offset ≤ 0) := by
    by_cases hoff : 0 < offset
    · have hpos : offset ≥ 0 := by omega
      rw [if_pos hoff] at hd
      rw [if_pos hpos] at hiOff hjOff
      omega
    · rw [if_neg hoff] at hd
      by_cases h0 : offset ≥ 0
      · rw [if_pos h0] at hiOff hjOff
        omega
      · rw [if_neg h0] at hiOff hjOff
        omega
  obtain ⟨h1, h2, h3, h4, h5⟩ := hviews
  have hH := Matrix_View_ok H (k + iOff) (k + iOff + nb) 0 (k + jOff + nb) (by omega)
  have hA := Matrix_View_ok A 0 (k + nb) 0 A.Width (by omega)
  have ht := Matrix_View_ok t k (k + nb) 0 1 (by omega)
  refine ⟨_, _, _, hH, hA, ht, Nat.sub_zero _, Nat.sub_zero _, ?_, ?_, ?_⟩
  · show k + jOff + nb - 0 = k + nb - 0 ↔ _
    omega
  · intro hle
    have hj0 : jOff = 0 := h5.mpr hle
    subst hj0
    exact ⟨_, LLHFPanel_eq conjugation iOff H t A k nb (by omega) (by omega) hHA.symm h4 htW⟩
  · intro hpos
    have hj1 : 1 ≤ jOff := by omega
    unfold LLHFPanel
    dsimp only
    rw [hH, hA, ht]
    simp only [bind, Except.bind]
    unfold GemmNormalNormal
    rw [if_neg]
    show ¬ (k + jOff + nb - 0 = k + nb - 0)
    omega

/-- Witness for C11 with a positive offset: `H` of order 2, offset 1 (diagonal length 1),
block size 1; the views are in range, `HPan` has two columns and `ATop` one row, and the
panel step and the whole call stop at the first product. -/
theorem C11_panel_views_witness :
    (exampleH.Width = exampleB.Height ∧ 1 = DiagonalLength exampleH.Height exampleH.Width 1 ∧
      (Zeros 1 1 : Matrix GaussRat).Height = 1 ∧ 1 ≤ (Zeros 1 1 : Matrix GaussRat).Width ∧
      1 ≤ 1 ∧ 0 < 1 ∧ 1 = min 1 (1 - 0) ∧
      0 = (if (1 : Int) ≥ 0 then 0 else (-(1 : Int)).toNat) ∧
      1 = (if (1 : Int) ≥ 0 then (1 : Int).toNat else 0)) ∧
    (∃ HPan ATop t1,
      exampleH.View (0 + 0) (0 + 0 + 1) 0 (0 + 1 + 1) = .ok HPan ∧
      exampleB.View 0 (0 + 1) 0 exampleB.Width = .ok ATop ∧
      (Zeros 1 1 : Matrix GaussRat).View 0 (0 + 1) 0 1 = .ok t1 ∧
      HPan.Width = 0 + 1 + 1 ∧ ATop.Height = 0 + 1 ∧
      (HPan.Width = ATop.Height ↔ (1 : Int) ≤ 0) ∧
      ((1 : Int) ≤ 0 → ∃ out, LLHFPanel Conjugation.CONJUGATED 0 1 exampleH (Zeros 1 1)
        exampleB.Width 0 1 exampleB = .ok out) ∧
      ((0 : Int) < 1 → LLHFPanel Conjugation.CONJUGATED 0 1 exampleH (Zeros 1 1)
        exampleB.Width 0 1 exampleB = .error (.LogicError "Nonconformal Gemm"))) ∧
    LLHF true 2 1 Conjugation.CONJUGATED 1 exampleH (Zeros 1 1) exampleB =
      .error (.LogicError "Nonconformal Gemm") :=
  ⟨⟨rfl, rfl, rfl, le_refl _, le_refl _, by decide, rfl, rfl, rfl⟩,
    C11_panel_views Conjugation.CONJUGATED 1 exampleH (Zeros 1 1) exampleB 1 0 1 1 0 1 rfl rfl
      rfl (le_refl _) (le_refl _) (by decide) rfl rfl rfl,
    rfl⟩

end apply_packed_reflectors


namespace ldl

/-! ## C12: the panel vectors handed to the local factorization -/

/-- On a grid with one row of workers the local matrix of an `[MC,STAR]` matrix is the
whole matrix. -/
theorem LocalMatrixMCSTAR_one_row {α : Type} (k p : Nat) (X : Matrix α) :
    (LocalMatrixMCSTAR 1 (k % 1) p X).Height = X.Height := by
  show LocalLength X.Height (Shift p (k % 1) 1) 1 = X.Height
  unfold Shift LocalLength
  rw [Nat.mod_one, Nat.div_one]
  split_ifs <;> omega

/-- The worker row next to the one that owns the first row of the panel starts at the
second row of the panel. -/
theorem Shift_next_row (k r : Nat) (hr : 2 ≤ r) : Shift ((k % r + 1) % r) (k % r) r = 1 := by
  have ha : k % r < r := Nat.mod_lt k (by omega)
  unfold Shift
  by_cases h : k % r + 1 < r
  · rw [Nat.mod_eq_of_lt h]
    have e : k % r + 1 + r - k % r = 1 + r := by omega
    rw [e, Nat.add_mod_right, Nat.mod_eq_of_lt (by omega)]
  · have e : k % r + 1 = r := by omega
    rw [e, Nat.mod_self]
    have e2 : 0 + r - k % r = 1 := by omega
    rw [e2, Nat.mod_eq_of_lt (by omega)]

/-- C12 fails on every grid with at least two rows of workers. For a panel of width
`nb >= 1` starting at row `k`, the local matrices of `pivSign1_STAR_STAR` and
`reg1_STAR_STAR` (declared `[MC,STAR]`, aligned at `k % r`) on the worker row
`(k % r + 1) % r` have fewer than `nb` rows, while the replicated `A11_STAR_STAR` has
`nb`: the index range `[0, nb)` of the local kernel is not in bounds there. -/
theorem C12_local_panel_vectors_short {R : Type} (r k nb : Nat)
    (pivSign1 : Matrix Int) (reg1 : Matrix R) (hr : 2 ≤ r) (hnb : 1 ≤ nb)
    (hp : pivSign1.Height = nb) (hreg : reg1.Height = nb) :
    ∃ p, p < r ∧ (LocalMatrixMCSTAR r (k % r) p pivSign1).Height < nb ∧
      (LocalMatrixMCSTAR r (k % r) p reg1).Height < nb := by
  have hlen : LocalLength nb 1 r < nb := by
    unfold LocalLength
    split_ifs with h
    · have := Nat.div_le_self (nb - 1 - 1) r
      omega
    · omega
  refine ⟨(k % r + 1) % r, Nat.mod_lt _ (by omega), ?_, ?_⟩
  · show LocalLength pivSign1.Height (Shift ((k % r + 1) % r) (k % r) r) r < nb
    rw [Shift_next_row k r hr, hp]
    exact hlen
  · show LocalLength reg1.Height (Shift ((k % r + 1) % r) (k % r) r) r < nb
    rw [Shift_next_row k r hr, hreg]
    exact hlen

/-- Witness for C12 on the `2 x 1` grid, first panel of width 2 of a matrix of order 2:
both workers hold one row of each vector, and the local panel factorization of the
second worker row fails on its view of them. -/
theorem C12_local_panel_vectors_short_witness :
    (2 ≤ 2 ∧ 1 ≤ 2 ∧ (onesSign 2).Height = 2 ∧ (Zeros 2 1 : Matrix ℚ).Height = 2) ∧
    (∃ p, p < 2 ∧ (LocalMatrixMCSTAR 2 (0 % 2) p (onesSign 2)).Height < 2 ∧
      (LocalMatrixMCSTAR 2 (0 % 2) p (Zeros 2 1 : Matrix ℚ)).Height < 2) ∧
    ((LocalMatrixMCSTAR 2 (0 % 2) 0 (Zeros 2 1 : Matrix ℚ)).Height = 1 ∧
      (LocalMatrixMCSTAR 2 (0 % 2) 1 (Zeros 2 1 : Matrix ℚ)).Height = 1 ∧
      examplePosDef.Height = 2) ∧
    DistLocalPanel true 3 2 ⟨2, 1⟩ (0 : ℚ) 1 0 1 examplePosDef (onesSign 2) (Zeros 2 1) =
      .error (.LogicError "view out of bounds") :=
  ⟨⟨le_refl _, by decide, rfl, rfl⟩,
    C12_local_panel_vectors_short 2 0 2 (onesSign 2) (Zeros 2 1 : Matrix ℚ) (le_refl _)
      (by decide) rfl rfl,
    ⟨rfl, rfl, rfl⟩, rfl⟩

variable {F R : Type} [Field F] [LinearOrderedField R] [Scalar F R]

/-! ## C13: the serial blocked routine does not create `reg` -/

/-- C13 fails whenever the caller's `reg` is shorter than the first panel or has no
column (an empty `reg` in particular). For a square `A` of order `n >= 1`, a conforming
`pivSign` and block size `bsize >= 1`, the serial blocked `RegularizedVar3` takes the
view `reg( [0, nb), [0, 1) )` of the `reg` it was given and returns no factorization,
while `RegularizedVar3Unb` on the same arguments returns a `reg` of shape `n x 1`. -/
theorem C13_blocked_does_not_size_reg (debug : Bool) (fuel bsize : Nat) (A : Matrix F)
    (pivTol regMag : R) (pivSign : Matrix Int) (reg : Matrix R) (hsq : A.Height = A.Width)
    (hpiv : pivSign.Height = A.Height ∧ pivSign.Width = 1) (hn : 1 ≤ A.Height)
    (hb : 1 ≤ bsize) (hshort : reg.Height < min bsize A.Height ∨ reg.Width = 0) :
    (∀ out, RegularizedVar3 debug fuel bsize A pivTol regMag pivSign reg ≠ .ok out) ∧
    (fuel ≠ 0 → RegularizedVar3 debug fuel bsize A pivTol regMag pivSign reg =
      .error (.LogicError "view out of bounds")) ∧
    ∃ A' reg', RegularizedVar3Unb debug A pivTol regMag pivSign reg = .ok (A', reg') ∧
      reg'.Height = A.Height ∧ reg'.Width = 1 := by
  obtain ⟨hp1, hp2⟩ := hpiv
  have hrun : ∀ f, RegularizedVar3 debug (f + 1) bsize A pivTol regMag pivSign reg =
      .error (.LogicError "view out of bounds") := by
    intro f
    unfold RegularizedVar3
    rw [if_neg (by simp [hsq])]
    simp only
    unfold blockedLoop
    rw [if_pos (by omega)]
    unfold RegularizedVar3Panel
    dsimp only
    rw [Matrix_View_ok A 0 (0 + min bsize (A.Height - 0)) 0 (0 + min bsize (A.Height - 0))
        (by omega),
      Matrix_View_ok A (0 + min bsize (A.Height - 0)) A.Height 0 (0 + min bsize (A.Height - 0))
        (by omega),
      Matrix_View_ok A (0 + min bsize (A.Height - 0)) A.Height (0 + min bsize (A.Height - 0))
        A.Height (by omega),
      Matrix_View_ok pivSign 0 (0 + min bsize (A.Height - 0)) 0 1 (by omega)]
    simp only [bind, Except.bind]
    unfold Matrix.View
    rw [if_neg (by omega)]
  refine ⟨?_, ?_, (UnbState A pivTol regMag pivSign A.Height).1,
    (UnbState A pivTol regMag pivSign A.Height).2,
    RegularizedVar3Unb_ok debug A pivTol regMag pivSign reg hsq ⟨hp1, hp2⟩,
    UnbState_snd_Height A pivTol regMag pivSign A.Height⟩
  · intro out
    cases fuel with
    | zero =>
      unfold RegularizedVar3
      rw [if_neg (by simp [hsq])]
      intro h
      cases h
    | succ f =>
      rw [hrun f]
      intro h
      cases h
  · intro hf
    obtain ⟨f, rfl⟩ : ∃ f, fuel = f + 1 := ⟨fuel - 1, by omega⟩
    exact hrun f

/-- Witness for C13: `[[2, 1], [1, 2]]` with an empty `reg`, block size 2. The distributed
overload on the `1 x 1` grid sizes `reg` itself, as `RegularizedVar3Unb` does; the serial
blocked routine given a `3 x 2` matrix filled with `5` returns it with that shape and with
rows it never wrote. -/
theorem C13_blocked_does_not_size_reg_witness :
    (examplePosDef.Height = examplePosDef.Width ∧
      ((onesSign 2).Height = examplePosDef.Height ∧ (onesSign 2).Width = 1) ∧
      1 ≤ examplePosDef.Height ∧ 1 ≤ 2 ∧
      ((Zeros 0 0 : Matrix ℚ).Height < min 2 examplePosDef.Height ∨
        (Zeros 0 0 : Matrix ℚ).Width = 0)) ∧
    ((∀ out, RegularizedVar3 true 3 2 examplePosDef (0 : ℚ) 1 (onesSign 2) (Zeros 0 0)
        ≠ .ok out) ∧
      (3 ≠ 0 → RegularizedVar3 true 3 2 examplePosDef (0 : ℚ) 1 (onesSign 2) (Zeros 0 0) =
        .error (.LogicError "view out of bounds")) ∧
      ∃ A' reg', RegularizedVar3Unb true examplePosDef (0 : ℚ) 1 (onesSign 2) (Zeros 0 0)
          = .ok (A', reg') ∧
        reg'.Height = examplePosDef.Height ∧ reg'.Width = 1) ∧
    (∃ A' reg', DistRegularizedVar3 true 3 2 ⟨1, 1⟩ examplePosDef (0 : ℚ) 1 (onesSign 2)
        (Zeros 0 0) = .ok (A', reg') ∧ reg'.Height = 2 ∧ reg'.Width = 1) ∧
    (∃ A' reg', RegularizedVar3 true 3 2 examplePosDef (0 : ℚ) 1 (onesSign 2)
        ⟨3, 2, fun _ _ => 5⟩ = .ok (A', reg') ∧
      reg'.Height = 3 ∧ reg'.Width = 2 ∧ reg'.Get 2 0 = 5 ∧ reg'.Get 0 1 = 5) :=
  ⟨⟨rfl, ⟨rfl, rfl⟩, by decide, by decide, Or.inr rfl⟩,
    C13_blocked_does_not_size_reg true 3 2 examplePosDef 0 1 (onesSign 2) (Zeros 0 0) rfl
      ⟨rfl, rfl⟩ (by decide) (by decide) (Or.inr rfl),
    ⟨_, _, rfl, rfl, rfl⟩, ⟨_, _, rfl, rfl, rfl, by decide!, by decide!⟩⟩

end ldl


/-! ## Loops that accumulate a sum -/

/-- A loop whose body adds a term to the accumulator computes the sum of the terms. -/
theorem forLoop_acc {M : Type} [AddCommMonoid M] (lo : Nat) (body : Nat → M → M)
    (f : Nat → M) (hbody : ∀ i acc, body i acc = acc + f i) (cnt : Nat) (init : M) :
    forLoop lo body cnt init = init + ∑ t ∈ Finset.range cnt, f (lo + t) := by
  induction cnt with
  | zero => simp [forLoop]
  | succ cnt ih =>
    rw [forLoop_succ, hbody, ih, Finset.sum_range_succ, add_assoc]

namespace ldl

/-! ## Indices owned by a worker -/

/-- Closed form of `LocalLength` for a shift below the stride. -/
theorem LocalLength_eq (m p r : Nat) (hp : p < r) :
    LocalLength m p r = m / r + (if p < m % r then 1 else 0) := by
  have hr : 0 < r := by omega
  have hdm := Nat.div_add_mod m r
  have hs := Nat.mod_lt m hr
  unfold LocalLength
  generalize hq : m / r = q at *
  generalize hsd : m % r = s at *
  by_cases hps : p < s
  · rw [if_pos (by omega), if_pos hps]
    have h1 : (m - p - 1) / r = q := by
      apply Nat.div_eq_of_lt_le
      · rw [Nat.mul_comm]; omega
      · rw [Nat.succ_mul, Nat.mul_comm]; omega
    rw [h1]
  · rw [if_neg hps, Nat.add_zero]
    by_cases hq0 : q = 0
    · subst hq0
      rw [if_neg (by omega)]
    · obtain ⟨q', rfl⟩ : ∃ q', q = q' + 1 := ⟨q - 1, by omega⟩
      have hmul : r * (q' + 1) = r * q' + r := by rw [Nat.mul_succ]
      rw [if_pos (by omega)]
      have h1 : (m - p - 1) / r = q' := by
        apply Nat.div_eq_of_lt_le
        · rw [Nat.mul_comm]; omega
        · rw [Nat.succ_mul, Nat.mul_comm]; omega
      rw [h1]

/-- One more index: the worker that owns index `m` gets one more local index. -/
theorem LocalLength_succ (m p r : Nat) (hp : p < r) :
    LocalLength (m + 1) p r = LocalLength m p r + (if m % r = p then 1 else 0) := by
  have hr : 0 < r := by omega
  rw [LocalLength_eq (m + 1) p r hp, LocalLength_eq m p r hp]
  have hdm := Nat.div_add_mod m r
  have hs := Nat.mod_lt m hr
  by_cases hlast : m % r + 1 < r
  · have h1 : (m + 1) / r = m / r := by
      apply Nat.div_eq_of_lt_le
      · rw [Nat.mul_comm]; omega
      · rw [Nat.succ_mul, Nat.mul_comm]; omega
    have h2 : (m + 1) % r = m % r + 1 := by
      have := Nat.div_add_mod (m + 1) r
      rw [h1] at this
      omega
    rw [h1, h2]
    split_ifs <;> omega
  · have h1 : (m + 1) / r = m / r + 1 := by
      apply Nat.div_eq_of_lt_le
      · rw [Nat.succ_mul, Nat.mul_comm]; omega
      · rw [Nat.succ_mul, Nat.succ_mul, Nat.mul_comm]; omega
    have h2 : (m + 1) % r = 0 := by
      have := Nat.div_add_mod (m + 1) r
      rw [h1, Nat.mul_succ] at this
      omega
    rw [h1, h2]
    split_ifs <;> omega

/-- The local index of `m` on the worker that owns it. -/
theorem LocalLength_owner (m r : Nat) (hr : 0 < r) :
    m % r + LocalLength m (m % r) r * r = m := by
  rw [LocalLength_eq m (m % r) r (Nat.mod_lt m hr), if_neg (lt_irrefl _), Nat.add_zero]
  have := Nat.div_add_mod m r
  rw [Nat.mul_comm] at this
  omega

theorem LocalLength_mono (m n p r : Nat) (hp : p < r) (hmn : m ≤ n) :
    LocalLength m p r ≤ LocalLength n p r := by
  induction n with
  | zero =>
    have : m = 0 := by omega
    rw [this]
  | succ n ih =>
    by_cases h : m = n + 1
    · rw [h]
    · have := ih (by omega)
      rw [LocalLength_succ n p r hp]
      omega

/-- The local indices of all workers, taken together, are the indices below `m`, each
once: a sum over the workers of sums over local indices is the sum over `[0, m)`. -/
theorem sum_owned {M : Type} [AddCommMonoid M] (r : Nat) (hr : 0 < r) (f : Nat → M)
    (m : Nat) :
    ∑ p ∈ Finset.range r, ∑ t ∈ Finset.range (LocalLength m p r), f (p + t * r) =
      ∑ i ∈ Finset.range m, f i := by
  induction m with
  | zero =>
    rw [Finset.sum_range_zero]
    apply Finset.sum_eq_zero
    intro p hp
    have : LocalLength 0 p r = 0 := by
      unfold LocalLength
      rw [if_neg (by omega)]
    rw [this, Finset.sum_range_zero]
  | succ m ih =>
    rw [Finset.sum_range_succ, ← ih]
    have hstep : ∀ p ∈ Finset.range r,
        ∑ t ∈ Finset.range (LocalLength (m + 1) p r), f (p + t * r) =
          ∑ t ∈ Finset.range (LocalLength m p r), f (p + t * r) +
            (if m % r = p then f m else 0) := by
      intro p hp
      rw [Finset.mem_range] at hp
      rw [LocalLength_succ m p r hp]
      by_cases h : m % r = p
      · rw [if_pos h, if_pos h, Finset.sum_range_succ]
        congr 1
        rw [← h, LocalLength_owner m r hr]
      · rw [if_neg h, if_neg h, Nat.add_zero, add_zero]
    rw [Finset.sum_congr rfl hstep, Finset.sum_add_distrib, Finset.sum_ite_eq,
      if_pos (Finset.mem_range.mpr (Nat.mod_lt m hr))]

/-- The shifts of the workers of a grid dimension are the residues `0, ..., r-1`, each
once. -/
theorem sum_Shift {M : Type} [AddCommMonoid M] (r a : Nat) (ha : a < r) (G : Nat → M) :
    ∑ p ∈ Finset.range r, G (Shift p a r) = ∑ s ∈ Finset.range r, G s := by
  have hfwd : ∀ p, p < r → (Shift p a r + a) % r = p := by
    intro p hp
    unfold Shift
    by_cases h : a ≤ p
    · have e : p + r - a = (p - a) + r := by omega
      have h1 : (p + r - a) % r = p - a := by
        rw [e, Nat.add_mod_right]
        exact Nat.mod_eq_of_lt (by omega)
      rw [h1, Nat.sub_add_cancel h]
      exact Nat.mod_eq_of_lt hp
    · have h1 : (p + r - a) % r = p + r - a := Nat.mod_eq_of_lt (by omega)
      have e : p + r - a + a = p + r := by omega
      rw [h1, e, Nat.add_mod_right]
      exact Nat.mod_eq_of_lt hp
  have hbwd : ∀ s, s < r → Shift ((s + a) % r) a r = s := by
    intro s hs
    unfold Shift
    by_cases h : s + a < r
    · have h1 : (s + a) % r = s + a := Nat.mod_eq_of_lt h
      have e : s + a + r - a = s + r := by omega
      rw [h1, e, Nat.add_mod_right]
      exact Nat.mod_eq_of_lt hs
    · have e : s + a = (s + a - r) + r := by omega
      have h1 : (s + a) % r = s + a - r := by
        have h2 : (s + a - r + r) % r = s + a - r := by
          rw [Nat.add_mod_right]
          exact Nat.mod_eq_of_lt (by omega)
        rw [← e] at h2
        exact h2
      have e2 : s + a - r + r - a = s := by omega
      rw [h1, e2]
      exact Nat.mod_eq_of_lt hs
  apply Finset.sum_nbij' (fun p => Shift p a r) (fun s => (s + a) % r)
  · intro p _
    exact Finset.mem_range.mpr (Nat.mod_lt _ (by omega))
  · intro s _
    exact Finset.mem_range.mpr (Nat.mod_lt _ (by omega))
  · intro p hp
    exact hfwd p (Finset.mem_range.mp hp)
  · intro s hs
    exact hbwd s (Finset.mem_range.mp hs)
  · intro p _
    rfl

end ldl

/-- A sum over `[0, n)` restricted to the indices up to `j`. -/
theorem sum_range_ite_le {M : Type} [AddCommMonoid M] (f : Nat → M) (j n : Nat) (hj : j < n) :
    ∑ i ∈ Finset.range n, (if i ≤ j then f i else 0) = ∑ i ∈ Finset.range (j + 1), f i := by
  have hsub : Finset.range (j + 1) ⊆ Finset.range n := Finset.range_subset.mpr (by omega)
  rw [← Finset.sum_subset hsub]
  · apply Finset.sum_congr rfl
    intro i hi
    rw [if_pos (by have := Finset.mem_range.mp hi; omega)]
  · intro i _ hi
    rw [Finset.mem_range] at hi
    rw [if_neg (by omega)]

/-- A sum over `[0, n)` restricted to the indices from `j` on. -/
theorem sum_range_ite_ge {M : Type} [AddCommMonoid M] (f : Nat → M) (j n : Nat) (hj : j ≤ n) :
    ∑ i ∈ Finset.range n, (if j ≤ i then f i else 0) =
      ∑ t ∈ Finset.range (n - j), f (j + t) := by
  obtain ⟨d, rfl⟩ : ∃ d, n = j + d := ⟨n - j, by omega⟩
  rw [Finset.sum_range_add, Nat.add_sub_cancel_left]
  have h0 : ∑ i ∈ Finset.range j, (if j ≤ i then f i else 0) = 0 := by
    apply Finset.sum_eq_zero
    intro i hi
    rw [if_neg (by have := Finset.mem_range.mp hi; omega)]
  rw [h0, zero_add]
  apply Finset.sum_congr rfl
  intro t _
  rw [if_pos (by omega)]

namespace ldl

/-- A local index below `LocalLength` names a global index below `m`. -/
theorem LocalLength_lt (m p r t : Nat) (hr : 0 < r) (ht : t < LocalLength m p r) :
    p + t * r < m := by
  unfold LocalLength at ht
  by_cases h : p < m
  · rw [if_pos h] at ht
    have h1 : t ≤ (m - p - 1) / r := by omega
    have h2 := (Nat.le_div_iff_mul_le hr).mp h1
    omega
  · rw [if_neg h] at ht
    omega

/-- The local indices from `LocalLength j` on, of all workers taken together, are the
indices of `[j, n)`, each once. -/
theorem sum_owned_from {M : Type} [AddCancelCommMonoid M] (r : Nat) (hr : 0 < r) (f : Nat → M)
    (j n : Nat) (hjn : j ≤ n) :
    ∑ p ∈ Finset.range r, ∑ t ∈ Finset.range (LocalLength n p r - LocalLength j p r),
        f (p + (LocalLength j p r + t) * r) =
      ∑ t ∈ Finset.range (n - j), f (j + t) := by
  have hn := sum_owned r hr f n
  have hj := sum_owned r hr f j
  have hsplit : ∀ p ∈ Finset.range r,
      ∑ t ∈ Finset.range (LocalLength n p r), f (p + t * r) =
        ∑ t ∈ Finset.range (LocalLength j p r), f (p + t * r) +
          ∑ t ∈ Finset.range (LocalLength n p r - LocalLength j p r),
            f (p + (LocalLength j p r + t) * r) := by
    intro p hp
    have hle := LocalLength_mono j n p r (Finset.mem_range.mp hp) hjn
    have e : LocalLength n p r = LocalLength j p r + (LocalLength n p r - LocalLength j p r) := by
      omega
    nth_rewrite 1 [e]
    rw [Finset.sum_range_add]
  rw [Finset.sum_congr rfl hsplit, Finset.sum_add_distrib, hj] at hn
  have e : n = j + (n - j) := by omega
  nth_rewrite 2 [e] at hn
  rw [Finset.sum_range_add] at hn
  exact add_left_cancel hn

end ldl

/-! ## The loop nest of the distributed norm as a sum -/

section LocalLoops

variable {F M : Type} [AddCancelCommMonoid M] (A : DistMatrix F)

/-- The loop nest of a worker for `UPPER` adds up the terms of the entries it visits. -/
theorem HermitianLocalLoops_UPPER (p q : Nat) (body : Nat → Nat → Nat → Nat → M → M)
    (T : Nat → Nat → M)
    (hbody : ∀ iLocal jLocal acc,
      body iLocal jLocal (A.ColShift p + iLocal * A.Grid.Height)
        (A.RowShift q + jLocal * A.Grid.Width) acc =
      acc + T (A.ColShift p + iLocal * A.Grid.Height) (A.RowShift q + jLocal * A.Grid.Width)) :
    HermitianLocalLoops UpperOrLower.UPPER A p q body 0 =
      ∑ jLocal ∈ Finset.range (A.LocalWidth q),
        ∑ iLocal ∈ Finset.range
            (ldl.LocalLength (A.RowShift q + jLocal * A.Grid.Width + 1) (A.ColShift p)
              A.Grid.Height),
          T (A.ColShift p + iLocal * A.Grid.Height) (A.RowShift q + jLocal * A.Grid.Width) := by
  unfold HermitianLocalLoops
  simp only [if_true]
  rw [forLoop_acc 0 _
    (fun jLocal => ∑ iLocal ∈ Finset.range
      (ldl.LocalLength (A.RowShift q + jLocal * A.Grid.Width + 1) (A.ColShift p) A.Grid.Height),
      T (A.ColShift p + iLocal * A.Grid.Height) (A.RowShift q + jLocal * A.Grid.Width)),
    zero_add]
  · apply Finset.sum_congr rfl
    intro jLocal _
    rw [Nat.zero_add]
  · intro jLocal acc
    rw [forLoop_acc 0 _
      (fun iLocal =>
        T (A.ColShift p + iLocal * A.Grid.Height) (A.RowShift q + jLocal * A.Grid.Width))
      (fun iLocal acc => hbody iLocal jLocal acc)]
    congr 1
    apply Finset.sum_congr rfl
    intro iLocal _
    rw [Nat.zero_add]

/-- The loop nest of a worker for `LOWER` adds up the terms of the entries it visits. -/
theorem HermitianLocalLoops_LOWER (p q : Nat) (body : Nat → Nat → Nat → Nat → M → M)
    (T : Nat → Nat → M)
    (hbody : ∀ iLocal jLocal acc,
      body iLocal jLocal (A.ColShift p + iLocal * A.Grid.Height)
        (A.RowShift q + jLocal * A.Grid.Width) acc =
      acc + T (A.ColShift p + iLocal * A.Grid.Height) (A.RowShift q + jLocal * A.Grid.Width)) :
    HermitianLocalLoops UpperOrLower.LOWER A p q body 0 =
      ∑ jLocal ∈ Finset.range (A.LocalWidth q),
        ∑ t ∈ Finset.range (A.LocalHeight p -
            ldl.LocalLength (A.RowShift q + jLocal * A.Grid.Width) (A.ColShift p) A.Grid.Height),
          T (A.ColShift p +
              (ldl.LocalLength (A.RowShift q + jLocal * A.Grid.Width) (A.ColShift p)
                A.Grid.Height + t) * A.Grid.Height)
            (A.RowShift q + jLocal * A.Grid.Width) := by
  unfold HermitianLocalLoops
  have hne : ¬ (UpperOrLower.LOWER = UpperOrLower.UPPER) := by decide
  simp only [if_neg hne]
  rw [forLoop_acc 0 _
    (fun jLocal => ∑ t ∈ Finset.range (A.LocalHeight p -
        ldl.LocalLength (A.RowShift q + jLocal * A.Grid.Width) (A.ColShift p) A.Grid.Height),
      T (A.ColShift p +
          (ldl.LocalLength (A.RowShift q + jLocal * A.Grid.Width) (A.ColShift p)
            A.Grid.Height + t) * A.Grid.Height)
        (A.RowShift q + jLocal * A.Grid.Width)),
    zero_add]
  · apply Finset.sum_congr rfl
    intro jLocal _
    rw [Nat.zero_add]
  · intro jLocal acc
    rw [forLoop_acc _ _
      (fun iLocal =>
        T (A.ColShift p + iLocal * A.Grid.Height) (A.RowShift q + jLocal * A.Grid.Width))
      (fun iLocal acc => hbody iLocal jLocal acc)]

/-- The shifts of the workers of the grid run over all pairs of residues. -/
theorem sum_Shift2 {M : Type} [AddCommMonoid M] (r a c b : Nat) (ha : a < r) (hb : b < c)
    (G : Nat → Nat → M) :
    ∑ p ∈ Finset.range r, ∑ q ∈ Finset.range c, G (ldl.Shift p a r) (ldl.Shift q b c) =
      ∑ s ∈ Finset.range r, ∑ s' ∈ Finset.range c, G s s' :=
  (Finset.sum_congr rfl
    (fun p _ => ldl.sum_Shift c b hb (fun s' => G (ldl.Shift p a r) s'))).trans
    (ldl.sum_Shift r a ha (fun s => ∑ s' ∈ Finset.range c, G s s'))

/-- All workers together: the loop nests visit the entries `(i, j)` of the selected
triangle of the `n x n` matrix, diagonal included, each once, and nothing else; the terms
they add up are those of the triangle. -/
theorem HermitianLocalLoops_total (uplo : UpperOrLower) (hsq : A.Value.Height = A.Value.Width)
    (hca : A.ColAlignment < A.Grid.Height) (hra : A.RowAlignment < A.Grid.Width)
    (body : Nat → Nat → Nat → Nat → Nat → Nat → M → M) (T : Nat → Nat → M)
    (hbody : ∀ p q iLocal jLocal acc,
      body p q iLocal jLocal (A.ColShift p + iLocal * A.Grid.Height)
        (A.RowShift q + jLocal * A.Grid.Width) acc =
      acc + T (A.ColShift p + iLocal * A.Grid.Height) (A.RowShift q + jLocal * A.Grid.Width)) :
    ∑ p ∈ Finset.range A.Grid.Height, ∑ q ∈ Finset.range A.Grid.Width,
        HermitianLocalLoops uplo A p q (body p q) 0 =
      ∑ j ∈ Finset.range A.Value.Width, ∑ i ∈ Finset.range A.Value.Height,
        if (uplo = UpperOrLower.UPPER ∧ i ≤ j) ∨ (uplo = UpperOrLower.LOWER ∧ j ≤ i) then T i j
        else 0 := by
  have hr : 0 < A.Grid.Height := by omega
  have hc : 0 < A.Grid.Width := by omega
  cases uplo with
  | UPPER =>
    have htot : ∑ p ∈ Finset.range A.Grid.Height, ∑ q ∈ Finset.range A.Grid.Width,
        HermitianLocalLoops UpperOrLower.UPPER A p q (body p q) 0 =
        ∑ s ∈ Finset.range A.Grid.Height, ∑ s' ∈ Finset.range A.Grid.Width,
          ∑ jLocal ∈ Finset.range (ldl.LocalLength A.Value.Width s' A.Grid.Width),
            ∑ iLocal ∈ Finset.range
                (ldl.LocalLength (s' + jLocal * A.Grid.Width + 1) s A.Grid.Height),
              T (s + iLocal * A.Grid.Height) (s' + jLocal * A.Grid.Width) :=
      (Finset.sum_congr rfl (fun p _ => Finset.sum_congr rfl (fun q _ =>
        HermitianLocalLoops_UPPER A p q (body p q) T (hbody p q)))).trans
        (sum_Shift2 A.Grid.Height A.ColAlignment A.Grid.Width A.RowAlignment hca hra
          (fun s s' => ∑ jLocal ∈ Finset.range (ldl.LocalLength A.Value.Width s' A.Grid.Width),
            ∑ iLocal ∈ Finset.range
                (ldl.LocalLength (s' + jLocal * A.Grid.Width + 1) s A.Grid.Height),
              T (s + iLocal * A.Grid.Height) (s' + jLocal * A.Grid.Width)))
    have hstep : ∀ s' ∈ Finset.range A.Grid.Width,
        ∑ s ∈ Finset.range A.Grid.Height,
          ∑ jLocal ∈ Finset.range (ldl.LocalLength A.Value.Width s' A.Grid.Width),
            ∑ iLocal ∈ Finset.range
                (ldl.LocalLength (s' + jLocal * A.Grid.Width + 1) s A.Grid.Height),
              T (s + iLocal * A.Grid.Height) (s' + jLocal * A.Grid.Width) =
        ∑ jLocal ∈ Finset.range (ldl.LocalLength A.Value.Width s' A.Grid.Width),
          ∑ i ∈ Finset.range A.Value.Height,
            if i ≤ s' + jLocal * A.Grid.Width then T i (s' + jLocal * A.Grid.Width) else 0 := by
      intro s' _
      rw [Finset.sum_comm]
      apply Finset.sum_congr rfl
      intro jLocal hj
      have hlt := ldl.LocalLength_lt A.Value.Width s' A.Grid.Width jLocal hc
        (Finset.mem_range.mp hj)
      rw [sum_range_ite_le (fun i => T i (s' + jLocal * A.Grid.Width)) _ A.Value.Height
        (by omega)]
      exact ldl.sum_owned A.Grid.Height hr (fun i => T i (s' + jLocal * A.Grid.Width))
        (s' + jLocal * A.Grid.Width + 1)
    rw [htot, Finset.sum_comm, Finset.sum_congr rfl hstep]
    refine (ldl.sum_owned A.Grid.Width hc
      (fun j => ∑ i ∈ Finset.range A.Value.Height, if i ≤ j then T i j else 0)
      A.Value.Width).trans ?_
    apply Finset.sum_congr rfl
    intro j _
    apply Finset.sum_congr rfl
    intro i _
    simp
  | LOWER =>
    have htot : ∑ p ∈ Finset.range A.Grid.Height, ∑ q ∈ Finset.range A.Grid.Width,
        HermitianLocalLoops UpperOrLower.LOWER A p q (body p q) 0 =
        ∑ s ∈ Finset.range A.Grid.Height, ∑ s' ∈ Finset.range A.Grid.Width,
          ∑ jLocal ∈ Finset.range (ldl.LocalLength A.Value.Width s' A.Grid.Width),
            ∑ t ∈ Finset.range (ldl.LocalLength A.Value.Height s A.Grid.Height -
                ldl.LocalLength (s' + jLocal * A.Grid.Width) s A.Grid.Height),
              T (s + (ldl.LocalLength (s' + jLocal * A.Grid.Width) s A.Grid.Height + t)
                  * A.Grid.Height)
                (s' + jLocal * A.Grid.Width) :=
      (Finset.sum_congr rfl (fun p _ => Finset.sum_congr rfl (fun q _ =>
        HermitianLocalLoops_LOWER A p q (body p q) T (hbody p q)))).trans
        (sum_Shift2 A.Grid.Height A.ColAlignment A.Grid.Width A.RowAlignment hca hra
          (fun s s' => ∑ jLocal ∈ Finset.range (ldl.LocalLength A.Value.Width s' A.Grid.Width),
            ∑ t ∈ Finset.range (ldl.LocalLength A.Value.Height s A.Grid.Height -
                ldl.LocalLength (s' + jLocal * A.Grid.Width) s A.Grid.Height),
              T (s + (ldl.LocalLength (s' + jLocal * A.Grid.Width) s A.Grid.Height + t)
                  * A.Grid.Height)
                (s' + jLocal * A.Grid.Width)))
    have hstep : ∀ s' ∈ Finset.range A.Grid.Width,
        ∑ s ∈ Finset.range A.Grid.Height,
          ∑ jLocal ∈ Finset.range (ldl.LocalLength A.Value.Width s' A.Grid.Width),
            ∑ t ∈ Finset.range (ldl.LocalLength A.Value.Height s A.Grid.Height -
                ldl.LocalLength (s' + jLocal * A.Grid.Width) s A.Grid.Height),
              T (s + (ldl.LocalLength (s' + jLocal * A.Grid.Width) s A.Grid.Height + t)
                  * A.Grid.Height)
                (s' + jLocal * A.Grid.Width) =
        ∑ jLocal ∈ Finset.range (ldl.LocalLength A.Value.Width s' A.Grid.Width),
          ∑ i ∈ Finset.range A.Value.Height,
            if s' + jLocal * A.Grid.Width ≤ i then T i (s' + jLocal * A.Grid.Width) else 0 := by
      intro s' _
      rw [Finset.sum_comm]
      apply Finset.sum_congr rfl
      intro jLocal hj
      have hlt := ldl.LocalLength_lt A.Value.Width s' A.Grid.Width jLocal hc
        (Finset.mem_range.mp hj)
      rw [sum_range_ite_ge (fun i => T i (s' + jLocal * A.Grid.Width)) _ A.Value.Height
        (by omega)]
      exact ldl.sum_owned_from A.Grid.Height hr (fun i => T i (s' + jLocal * A.Grid.Width))
        (s' + jLocal * A.Grid.Width) A.Value.Height (by omega)
    rw [htot, Finset.sum_comm, Finset.sum_congr rfl hstep]
    refine (ldl.sum_owned A.Grid.Width hc
      (fun j => ∑ i ∈ Finset.range A.Value.Height, if j ≤ i then T i j else 0)
      A.Value.Width).trans ?_
    apply Finset.sum_congr rfl
    intro j _
    apply Finset.sum_congr rfl
    intro i _
    simp

end LocalLoops

/-! ## C16 and C17: the entrywise one-norm of a Hermitian matrix -/

section Norm

variable {F R : Type} [LinearOrderedField R]

/-- The terms added up over a triangle with its diagonal, the diagonal once and the rest
twice, are the diagonal terms plus twice the terms strictly inside the triangle. -/
theorem triangle_sum_split (uplo : UpperOrLower) (a : Nat → Nat → R) (n : Nat) :
    ∑ j ∈ Finset.range n, ∑ i ∈ Finset.range n,
        (if (uplo = UpperOrLower.UPPER ∧ i ≤ j) ∨ (uplo = UpperOrLower.LOWER ∧ j ≤ i) then
          (if i = j then a i j else 2 * a i j)
        else 0) =
      (∑ i ∈ Finset.range n, a i i) +
        2 * ∑ j ∈ Finset.range n, ∑ i ∈ Finset.range n,
          if (uplo = UpperOrLower.UPPER ∧ i < j) ∨ (uplo = UpperOrLower.LOWER ∧ j < i) then a i j
          else 0 := by
  have hpt : ∀ j i,
      (if (uplo = UpperOrLower.UPPER ∧ i ≤ j) ∨ (uplo = UpperOrLower.LOWER ∧ j ≤ i) then
        (if i = j then a i j else 2 * a i j)
      else 0) =
      (if i = j then a i j else 0) +
        2 * (if (uplo = UpperOrLower.UPPER ∧ i < j) ∨ (uplo = UpperOrLower.LOWER ∧ j < i) then
          a i j else 0) := by
    intro j i
    rcases lt_trichotomy i j with h | h | h
    · have h1 : ¬ i = j := by omega
      have h2 : i ≤ j := by omega
      have h3 : ¬ j ≤ i := by omega
      have h4 : ¬ j < i := by omega
      cases uplo <;> simp [h, h1, h2, h3, h4]
    · subst h
      cases uplo <;> simp
    · have h1 : ¬ i = j := by omega
      have h2 : ¬ i ≤ j := by omega
      have h3 : j ≤ i := by omega
      have h4 : ¬ i < j := by omega
      cases uplo <;> simp [h, h1, h2, h3, h4]
  have hdiag : ∀ j ∈ Finset.range n,
      ∑ i ∈ Finset.range n, (if i = j then a i j else 0) = a j j := by
    intro j hj
    rw [Finset.sum_ite_eq' (Finset.range n) j (fun i => a i j), if_pos hj]
  rw [Finset.sum_congr rfl (fun j _ => Finset.sum_congr rfl (fun i _ => hpt j i))]
  simp only [Finset.sum_add_distrib, ← Finset.mul_sum]
  rw [Finset.sum_congr rfl hdiag]

/-- What the serial routine returns for a square matrix: twice the sum over the entries
strictly inside the selected triangle. The inner loops run over `i < j` (`UPPER`) and
`j < i` (`LOWER`) and never reach `i = j`. -/
theorem HermitianEntrywiseOneNorm_eq (Abs : F → R) (uplo : UpperOrLower) (A : Matrix F)
    (hsq : A.Height = A.Width) :
    HermitianEntrywiseOneNorm Abs uplo A =
      .ok (2 * ∑ j ∈ Finset.range A.Width, ∑ i ∈ Finset.range A.Height,
        if (uplo = UpperOrLower.UPPER ∧ i < j) ∨ (uplo = UpperOrLower.LOWER ∧ j < i) then
          Abs (A.Get i j)
        else 0) := by
  have hbody : ∀ (j i : Nat) (acc : R),
      (if i = j then acc + Abs (A.Get i j) else acc + 2 * Abs (A.Get i j)) =
        acc + (if i = j then Abs (A.Get i j) else 2 * Abs (A.Get i j)) := by
    intro j i acc
    split_ifs <;> rfl
  unfold HermitianEntrywiseOneNorm
  rw [if_neg (not_not.mpr hsq)]
  cases uplo with
  | UPPER =>
    rw [if_pos rfl]
    congr 1
    rw [forLoop_acc 0 _ (fun j => ∑ i ∈ Finset.range j, 2 * Abs (A.Get i j)), zero_add,
      Finset.mul_sum]
    · apply Finset.sum_congr rfl
      intro j hj
      have hj' := Finset.mem_range.mp hj
      rw [Nat.zero_add, Finset.mul_sum,
        sum_range_extend (fun i => 2 * if UpperOrLower.UPPER = UpperOrLower.UPPER ∧ i < j ∨
            UpperOrLower.UPPER = UpperOrLower.LOWER ∧ j < i then Abs (A.Get i j) else 0)
          j A.Height (by omega)
          (fun m hm => by beta_reduce; rw [if_neg (by simp; omega), mul_zero])]
      apply Finset.sum_congr rfl
      intro i hi
      have hi' := Finset.mem_range.mp hi
      simp [hi']
    · intro j acc
      rw [forLoop_acc 0 _ (fun i => if i = j then Abs (A.Get i j) else 2 * Abs (A.Get i j))
        (hbody j)]
      congr 1
      apply Finset.sum_congr rfl
      intro i hi
      have hi' := Finset.mem_range.mp hi
      rw [Nat.zero_add, if_neg (by omega)]
  | LOWER =>
    have hne : ¬ (UpperOrLower.LOWER = UpperOrLower.UPPER) := by decide
    simp only [if_neg hne]
    congr 1
    rw [forLoop_acc 0 _
      (fun j => ∑ t ∈ Finset.range (A.Height - (j + 1)), 2 * Abs (A.Get (j + 1 + t) j)),
      zero_add, Finset.mul_sum]
    · apply Finset.sum_congr rfl
      intro j hj
      have hj' := Finset.mem_range.mp hj
      rw [Nat.zero_add, Finset.mul_sum,
        ← sum_range_ite_ge (fun i => 2 * Abs (A.Get i j)) (j + 1) A.Height (by omega)]
      apply Finset.sum_congr rfl
      intro i _
      by_cases h : j + 1 ≤ i
      · have h' : j < i := h
        simp [h, h']
      · have h' : ¬ j < i := h
        simp [h, h']
    · intro j acc
      rw [forLoop_acc (j + 1) _
        (fun i => if i = j then Abs (A.Get i j) else 2 * Abs (A.Get i j)) (hbody j)]
      congr 1
      apply Finset.sum_congr rfl
      intro t _
      rw [if_neg (by omega)]

/-- C16 fails, and the code is at fault: the serial routine never counts the diagonal.
For every square `A` and either `uplo` it returns twice the sum of `|A[i][j]|` over the
entries strictly inside the selected triangle, which is the norm of the specification
less the sum of the `|A[i][i]|`. -/
theorem C16_serial_norm_misses_diagonal (Abs : F → R) (uplo : UpperOrLower) (A : Matrix F)
    (hsq : A.Height = A.Width) :
    ∃ norm, HermitianEntrywiseOneNorm Abs uplo A = .ok norm ∧
      norm = 2 * ∑ j ∈ Finset.range A.Width, ∑ i ∈ Finset.range A.Height,
        (if (uplo = UpperOrLower.UPPER ∧ i < j) ∨ (uplo = UpperOrLower.LOWER ∧ j < i) then
          Abs (A.Get i j)
        else 0) ∧
      norm + ∑ i ∈ Finset.range A.Height, Abs (A.Get i i) =
        SpecHermitianEntrywiseOneNorm Abs uplo A := by
  refine ⟨_, HermitianEntrywiseOneNorm_eq Abs uplo A hsq, rfl, ?_⟩
  unfold SpecHermitianEntrywiseOneNorm
  rw [add_comm]

/-- Witness for C16: on the `1 x 1` matrix `[[1]]` the serial routine returns `0` for
both triangles, where the norm is `1`; on `A[i][j] = i + j` of order 4 it returns `36`,
where the norm is `48`. -/
theorem C16_serial_norm_misses_diagonal_witness :
    exampleOne.Height = exampleOne.Width ∧
    (∃ norm, HermitianEntrywiseOneNorm (fun x : ℚ => |x|) UpperOrLower.UPPER exampleOne
        = .ok norm ∧
      norm = 2 * ∑ j ∈ Finset.range exampleOne.Width, ∑ i ∈ Finset.range exampleOne.Height,
        (if (UpperOrLower.UPPER = UpperOrLower.UPPER ∧ i < j) ∨
            (UpperOrLower.UPPER = UpperOrLower.LOWER ∧ j < i) then
          (fun x : ℚ => |x|) (exampleOne.Get i j)
        else 0) ∧
      norm + ∑ i ∈ Finset.range exampleOne.Height, (fun x : ℚ => |x|) (exampleOne.Get i i) =
        SpecHermitianEntrywiseOneNorm (fun x : ℚ => |x|) UpperOrLower.UPPER exampleOne) ∧
    HermitianEntrywiseOneNorm (fun x : ℚ => |x|) UpperOrLower.UPPER exampleOne = .ok 0 ∧
    HermitianEntrywiseOneNorm (fun x : ℚ => |x|) UpperOrLower.LOWER exampleOne = .ok 0 ∧
    SpecHermitianEntrywiseOneNorm (fun x : ℚ => |x|) UpperOrLower.UPPER exampleOne = 1 ∧
    SpecHermitianEntrywiseOneNorm (fun x : ℚ => |x|) UpperOrLower.LOWER exampleOne = 1 ∧
    HermitianEntrywiseOneNorm (fun x : ℚ => |x|) UpperOrLower.UPPER ldl.exampleSum = .ok 36 ∧
    HermitianEntrywiseOneNorm (fun x : ℚ => |x|) UpperOrLower.LOWER ldl.exampleSum = .ok 36 ∧
    SpecHermitianEntrywiseOneNorm (fun x : ℚ => |x|) UpperOrLower.LOWER ldl.exampleSum = 48 :=
  ⟨rfl,
    C16_serial_norm_misses_diagonal (fun x : ℚ => |x|) UpperOrLower.UPPER exampleOne rfl,
    by decide!, by decide!, by decide!, by decide!, by decide!, by decide!, by decide!⟩

/-- C17. For every grid `r x c`, every square matrix distributed over it in the `[MC,MR]`
distribution (alignments below the strides, so worker `(p, q)` owns the global rows
`colShift + iLocal*r` and the global columns `rowShift + jLocal*c`) and either `uplo`, the
distributed `HermitianEntrywiseOneNorm` returns the sum over `i` of `|A[i][i]|` plus twice
the sum of `|A[i][j]|` over the strict triangle; and the loop nests of all workers
together reach every entry of the selected triangle (diagonal included) exactly once and
no other entry. -/
theorem C17_distributed_norm (Abs : F → R) (uplo : UpperOrLower) (A : DistMatrix F)
    (hsq : A.Value.Height = A.Value.Width) (hca : A.ColAlignment < A.Grid.Height)
    (hra : A.RowAlignment < A.Grid.Width) :
    DistHermitianEntrywiseOneNorm Abs uplo A =
      .ok (SpecHermitianEntrywiseOneNorm Abs uplo A.Value) ∧
    ∀ i0 j0,
      ∑ p ∈ Finset.range A.Grid.Height, ∑ q ∈ Finset.range A.Grid.Width,
          HermitianLocalVisits uplo A p q i0 j0 =
        if ((uplo = UpperOrLower.UPPER ∧ i0 ≤ j0) ∨ (uplo = UpperOrLower.LOWER ∧ j0 ≤ i0)) ∧
            i0 < A.Value.Height ∧ j0 < A.Value.Width then 1
        else 0 := by
  constructor
  · unfold DistHermitianEntrywiseOneNorm
    rw [if_neg (not_not.mpr hsq)]
    congr 1
    have hT := HermitianLocalLoops_total A uplo hsq hca hra
      (fun p q iLocal jLocal i j localSum =>
        let alpha := Abs (A.GetLocal p q iLocal jLocal)
        if i = j then localSum + alpha else localSum + 2 * alpha)
      (fun i j => if i = j then Abs (A.Value.Get i j) else 2 * Abs (A.Value.Get i j))
      (by
        intro p q iLocal jLocal acc
        unfold DistMatrix.GetLocal
        dsimp only
        split_ifs <;> rfl)
    refine hT.trans ?_
    unfold SpecHermitianEntrywiseOneNorm
    rw [← hsq]
    exact triangle_sum_split uplo (fun i j => Abs (A.Value.Get i j)) A.Value.Height
  · intro i0 j0
    have hT := HermitianLocalLoops_total A uplo hsq hca hra
      (fun _ _ _ _ i j count => if i = i0 ∧ j = j0 then count + 1 else count)
      (fun i j => if i = i0 ∧ j = j0 then 1 else 0)
      (by
        intro p q iLocal jLocal acc
        dsimp only
        split_ifs <;> rfl)
    refine hT.trans ?_
    beta_reduce
    by_cases hin : i0 < A.Value.Height ∧ j0 < A.Value.Width
    · rw [Finset.sum_eq_single j0, Finset.sum_eq_single i0]
      · simp [hin.1, hin.2]
      · intro i _ hi
        have h : ¬ (i = i0 ∧ j0 = j0) := fun h => hi h.1
        rw [if_neg h, ite_self]
      · intro hi
        exact absurd (Finset.mem_range.mpr hin.1) hi
      · intro j _ hj
        apply Finset.sum_eq_zero
        intro i _
        have h : ¬ (i = i0 ∧ j = j0) := fun h => hj h.2
        rw [if_neg h, ite_self]
      · intro hj
        exact absurd (Finset.mem_range.mpr hin.2) hj
    · have hout : ¬ (((uplo = UpperOrLower.UPPER ∧ i0 ≤ j0) ∨
          (uplo = UpperOrLower.LOWER ∧ j0 ≤ i0)) ∧
          i0 < A.Value.Height ∧ j0 < A.Value.Width) := fun h => hin h.2
      rw [if_neg hout]
      apply Finset.sum_eq_zero
      intro j hj
      apply Finset.sum_eq_zero
      intro i hi
      have h : ¬ (i = i0 ∧ j = j0) := by
        intro h
        apply hin
        rw [← h.1, ← h.2]
        exact ⟨Finset.mem_range.mp hi, Finset.mem_range.mp hj⟩
      rw [if_neg h, ite_self]

/-- Witness for C17: `A[i][j] = i + j` of order 4 over the `2 x 3` grid with alignments
`(1, 2)`; both triangles give `48`. -/
theorem C17_distributed_norm_witness :
    (exampleDist.Value.Height = exampleDist.Value.Width ∧
      exampleDist.ColAlignment < exampleDist.Grid.Height ∧
      exampleDist.RowAlignment < exampleDist.Grid.Width) ∧
    (DistHermitianEntrywiseOneNorm (fun x : ℚ => |x|) UpperOrLower.LOWER exampleDist =
      .ok (SpecHermitianEntrywiseOneNorm (fun x : ℚ => |x|) UpperOrLower.LOWER
        exampleDist.Value) ∧
    ∀ i0 j0,
      ∑ p ∈ Finset.range exampleDist.Grid.Height, ∑ q ∈ Finset.range exampleDist.Grid.Width,
          HermitianLocalVisits UpperOrLower.LOWER exampleDist p q i0 j0 =
        if ((UpperOrLower.LOWER = UpperOrLower.UPPER ∧ i0 ≤ j0) ∨
            (UpperOrLower.LOWER = UpperOrLower.LOWER ∧ j0 ≤ i0)) ∧
            i0 < exampleDist.Value.Height ∧ j0 < exampleDist.Value.Width then 1
        else 0) ∧
    DistHermitianEntrywiseOneNorm (fun x : ℚ => |x|) UpperOrLower.LOWER exampleDist = .ok 48 ∧
    DistHermitianEntrywiseOneNorm (fun x : ℚ => |x|) UpperOrLower.UPPER exampleDist = .ok 48 :=
  ⟨⟨rfl, by decide, by decide⟩,
    C17_distributed_norm (fun x : ℚ => |x|) UpperOrLower.LOWER exampleDist rfl (by decide)
      (by decide),
    by decide!, by decide!⟩

end Norm


/-! ## C18: the strict upper triangle is neither read nor written -/

/-- The driver loop run from two related states: when the body maps related states to the
same error or to related states, so does the loop. -/
theorem blockedLoop_rel {σ : Type} (bsize n : Nat) (body : Nat → Nat → σ → Except Error σ)
    (P : σ → σ → Prop)
    (hstep : ∀ k s s', k < n → P s s' →
      (∀ e, body k (min bsize (n - k)) s = .error e →
        body k (min bsize (n - k)) s' = .error e) ∧
      (∀ t, body k (min bsize (n - k)) s = .ok t →
        ∃ t', body k (min bsize (n - k)) s' = .ok t' ∧ P t t'))
    (fuel : Nat) :
    ∀ (k : Nat) (s s' : σ), P s s' →
      (∀ e, blockedLoop bsize n body fuel k s = .error e →
        blockedLoop bsize n body fuel k s' = .error e) ∧
      (∀ t, blockedLoop bsize n body fuel k s = .ok t →
        ∃ t', blockedLoop bsize n body fuel k s' = .ok t' ∧ P t t') := by
  induction fuel with
  | zero =>
    intro k s s' _
    constructor
    · intro e h
      exact h
    · intro t h
      cases h
  | succ fuel ih =>
    intro k s s' hP
    unfold blockedLoop
    by_cases hk : k < n
    · rw [if_pos hk, if_pos hk]
      obtain ⟨herr, hok⟩ := hstep k s s' hk hP
      cases hb : body k (min bsize (n - k)) s with
      | error e0 =>
        rw [herr e0 hb]
        constructor
        · intro e h
          exact h
        · intro t h
          cases h
      | ok t0 =>
        obtain ⟨t0', hb', hP'⟩ := hok t0 hb
        rw [hb']
        exact ih (k + bsize) t0 t0' hP'
    · rw [if_neg hk, if_neg hk]
      constructor
      · intro e h
        cases h
      · intro t h
        cases h
        exact ⟨s', rfl, hP⟩

namespace ldl
variable {F R : Type} [Field F] [LinearOrderedField R] [Scalar F R]

/-- The vector `reg` after a column step. -/
theorem UnbColumn_snd (pivTol regMag : R) (pivSign : Matrix Int) (n j : Nat)
    (s : Matrix F × Matrix R) :
    (UnbColumn pivTol regMag pivSign n j s).2 =
      if ((pivSign.Get j 0 : Int) : R) * Scalar.RealPart (s.1.Get j j) ≤ pivTol then
        s.2.Set j 0 (((pivSign.Get j 0 : Int) : R) * regMag - Scalar.RealPart (s.1.Get j j))
      else s.2 := rfl

/-- The vector `reg` of `RegularizedVar3Unb` depends on the lower triangle of the input
only. -/
theorem UnbState_snd_congr (A B : Matrix F) (pivTol regMag : R) (pivSign : Matrix Int)
    (hH : B.Height = A.Height)
    (hAB : ∀ r c, c ≤ r → r < A.Height → A.Get r c = B.Get r c) (j : Nat) (hj : j ≤ A.Height) :
    (UnbState A pivTol regMag pivSign j).2 = (UnbState B pivTol regMag pivSign j).2 := by
  induction j with
  | zero =>
    rw [UnbState_zero, UnbState_zero, hH]
  | succ j ih =>
    rw [UnbState_succ, UnbState_succ, UnbColumn_snd, UnbColumn_snd, ih (by omega), UnbState_fst,
      UnbState_fst, hH,
      UnbCols_lower_congr pivTol regMag pivSign A.Height 0 A B hAB j (by omega) j j (le_refl _)
        (by omega)]

/-- The panel step fails on its views of `pivSign` or `reg` when one of them does not
reach the end of the panel. -/
theorem RegularizedVar3Panel_views_fail (debug : Bool) (pivTol regMag : R)
    (pivSign : Matrix Int) (n k nb : Nat) (s : Matrix F × Matrix R) (hn : k + nb ≤ n)
    (hH : s.1.Height = n) (hW : s.1.Width = n)
    (hfail : ¬ (k + nb ≤ pivSign.Height ∧ 1 ≤ pivSign.Width ∧ k + nb ≤ s.2.Height ∧
      1 ≤ s.2.Width)) :
    RegularizedVar3Panel debug pivTol regMag pivSign n k nb s =
      .error (.LogicError "view out of bounds") := by
  unfold RegularizedVar3Panel
  dsimp only
  rw [Matrix_View_ok s.1 k (k+nb) k (k+nb) (by omega),
    Matrix_View_ok s.1 (k+nb) n k (k+nb) (by omega),
    Matrix_View_ok s.1 (k+nb) n (k+nb) n (by omega)]
  simp only [bind, Except.bind]
  by_cases hp : k ≤ k + nb ∧ k + nb ≤ pivSign.Height ∧ 0 ≤ 1 ∧ 1 ≤ pivSign.Width
  · rw [Matrix_View_ok pivSign k (k+nb) 0 1 hp]
    simp only
    unfold Matrix.View
    rw [if_neg (by omega)]
  · unfold Matrix.View
    rw [if_neg hp]

/-- The relation kept by the panel steps of two runs of the blocked routine, on inputs
`A` and `B`: both states have order `n`, agree on the lower triangle and hold the same
`reg`, and their strict upper triangles are those of `A` and `B`. -/
theorem RegularizedVar3Panel_rel (debug : Bool) (pivTol regMag : R) (pivSign : Matrix Int)
    (A B : Matrix F) (n k nb : Nat) (s s' : Matrix F × Matrix R) (hn : k + nb ≤ n)
    (hP : (s.1.Height = n ∧ s.1.Width = n ∧ s'.1.Height = n ∧ s'.1.Width = n) ∧
      (∀ i j, j ≤ i → i < n → s.1.Get i j = s'.1.Get i j) ∧ s.2 = s'.2 ∧
      (∀ i j, i < j → s.1.Get i j = A.Get i j) ∧ (∀ i j, i < j → s'.1.Get i j = B.Get i j)) :
    (∀ e, RegularizedVar3Panel debug pivTol regMag pivSign n k nb s = .error e →
      RegularizedVar3Panel debug pivTol regMag pivSign n k nb s' = .error e) ∧
    (∀ t, RegularizedVar3Panel debug pivTol regMag pivSign n k nb s = .ok t →
      ∃ t', RegularizedVar3Panel debug pivTol regMag pivSign n k nb s' = .ok t' ∧
        ((t.1.Height = n ∧ t.1.Width = n ∧ t'.1.Height = n ∧ t'.1.Width = n) ∧
          (∀ i j, j ≤ i → i < n → t.1.Get i j = t'.1.Get i j) ∧ t.2 = t'.2 ∧
          (∀ i j, i < j → t.1.Get i j = A.Get i j) ∧
          (∀ i j, i < j → t'.1.Get i j = B.Get i j))) := by
  obtain ⟨⟨h1, h2, h3, h4⟩, hlow, hreg, hupA, hupB⟩ := hP
  by_cases hv : k + nb ≤ pivSign.Height ∧ 1 ≤ pivSign.Width ∧ k + nb ≤ s.2.Height ∧
      1 ≤ s.2.Width
  · obtain ⟨hv1, hv2, hv3, hv4⟩ := hv
    obtain ⟨r1, hr1, hr1H, hr1W, hr1G⟩ :=
      RegularizedVar3Panel_eq debug pivTol regMag pivSign n k nb s hn h1 h2 hv1 hv2 hv3 hv4
    obtain ⟨r2, hr2, hr2H, hr2W, hr2G⟩ :=
      RegularizedVar3Panel_eq debug pivTol regMag pivSign n k nb s' hn h3 h4 hv1 hv2
        (by rw [← hreg]; exact hv3) (by rw [← hreg]; exact hv4)
    rw [hr1, hr2]
    constructor
    · intro e h
      cases h
    · intro t h
      cases h
      refine ⟨_, rfl, ?_, ?_, ?_, ?_, ?_⟩
      · have hA := UnbCols_Height pivTol regMag pivSign n k s.1 nb
        have hB := UnbCols_Height pivTol regMag pivSign n k s'.1 nb
        exact ⟨hA.1.trans h1, hA.2.trans h2, hB.1.trans h3, hB.2.trans h4⟩
      · intro i j hji hi
        exact UnbCols_lower_congr pivTol regMag pivSign n k s.1 s'.1 hlow nb hn i j hji hi
      · apply Matrix_ext
        · rw [hr1H, hr2H, hreg]
        · rw [hr1W, hr2W, hreg]
        · intro i c
          rw [hr1G i c, hr2G i c, hreg]
          by_cases hc : k ≤ i ∧ i < k + nb ∧ c = 0
          · rw [if_pos hc, if_pos hc]
            unfold UnbRegEntry
            rw [UnbCols_lower_congr pivTol regMag pivSign n k s.1 s'.1 hlow (i - k) (by omega)
              i i (le_refl _) (by omega)]
          · rw [if_neg hc, if_neg hc]
      · intro i j hij
        show (UnbCols pivTol regMag pivSign n k s.1 nb).Get i j = _
        rw [UnbCols_Get_frame pivTol regMag pivSign n k s.1 nb i j hn (Or.inr (Or.inl hij))]
        exact hupA i j hij
      · intro i j hij
        show (UnbCols pivTol regMag pivSign n k s'.1 nb).Get i j = _
        rw [UnbCols_Get_frame pivTol regMag pivSign n k s'.1 nb i j hn (Or.inr (Or.inl hij))]
        exact hupB i j hij
  · have hv' : ¬ (k + nb ≤ pivSign.Height ∧ 1 ≤ pivSign.Width ∧ k + nb ≤ s'.2.Height ∧
        1 ≤ s'.2.Width) := by rw [← hreg]; exact hv
    rw [RegularizedVar3Panel_views_fail debug pivTol regMag pivSign n k nb s hn h1 h2 hv,
      RegularizedVar3Panel_views_fail debug pivTol regMag pivSign n k nb s' hn h3 h4 hv']
    constructor
    · intro e h
      exact h
    · intro t h
      cases h

end ldl

namespace ldl
variable {F R : Type} [Field F] [LinearOrderedField R] [Scalar F R]

/-- C18. For a square `A`, `RegularizedVar3Unb` and the serial blocked `RegularizedVar3`
neither write nor read an entry of `A` strictly above the diagonal. Whatever the other
arguments are, when a call on `A` returns, the strict upper triangle of its output is that
of `A`, and the call on any `B` of the same shape that agrees with `A` on the lower
triangle (diagonal included) returns too, with the same lower triangle and the same
`reg`; when the call on `A` fails, the call on `B` fails in the same way. Both routines do
return on well-formed arguments (conforming `pivSign`; for the blocked routine a `reg`
pre-sized to `n x 1` and a block size of at least 1). -/
theorem C18_upper_triangle_frame (debug : Bool) (fuel bsize : Nat) (A B : Matrix F)
    (pivTol regMag : R) (pivSign : Matrix Int) (regU reg : Matrix R)
    (hsq : A.Height = A.Width) (hBH : B.Height = A.Height) (hBW : B.Width = A.Width)
    (hAB : ∀ i j, j ≤ i → i < A.Height → A.Get i j = B.Get i j) :
    ((∀ e, RegularizedVar3Unb debug A pivTol regMag pivSign regU = .error e →
        RegularizedVar3Unb debug B pivTol regMag pivSign regU = .error e) ∧
      (∀ A' rA, RegularizedVar3Unb debug A pivTol regMag pivSign regU = .ok (A', rA) →
        (∀ i j, i < j → A'.Get i j = A.Get i j) ∧
        ∃ B' rB, RegularizedVar3Unb debug B pivTol regMag pivSign regU = .ok (B', rB) ∧
          (∀ i j, j ≤ i → i < A.Height → A'.Get i j = B'.Get i j) ∧ rA = rB) ∧
      (pivSign.Height = A.Height ∧ pivSign.Width = 1 →
        ∃ out, RegularizedVar3Unb debug A pivTol regMag pivSign regU = .ok out)) ∧
    ((∀ e, RegularizedVar3 debug fuel bsize A pivTol regMag pivSign reg = .error e →
        RegularizedVar3 debug fuel bsize B pivTol regMag pivSign reg = .error e) ∧
      (∀ A' rA, RegularizedVar3 debug fuel bsize A pivTol regMag pivSign reg = .ok (A', rA) →
        (∀ i j, i < j → A'.Get i j = A.Get i j) ∧
        ∃ B' rB, RegularizedVar3 debug fuel bsize B pivTol regMag pivSign reg = .ok (B', rB) ∧
          (∀ i j, j ≤ i → i < A.Height → A'.Get i j = B'.Get i j) ∧ rA = rB) ∧
      (pivSign.Height = A.Height ∧ pivSign.Width = 1 → reg.Height = A.Height ∧ reg.Width = 1 →
        1 ≤ bsize → (A.Height + bsize - 1) / bsize < fuel →
        ∃ out, RegularizedVar3 debug fuel bsize A pivTol regMag pivSign reg = .ok out)) := by
  have hsqB : B.Height = B.Width := by rw [hBH, hBW]; exact hsq
  constructor
  · -- the unblocked routine
    have hU : ∀ (M : Matrix F), M.Height = M.Width → M.Height = A.Height →
        (debug ∧ (pivSign.Height ≠ A.Height ∨ pivSign.Width ≠ 1) →
          RegularizedVar3Unb debug M pivTol regMag pivSign regU =
            .error (.LogicError "pivSign must be a conforming column vector")) ∧
        (¬ (debug ∧ (pivSign.Height ≠ A.Height ∨ pivSign.Width ≠ 1)) →
          RegularizedVar3Unb debug M pivTol regMag pivSign regU =
            .ok (UnbState M pivTol regMag pivSign M.Height)) := by
      intro M hM hMA
      constructor
      · intro hc
        unfold RegularizedVar3Unb
        rw [if_neg (by simp [hM]), if_pos (by rw [hMA]; exact hc)]
      · intro hc
        unfold RegularizedVar3Unb UnbState
        rw [if_neg (by simp [hM]), if_neg (by rw [hMA]; exact hc)]
    by_cases hc : debug ∧ (pivSign.Height ≠ A.Height ∨ pivSign.Width ≠ 1)
    · rw [(hU A hsq rfl).1 hc, (hU B hsqB hBH).1 hc]
      refine ⟨fun e h => h, ?_, ?_⟩
      · intro A' rA h
        cases h
      · intro hp
        exact absurd hc.2 (by simp [hp.1, hp.2])
    · rw [(hU A hsq rfl).2 hc, (hU B hsqB hBH).2 hc]
      refine ⟨?_, ?_, fun _ => ⟨_, rfl⟩⟩
      · intro e h
        cases h
      · intro A' rA h
        have h' := Except.ok.inj h
        have e1 : A' = (UnbState A pivTol regMag pivSign A.Height).1 := by rw [h']
        have e2 : rA = (UnbState A pivTol regMag pivSign A.Height).2 := by rw [h']
        subst e1 e2
        constructor
        · intro i j hij
          rw [UnbState_fst]
          exact UnbCols_Get_frame pivTol regMag pivSign A.Height 0 A A.Height i j (by omega)
            (Or.inr (Or.inl hij))
        · refine ⟨(UnbState B pivTol regMag pivSign B.Height).1,
            (UnbState B pivTol regMag pivSign B.Height).2, rfl, ?_, ?_⟩
          · intro i j hji hi
            rw [UnbState_fst, UnbState_fst, hBH]
            exact UnbCols_lower_congr pivTol regMag pivSign A.Height 0 A B hAB A.Height
              (by omega) i j hji hi
          · rw [hBH]
            exact UnbState_snd_congr A B pivTol regMag pivSign hBH hAB A.Height (le_refl _)
  · -- the blocked routine
    have hrel := blockedLoop_rel bsize A.Height
      (RegularizedVar3Panel debug pivTol regMag pivSign A.Height)
      (fun s s' => (s.1.Height = A.Height ∧ s.1.Width = A.Height ∧ s'.1.Height = A.Height ∧
          s'.1.Width = A.Height) ∧
        (∀ i j, j ≤ i → i < A.Height → s.1.Get i j = s'.1.Get i j) ∧ s.2 = s'.2 ∧
        (∀ i j, i < j → s.1.Get i j = A.Get i j) ∧ (∀ i j, i < j → s'.1.Get i j = B.Get i j))
      (fun k s s' hk hP =>
        RegularizedVar3Panel_rel debug pivTol regMag pivSign A B A.Height k
          (min bsize (A.Height - k)) s s' (by omega) hP)
      fuel 0 (A, reg) (B, reg)
      ⟨⟨rfl, hsq.symm, hBH, by rw [hBW, hsq]⟩, hAB, rfl, fun _ _ _ => rfl, fun _ _ _ => rfl⟩
    have hA : RegularizedVar3 debug fuel bsize A pivTol regMag pivSign reg =
        blockedLoop bsize A.Height (RegularizedVar3Panel debug pivTol regMag pivSign A.Height)
          fuel 0 (A, reg) := by
      unfold RegularizedVar3
      rw [if_neg (by simp [hsq])]
    have hB : RegularizedVar3 debug fuel bsize B pivTol regMag pivSign reg =
        blockedLoop bsize A.Height (RegularizedVar3Panel debug pivTol regMag pivSign A.Height)
          fuel 0 (B, reg) := by
      unfold RegularizedVar3
      rw [if_neg (by simp [hsqB]), hBH]
    rw [hA, hB]
    refine ⟨hrel.1, ?_, ?_⟩
    · intro A' rA h
      obtain ⟨t', ht', -, hlow, hreg, hupA, -⟩ := hrel.2 (A', rA) h
      exact ⟨hupA, t'.1, t'.2, ht', hlow, hreg⟩
    · intro hpiv hreg hb hfuel
      obtain ⟨regB, hB', -, -, -⟩ :=
        RegularizedVar3_loop debug bsize A pivTol regMag pivSign hsq hpiv hb fuel 0 (A, reg)
          (by rw [Nat.sub_zero]; exact hfuel) (by rw [Nat.zero_mul, Nat.zero_min]; rfl)
          hreg.1 hreg.2 (by intro i hi; rw [Nat.zero_mul, Nat.zero_min] at hi; omega)
      rw [Nat.zero_mul] at hB'
      exact ⟨_, hB'⟩

/-- Witness for C18: `[[2, 1], [1, 2]]` against the matrix with the same lower triangle
and `7` above the diagonal, block size 1: the blocked routine returns on both, with the
same lower triangle and the same `reg`, and leaves the entries above the diagonal as they
were. -/
theorem C18_upper_triangle_frame_witness :
    (examplePosDef.Height = examplePosDef.Width ∧
      exampleUpper.Height = examplePosDef.Height ∧ exampleUpper.Width = examplePosDef.Width ∧
      (∀ i j, j ≤ i → i < examplePosDef.Height →
        examplePosDef.Get i j = exampleUpper.Get i j)) ∧
    ∃ A' rA,
      RegularizedVar3 true 3 1 examplePosDef (0 : ℚ) 1 (onesSign 2) (Zeros 2 1)
        = .ok (A', rA) ∧
      (∀ i j, i < j → A'.Get i j = examplePosDef.Get i j) ∧
      ∃ B' rB,
        RegularizedVar3 true 3 1 exampleUpper (0 : ℚ) 1 (onesSign 2) (Zeros 2 1)
          = .ok (B', rB) ∧
        (∀ i j, j ≤ i → i < examplePosDef.Height → A'.Get i j = B'.Get i j) ∧ rA = rB :=
  have hAB : ∀ i j, j ≤ i → i < examplePosDef.Height →
      examplePosDef.Get i j = exampleUpper.Get i j := by
    intro i j hji _
    have h : ¬ i < j := by omega
    show (if i = j then (2 : ℚ) else 1) = (if i < j then 7 else if i = j then 2 else 1)
    rw [if_neg h]
  ⟨⟨rfl, rfl, rfl, hAB⟩, _, _, rfl,
    (C18_upper_triangle_frame true 3 1 examplePosDef exampleUpper 0 1 (onesSign 2) (Zeros 0 0)
      (Zeros 2 1) rfl rfl rfl hAB).2.2.1 _ _ rfl⟩

end ldl

end El
